import Mathlib

/-!
# picpac: record codec, segmented file log and stream sampler

A shallow embedding of `src/picpac.cpp` and proofs about it.

Conventions of the embedding

* `float` labels are rationals (`ℚ`): every finite float is a rational, `int(x)` is
  truncation toward zero, and `c == x` compares exactly.
* `uint32_t` / `unsigned` quantities are natural numbers reduced `% 2^32` wherever the
  source stores or accumulates them; `size_t`, `off_t` and `uint64_t` quantities (container
  sizes and file offsets) are natural numbers.
* `CHECK` failures and thrown exceptions are results of type `Except`.
* The constants and layouts of `picpac.h` (`sizeof(Meta)`, `sizeof(SegmentHeader)`,
  `RECORD_ALIGN`, `MAX_SEG_RECORDS`, `MAX_CATEGORIES`) are parameters.
* `std::shuffle` is a parameter: any function returning a permutation and a new generator.
-/

namespace picpac

/-! ## Record codec -/

/-- A byte of a payload. -/
abbrev Byte := Nat

/-- Failures of the library: thrown exceptions (`BadFile`, `DataCorruption`, `EoS`), failed
`CHECK`s and short reads or writes. Two more outcomes belong to the embedding: `NotAHeader`
(the bytes read as a segment header are not the image of one, so the embedding does not
say what the source computes from them) and `OutOfFuel` (a loop of the embedding was given
too few iterations; the theorems show that this does not happen). -/
inductive Error where
  | BadFile
  | DataCorruption
  | EoS
  | CheckFailed
  | ShortIO
  | NotAHeader
  | OutOfFuel
deriving DecidableEq, Repr

deriving instance DecidableEq for Except

/-- The record header `Record::Meta`: `label`, `width` (a `uint8_t`, the number of fields)
and `fields[i].size` (a `uint32_t` each). -/
structure Meta where
  label : ℚ
  width : Nat
  fields : List Nat
deriving DecidableEq, Repr

/-- A `Record`: `data` is `sizeof(Meta)` header bytes, kept decoded as `meta_ptr`
(the source reads them through `reinterpret_cast<Meta *>(&data[0])`), followed by the
bytes `payload`; `field_ptrs[i]` is kept as the offset `field_ptrs[i] - &data[0]`. -/
structure Record where
  meta_ptr : Meta
  payload : List Byte
  field_ptrs : List Nat
deriving DecidableEq, Repr

/-- The value of `data.size()`. -/
def Record.dataSize (sizeofMeta : Nat) (r : Record) : Nat :=
  sizeofMeta + r.payload.length

/-- Modelled from the spec: `Record::alloc` is defined in `picpac.h`, which is not among
the sources. "builds a header with `fieldCount` = 1 or 2 and the given field byte sizes";
the buffer has `sizeof(RecordHeader) + Σ field byteSize` bytes and the fields lie one after
another behind the header. Field sizes are stored in `uint32_t` slots. -/
def Record.alloc (sizeofMeta : Nat) (label : ℚ) (sizes : List Nat) : Record :=
  { meta_ptr := { label := label, width := sizes.length % 2 ^ 8,
                  fields := sizes.map (fun s => s % 2 ^ 32) }
    payload := List.replicate sizes.sum 0
    field_ptrs := (List.range sizes.length).map (fun i => sizeofMeta + (sizes.take i).sum) }

/-- The effect of `std::copy(src.begin(), src.end(), field_ptrs[i])` on the buffer: the
bytes of `data` from offset `ptr` on are overwritten with `src`. -/
def Record.copyTo (sizeofMeta : Nat) (r : Record) (src : List Byte) (ptr : Nat) : Record :=
  { r with payload := r.payload.take (ptr - sizeofMeta) ++ src
                        ++ r.payload.drop (ptr - sizeofMeta + src.length) }

/-- Embedding of `Record::Record (float label, string const &image, string const &extra)`. -/
def Record.ofStrings (sizeofMeta : Nat) (label : ℚ) (image extra : List Byte) : Record :=
  let r := Record.alloc sizeofMeta label [image.length, extra.length]
  let r := r.copyTo sizeofMeta image (r.field_ptrs.getD 0 0)
  r.copyTo sizeofMeta extra (r.field_ptrs.getD 1 0)

/-- Modelled from the spec: the one-payload constructor `Record (float label, string const
&image)` that `python-api.cpp` calls is defined in `picpac.h`, which is not among the
sources. It encodes a record with `fieldCount` = 1 the way the two-payload one does. -/
def Record.ofString (sizeofMeta : Nat) (label : ℚ) (image : List Byte) : Record :=
  let r := Record.alloc sizeofMeta label [image.length]
  r.copyTo sizeofMeta image (r.field_ptrs.getD 0 0)

/-- The `for` loop of `Record::read`: `n` iterations are left, `i` is the loop counter, `o`
the running `unsigned` offset and `ptrs` the field pointers set so far. -/
def Record.readLoop (m : Meta) (size : Nat) :
    Nat → Nat → Nat → List Nat → Except Error (Nat × List Nat)
  | 0, _, o, ptrs => .ok (o, ptrs)
  | n + 1, i, o, ptrs =>
    if o ≥ size then .error Error.DataCorruption
    else Record.readLoop m size n (i + 1) ((o + m.fields.getD i 0) % 2 ^ 32) (ptrs ++ [o])

/-- Embedding of `Record::read`, after the `pread` has filled `data` with `size` bytes: `m` is the
header found in the first `sizeof(Meta)` bytes and `rest` the bytes behind it, so that
`size = sizeofMeta + rest.length`. -/
def Record.read (sizeofMeta : Nat) (m : Meta) (rest : List Byte) : Except Error Record :=
  let size := sizeofMeta + rest.length
  match Record.readLoop m size m.width 0 (sizeofMeta % 2 ^ 32) [] with
  | .error e => .error e
  | .ok (o, ptrs) =>
    if o > size then .error Error.DataCorruption
    else .ok { meta_ptr := m, payload := rest, field_ptrs := ptrs }

/-- Embedding of `SegmentHeader`: `size` (the record count, a `uint32_t`), the arrays `labels` and
`sizes` (`MAX_SEG_RECORDS` slots each, `sizes` of `uint32_t`) and `link` (a `uint64_t`). -/
structure SegmentHeader where
  size : Nat
  labels : List ℚ
  sizes : List Nat
  link : Nat
deriving DecidableEq, Repr

/-- Modelled from the spec: `SegmentHeader::init` is defined in `picpac.h`, which is not
among the sources. "writes a fresh, zeroed segment header". -/
def SegmentHeader.init (MAX_SEG_RECORDS : Nat) : SegmentHeader :=
  { size := 0, labels := List.replicate MAX_SEG_RECORDS 0,
    sizes := List.replicate MAX_SEG_RECORDS 0, link := 0 }

/-- Embedding of `Locator`: `label`, `offset` (a `uint64_t`) and `size` (a `uint32_t`). -/
structure Locator where
  label : ℚ
  offset : Nat
  size : Nat
deriving DecidableEq, Repr

/-- One byte of a file: never written (`hole`, reads as zero), byte `i` of the in-memory
image of a segment header, or byte `i` of the buffer `data` of a record. -/
inductive Cell where
  | hole
  | segByte (h : SegmentHeader) (i : Nat)
  | recByte (r : Record) (i : Nat)
deriving DecidableEq, Repr

/-- A file: its bytes and its length (`st_size`). -/
structure File where
  cells : Nat → Cell
  size : Nat

/-- The file made by `open` with `O_CREAT | O_EXCL`. -/
def File.empty : File := { cells := fun _ => Cell.hole, size := 0 }

/-- Embedding of `write`/`pwrite` of the `len` bytes `img 0, ..., img (len - 1)` at offset `off`. -/
def File.pwrite (f : File) (off len : Nat) (img : Nat → Cell) : File :=
  { cells := fun p => if off ≤ p ∧ p < off + len then img (p - off) else f.cells p
    size := max f.size (off + len) }

/-- Embedding of `ftruncate (fd, len)`. -/
def File.ftruncate (f : File) (len : Nat) : File :=
  { cells := fun p => if p < len then f.cells p else Cell.hole, size := len }

/-- Embedding of `pread` of `sizeof (SegmentHeader)` bytes at `off`, with the `CHECK` on
the count read; the bytes are turned back into the header whose image they are. -/
def File.preadSeg (sizeofSeg : Nat) (f : File) (off : Nat) : Except Error SegmentHeader :=
  if f.size < off + sizeofSeg then .error Error.ShortIO
  else match f.cells off with
    | Cell.segByte h _ =>
      if ∀ i, i < sizeofSeg → f.cells (off + i) = Cell.segByte h i then .ok h
      else .error Error.NotAHeader
    | _ => .error Error.NotAHeader

/-- The state of a `FileWriter`: the file behind `fd` and the offset of `fd`, `seg_off`,
the header `seg` in memory and the in-segment counter `next`. -/
structure FileWriter where
  file : File
  pos : Nat
  seg_off : Nat
  seg : SegmentHeader
  next : Nat

/-- The constants of `picpac.h` that the writer and the reader use. -/
structure Layout where
  sizeofMeta : Nat
  sizeofSeg : Nat
  RECORD_ALIGN : Nat
  MAX_SEG_RECORDS : Nat

/-- Embedding of `Record::write`: the bytes of `data` go to the current offset, which is
then moved to the next multiple of `RECORD_ALIGN` by `lseek`; returns the padded length
together with the file and the offset of `fd`. The `::write` call is taken to write all of
`data`. -/
def Record.write (L : Layout) (r : Record) (file : File) (pos : Nat) :
    Except Error (Nat × File × Nat) :=
  let begin := pos
  if begin % L.RECORD_ALIGN ≠ 0 then .error Error.CheckFailed
  else
    let written := r.dataSize L.sizeofMeta
    let file := file.pwrite pos written (fun i => Cell.recByte r i)
    let pos := pos + written
    let roundup := (written + L.RECORD_ALIGN - 1) / L.RECORD_ALIGN * L.RECORD_ALIGN
    let x := if roundup > written then pos + (roundup - written) else pos
    if roundup > written ∧ ¬ x > 0 then .error Error.CheckFailed
    else
      let written := if roundup > written then roundup else written
      if x - begin ≠ written then .error Error.CheckFailed
      else if x % L.RECORD_ALIGN ≠ 0 then .error Error.CheckFailed
      else .ok (written, file, x)

/-- Embedding of `FileWriter::open_segment`. -/
def FileWriter.open_segment (L : Layout) (w : FileWriter) : Except Error FileWriter :=
  let seg_off := w.pos
  if seg_off % L.RECORD_ALIGN ≠ 0 then .error Error.CheckFailed
  else
    let seg := SegmentHeader.init L.MAX_SEG_RECORDS
    .ok { file := w.file.pwrite w.pos L.sizeofSeg (fun i => Cell.segByte seg i)
          pos := w.pos + L.sizeofSeg, seg_off := seg_off, seg := seg, next := 0 }

/-- Embedding of `FileWriter::close_segment`. -/
def FileWriter.close_segment (L : Layout) (w : FileWriter) : Except Error FileWriter :=
  let off := w.pos
  if off % L.RECORD_ALIGN ≠ 0 then .error Error.CheckFailed
  else
    let seg := { w.seg with link := off }
    .ok { w with seg := seg
                 file := w.file.pwrite w.seg_off L.sizeofSeg (fun i => Cell.segByte seg i) }

/-- Embedding of `FileWriter::FileWriter`: the file is created empty and the first segment
opened. -/
def FileWriter.create (L : Layout) : Except Error FileWriter :=
  FileWriter.open_segment L
    { file := File.empty, pos := 0, seg_off := 0,
      seg := SegmentHeader.init L.MAX_SEG_RECORDS, next := 0 }

/-- The second half of `FileWriter::append`: the record is written at the current offset
and entered in the header in memory (`sizes` has `uint32_t` slots). -/
def FileWriter.put (L : Layout) (w : FileWriter) (r : Record) : Except Error FileWriter :=
  match r.write L w.file w.pos with
  | .error e => .error e
  | .ok (sz, file, pos) =>
    if ¬ sz > 0 then .error Error.CheckFailed
    else
      .ok { file := file, pos := pos, seg_off := w.seg_off
            seg := { size := (w.seg.size + 1) % 2 ^ 32
                     labels := w.seg.labels.set w.next r.meta_ptr.label
                     sizes := w.seg.sizes.set w.next (sz % 2 ^ 32)
                     link := w.seg.link }
            next := w.next + 1 }

/-- Embedding of `FileWriter::append`: a full segment is closed and a new one opened, then
the record is put. -/
def FileWriter.append (L : Layout) (w : FileWriter) (r : Record) : Except Error FileWriter :=
  if w.next ≥ L.MAX_SEG_RECORDS then
    match FileWriter.close_segment L w with
    | .error e => .error e
    | .ok w =>
      match FileWriter.open_segment L w with
      | .error e => .error e
      | .ok w => FileWriter.put L w r
  else FileWriter.put L w r

/-- Embedding of `FileWriter::~FileWriter`: the file that is left behind. -/
def FileWriter.close (L : Layout) (w : FileWriter) : Except Error File :=
  let off := w.pos
  match FileWriter.close_segment L w with
  | .error e => .error e
  | .ok w => .ok (w.file.ftruncate off)

/-- A sequence of `append`s. -/
def FileWriter.appendAll (L : Layout) : FileWriter → List Record → Except Error FileWriter
  | w, [] => .ok w
  | w, r :: rs =>
    match FileWriter.append L w r with
    | .error e => .error e
    | .ok w => FileWriter.appendAll L w rs

/-- The file written by a `FileWriter` that is opened, given `rs` and closed. -/
def writeFile (L : Layout) (rs : List Record) : Except Error File :=
  match FileWriter.create L with
  | .error e => .error e
  | .ok w =>
    match FileWriter.appendAll L w rs with
    | .error e => .error e
    | .ok w => FileWriter.close L w

/-- The inner `for` loop of `FileReader::ping`: `n` entries are left, `i` is the loop
counter; returns the locators appended and the offset reached. -/
def FileReader.segEntries (seg : SegmentHeader) : Nat → Nat → Nat → List Locator →
    List Locator × Nat
  | 0, _, off, l => (l, off)
  | n + 1, i, off, l =>
    FileReader.segEntries seg n (i + 1) (off + seg.sizes.getD i 0)
      (l ++ [{ label := seg.labels.getD i 0, offset := off, size := seg.sizes.getD i 0 }])

/-- The `while` loop of `FileReader::ping`, for at most `fuel` iterations. -/
def FileReader.pingLoop (L : Layout) (f : File) : Nat → Nat → List Locator →
    Except Error (List Locator)
  | 0, off, l => if off < f.size then .error Error.OutOfFuel else .ok l
  | fuel + 1, off, l =>
    if off < f.size then
      match f.preadSeg L.sizeofSeg off with
      | .error e => .error e
      | .ok seg =>
        let (l, off) := FileReader.segEntries seg seg.size 0 (off + L.sizeofSeg) l
        if off ≠ seg.link then .error Error.CheckFailed
        else FileReader.pingLoop L f fuel seg.link l
    else .ok l

/-- Embedding of `FileReader::ping`. Every iteration that passes its `CHECK` moves `off`
forward by at least `sizeof (SegmentHeader)`, so `st_size` iterations are enough. -/
def FileReader.ping (L : Layout) (f : File) : Except Error (List Locator) :=
  FileReader.pingLoop L f f.size 0 []

/-- The padded length of a record of `n` bytes: `n` rounded up to the next multiple of
`RECORD_ALIGN`. -/
def roundup (L : Layout) (n : Nat) : Nat :=
  (n + L.RECORD_ALIGN - 1) / L.RECORD_ALIGN * L.RECORD_ALIGN

/-- What the code needs of the constants of `picpac.h`: a positive alignment that divides
the size of a segment header, non-empty headers, and a segment capacity that is positive
and fits the `uint32_t` record count. -/
def Layout.WellFormed (L : Layout) : Prop :=
  0 < L.RECORD_ALIGN ∧ L.sizeofSeg % L.RECORD_ALIGN = 0 ∧ 0 < L.sizeofSeg ∧
    0 < L.sizeofMeta ∧ 0 < L.MAX_SEG_RECORDS ∧ L.MAX_SEG_RECORDS < 2 ^ 32

/-- The locators that the spec expects for the records `rs`, when the writer stands at
offset `pos` with `next` records in its segment: a record goes to the current offset, or
behind the header of a new segment when the segment is full, and takes its padded
length. -/
def expectedLocators (L : Layout) : Nat → Nat → List Record → List Locator
  | _, _, [] => []
  | pos, next, r :: rs =>
    let pos := if next ≥ L.MAX_SEG_RECORDS then pos + L.sizeofSeg else pos
    let next := if next ≥ L.MAX_SEG_RECORDS then 0 else next
    { label := r.meta_ptr.label, offset := pos, size := roundup L (r.dataSize L.sizeofMeta) }
      :: expectedLocators L (pos + roundup L (r.dataSize L.sizeofMeta)) (next + 1) rs

/-- The bytes of the record `r` stand in the file `f` from offset `o` on. -/
def RecordAt (L : Layout) (f : File) (o : Nat) (r : Record) : Prop :=
  ∀ j, j < r.dataSize L.sizeofMeta → f.cells (o + j) = Cell.recByte r j

/-- The image of the segment header `h` stands in the file `f` from offset `o` on. -/
def HeaderAt (L : Layout) (f : File) (o : Nat) (h : SegmentHeader) : Prop :=
  ∀ i, i < L.sizeofSeg → f.cells (o + i) = Cell.segByte h i

/-- The locators of the segment whose header `h` stands at offset `o`. -/
def segLocs (L : Layout) (o : Nat) (h : SegmentHeader) : List Locator :=
  (FileReader.segEntries h h.size 0 (o + L.sizeofSeg) []).1

/-- The offset behind the last record of the segment whose header `h` stands at `o`. -/
def segEnd (L : Layout) (o : Nat) (h : SegmentHeader) : Nat :=
  (FileReader.segEntries h h.size 0 (o + L.sizeofSeg) []).2

/-- A chain of segments in the file `f` from offset `o` to offset `o1`: every header
stands at its offset and links to the offset behind its last record, where the next
segment starts. -/
def Segs (L : Layout) (f : File) : Nat → List SegmentHeader → Nat → Prop
  | o, [], o1 => o = o1
  | o, h :: rest, o1 => HeaderAt L f o h ∧ segEnd L o h = h.link ∧ Segs L f h.link rest o1

/-- The locators of a chain of segments that starts at offset `o`. -/
def chainLocs (L : Layout) : Nat → List SegmentHeader → List Locator
  | _, [] => []
  | o, h :: rest => segLocs L o h ++ chainLocs L h.link rest

/-- The locator `loc` is that of the record `r` in the file `f`: it has the label of `r`,
the padded length of `r` as its size, and the bytes of `r` stand at its offset. -/
def Locates (L : Layout) (f : File) (loc : Locator) (r : Record) : Prop :=
  loc.label = r.meta_ptr.label ∧ loc.size = roundup L (r.dataSize L.sizeofMeta) ∧
    RecordAt L f loc.offset r

/-- The locators that a writer has entered in its headers: those of the closed segments
`closed` and those of the header in memory. -/
def writerLocs (L : Layout) (w : FileWriter) (closed : List SegmentHeader) : List Locator :=
  chainLocs L 0 closed ++ (FileReader.segEntries w.seg w.next 0 (w.seg_off + L.sizeofSeg) []).1

/-- The invariant of a `FileWriter` that has closed the segments `closed` and appended the
records `done`: its offsets are aligned, the closed segments form a chain from offset 0 to
`seg_off`, the header in memory counts `next` records, at most `MAX_SEG_RECORDS`, whose
sizes lead from behind the header to the current offset, and the locators entered so far
are those of `done`, none of them overlapping the header on disk or the space from the
current offset on. -/
def WInv (L : Layout) (w : FileWriter) (closed : List SegmentHeader) (done : List Record) :
    Prop :=
  w.pos % L.RECORD_ALIGN = 0 ∧ w.seg_off % L.RECORD_ALIGN = 0 ∧
  Segs L w.file 0 closed w.seg_off ∧
  (FileReader.segEntries w.seg w.next 0 (w.seg_off + L.sizeofSeg) []).2 = w.pos ∧
  w.seg.size = w.next ∧ w.next ≤ L.MAX_SEG_RECORDS ∧
  w.seg.labels.length = L.MAX_SEG_RECORDS ∧ w.seg.sizes.length = L.MAX_SEG_RECORDS ∧
  List.Forall₂ (fun loc r => Locates L w.file loc r ∧
      (loc.offset + r.dataSize L.sizeofMeta ≤ w.seg_off ∨ w.seg_off + L.sizeofSeg ≤ loc.offset) ∧
      loc.offset + r.dataSize L.sizeofMeta ≤ w.pos)
    (writerLocs L w closed) done

/-- The total padded length of the records `recs`. -/
def paddedSize (L : Layout) (recs : List Record) : Nat :=
  (recs.map (fun r => roundup L (r.dataSize L.sizeofMeta))).sum

/-- The records `recs` stand in the file `f` one behind the other from offset `o` on, each
followed by its padding. -/
def RecsAt (L : Layout) (f : File) : Nat → List Record → Prop
  | _, [] => True
  | o, r :: rs => RecordAt L f o r ∧ RecsAt L f (o + roundup L (r.dataSize L.sizeofMeta)) rs

/-- A chain of segments with their records in the file `f`, from offset `o` to offset
`o1`: every header stands at its offset, counts the records of its segment, which stand
behind it, and links to the offset behind the last padded record, where the next segment
starts. -/
def SegChain (L : Layout) (f : File) : Nat → List (SegmentHeader × List Record) → Nat → Prop
  | o, [], o1 => o = o1
  | o, (h, recs) :: rest, o1 =>
    HeaderAt L f o h ∧ h.size = recs.length ∧ RecsAt L f (o + L.sizeofSeg) recs ∧
    h.link = o + L.sizeofSeg + paddedSize L recs ∧ SegChain L f h.link rest o1

/-- The layout invariant of a `FileWriter` that has closed the segments `closed` and holds
the records `cur` in its current segment, whatever the sizes of the records: the offsets
are aligned, the closed segments form a chain from offset 0 to `seg_off`, each with
`MAX_SEG_RECORDS` records, the records of the current segment stand behind its header and
end at the current offset, and the header in memory counts them in `size` and `next`, at
most `MAX_SEG_RECORDS`. -/
def WLay (L : Layout) (w : FileWriter) (closed : List (SegmentHeader × List Record))
    (cur : List Record) : Prop :=
  w.pos % L.RECORD_ALIGN = 0 ∧ w.seg_off % L.RECORD_ALIGN = 0 ∧
  SegChain L w.file 0 closed w.seg_off ∧
  w.pos = w.seg_off + L.sizeofSeg + paddedSize L cur ∧
  RecsAt L w.file (w.seg_off + L.sizeofSeg) cur ∧
  w.seg.size = w.next ∧ w.next = cur.length ∧ w.next ≤ L.MAX_SEG_RECORDS ∧
  w.seg.labels.length = L.MAX_SEG_RECORDS ∧ w.seg.sizes.length = L.MAX_SEG_RECORDS ∧
  ∀ p, p ∈ closed → p.2.length = L.MAX_SEG_RECORDS

/-- Embedding of `Record::write` with the result of its `::write` call made explicit:
`wr n` is the count that `::write` returns for a request of `n` bytes. That many bytes of
`data` go to the current offset; a count other than `data.size()` makes the function return
-1, else the offset is moved to the next multiple of `RECORD_ALIGN` and the padded length
is returned. The result is the `ssize_t`, with the file and the offset of `fd`. -/
def Record.writeIO (L : Layout) (wr : Nat → Nat) (r : Record) (file : File) (pos : Nat) :
    Except Error (Int × File × Nat) :=
  let begin := pos
  if begin % L.RECORD_ALIGN ≠ 0 then .error Error.CheckFailed
  else
    let rr := wr (r.dataSize L.sizeofMeta)
    let file := file.pwrite pos rr (fun i => Cell.recByte r i)
    let pos := pos + rr
    if rr ≠ r.dataSize L.sizeofMeta then .ok (-1, file, pos)
    else
      let written := rr
      let roundup := (written + L.RECORD_ALIGN - 1) / L.RECORD_ALIGN * L.RECORD_ALIGN
      let x := if roundup > written then pos + (roundup - written) else pos
      if roundup > written ∧ ¬ x > 0 then .error Error.CheckFailed
      else
        let written := if roundup > written then roundup else written
        if x - begin ≠ written then .error Error.CheckFailed
        else if x % L.RECORD_ALIGN ≠ 0 then .error Error.CheckFailed
        else .ok ((written : Int), file, x)

/-- The second half of `FileWriter::append`, with the result of `::write` made explicit:
`CHECK (sz > 0)` fails when `Record::write` has returned -1. -/
def FileWriter.putIO (L : Layout) (wr : Nat → Nat) (w : FileWriter) (r : Record) :
    Except Error FileWriter :=
  match r.writeIO L wr w.file w.pos with
  | .error e => .error e
  | .ok (sz, file, pos) =>
    if ¬ sz > 0 then .error Error.CheckFailed
    else
      .ok { file := file, pos := pos, seg_off := w.seg_off
            seg := { size := (w.seg.size + 1) % 2 ^ 32
                     labels := w.seg.labels.set w.next r.meta_ptr.label
                     sizes := w.seg.sizes.set w.next (sz.toNat % 2 ^ 32)
                     link := w.seg.link }
            next := w.next + 1 }

/-- Embedding of `FileWriter::append`, with the result of `::write` made explicit. -/
def FileWriter.appendIO (L : Layout) (wr : Nat → Nat) (w : FileWriter) (r : Record) :
    Except Error FileWriter :=
  if w.next ≥ L.MAX_SEG_RECORDS then
    match FileWriter.close_segment L w with
    | .error e => .error e
    | .ok w =>
      match FileWriter.open_segment L w with
      | .error e => .error e
      | .ok w => FileWriter.putIO L wr w r
  else FileWriter.putIO L wr w r

/-- A sequence of `append`s, with the result of `::write` made explicit. -/
def FileWriter.appendAllIO (L : Layout) (wr : Nat → Nat) :
    FileWriter → List Record → Except Error FileWriter
  | w, [] => .ok w
  | w, r :: rs =>
    match FileWriter.appendIO L wr w r with
    | .error e => .error e
    | .ok w => FileWriter.appendAllIO L wr w rs

/-- The file written by a `FileWriter` that is opened, given `rs` and closed, with the
result of `::write` made explicit: a failed `CHECK` ends the program and leaves no closed
file. -/
def writeFileIO (L : Layout) (wr : Nat → Nat) (rs : List Record) : Except Error File :=
  match FileWriter.create L with
  | .error e => .error e
  | .ok w =>
    match FileWriter.appendAllIO L wr w rs with
    | .error e => .error e
    | .ok w => FileWriter.close L w

/-! ## Stream sampler -/

/-- Embedding of `Stream::Config`. -/
structure Config where
  splits : Nat
  keys : List Nat
  stratify : Bool
  shuffle : Bool
  loop : Bool
  reshuffle : Bool
  seed : Nat
deriving DecidableEq, Repr

/-- Embedding of `Stream::Group`: `id`, the locators `index` and the cursor `next`. -/
structure Group where
  id : Nat
  index : List Locator
  next : Nat
deriving DecidableEq, Repr

/-- The random engine and `std::shuffle`: generator states are natural numbers, `seed`
builds one from `config.seed`, and `shuffle` returns the reordered range and the generator
state left behind. All that is known of `std::shuffle` is that it permutes its range. -/
structure Rng where
  seed : Nat → Nat
  shuffle : Nat → List Locator → List Locator × Nat
  perm : ∀ r l, ((shuffle r l).1).Perm l

/-- The state of a `Stream`: `config`, `rng`, `groups` and `next_group`. -/
structure Stream where
  config : Config
  rng : Nat
  groups : List Group
  next_group : Nat
deriving DecidableEq, Repr

/-- Embedding of `Stream::Config::kfold`. -/
def Config.kfold (c : Config) (K fold : Nat) (train : Bool) : Except Error Config :=
  if ¬ K > 1 then .error Error.CheckFailed
  else if ¬ fold < K then .error Error.CheckFailed
  else if train then
    .ok { c with splits := K, keys := (List.range K).filter (fun k => k ≠ fold) }
  else
    .ok { c with splits := K, keys := [fold], loop := false, reshuffle := false }

/-- Embedding of `std::unique` followed by the `resize`: of every run of equal neighbours
the first stays. -/
def unique : List Nat → List Nat
  | [] => []
  | [a] => [a]
  | a :: b :: t => if a = b then unique (b :: t) else a :: unique (b :: t)

/-- Embedding of `check_sort_dedupe_keys`: the keys after `std::sort` and `std::unique`, or a failed
`CHECK`. -/
def check_sort_dedupe_keys (splits : Nat) (keys : List Nat) : Except Error (List Nat) :=
  let keys := unique (keys.insertionSort (fun a b => a ≤ b))
  if keys.length = 0 then .error Error.CheckFailed
  else if keys.all (fun k => decide (k < splits)) then .ok keys
  else .error Error.CheckFailed

/-- Embedding of `int (e.label)`: truncation toward zero. -/
def truncLabel (label : ℚ) : Int := label.num.tdiv label.den

/-- The bucket `C[c]` that the stratifying loop picks for a locator: its label as an
integer (the loop has `CHECK`ed that it is not negative). -/
def category (e : Locator) : Nat := (truncLabel e.label).toNat

/-- The loop over `all` in the stratifying branch of `Stream::Stream`: `C` are the buckets
and `nc` the largest category seen. -/
def stratifyLoop (MAX_CATEGORIES : Nat) :
    List Locator → List (List Locator) → Nat → Except Error (List (List Locator) × Nat)
  | [], C, nc => .ok (C, nc)
  | e :: rest, C, nc =>
    let c := truncLabel e.label
    if (c : ℚ) ≠ e.label then .error Error.CheckFailed
    else if ¬ c ≥ 0 then .error Error.CheckFailed
    else if ¬ c < MAX_CATEGORIES then .error Error.CheckFailed
    else
      stratifyLoop MAX_CATEGORIES rest (C.modify (fun b => b ++ [e]) (category e))
        (if category e > nc then category e else nc)

/-- The grouping step of `Stream::Stream`: one group per category `0 .. nc` when
stratifying, else one group with all locators. -/
def makeGroups (MAX_CATEGORIES : Nat) (stratify : Bool) (all : List Locator) :
    Except Error (List Group) :=
  if stratify then
    match stratifyLoop MAX_CATEGORIES all (List.replicate MAX_CATEGORIES []) 0 with
    | .error e => .error e
    | .ok (C, nc) =>
      let nc := nc + 1
      .ok ((List.range nc).map (fun c => { id := c, index := C.getD c [], next := 0 }))
  else .ok [{ id := 0, index := all, next := 0 }]

/-- The shuffling step of `Stream::Stream`: every group in turn, one generator. -/
def shuffleGroups (sh : Rng) : Nat → List Group → List Group × Nat
  | rng, [] => ([], rng)
  | rng, g :: gs =>
    let (idx, rng) := sh.shuffle rng g.index
    let (gs, rng) := shuffleGroups sh rng gs
    ({ g with index := idx } :: gs, rng)

/-- The range that `picked.insert` copies for key `k`: from `begin() + size * k / K` up to
`begin() + size * (k + 1) / K`. -/
def pickRange {α : Type} (index : List α) (K k : Nat) : List α :=
  let b := index.length * k / K
  let e := index.length * (k + 1) / K
  (index.drop b).take (e - b)

/-- The loop over `keys` in the slicing step: `picked` grows by one range per key. -/
def pickLoop {α : Type} (index : List α) (K : Nat) : List Nat → List α → List α
  | [], picked => picked
  | k :: keys, picked => pickLoop index K keys (picked ++ pickRange index K k)

/-- The slicing step of `Stream::Stream` for one group. -/
def sliceGroup (K : Nat) (keys : List Nat) (g : Group) : Group :=
  { g with index := pickLoop g.index K keys [] }

/-- The slicing step of `Stream::Stream`. -/
def sliceGroups (K : Nat) (keys : List Nat) (groups : List Group) : List Group :=
  if K > 1 then groups.map (sliceGroup K keys) else groups

/-- The first steps of `Stream::Stream`, from the locators `all` that `ping` found: the
keys are normalized, the groups made, `CHECK`ed and shuffled. Returns the normalized keys,
the groups as they are before slicing and the generator. -/
def Stream.preSlice (sh : Rng) (MAX_CATEGORIES : Nat) (c : Config) (all : List Locator) :
    Except Error (List Nat × List Group × Nat) :=
  match check_sort_dedupe_keys c.splits c.keys with
  | .error e => .error e
  | .ok keys =>
    match makeGroups MAX_CATEGORIES c.stratify all with
    | .error e => .error e
    | .ok groups =>
      if groups.length = 0 then .error Error.CheckFailed
      else if c.shuffle then .ok (keys, shuffleGroups sh (sh.seed c.seed) groups)
      else .ok (keys, groups, sh.seed c.seed)

/-- Embedding of `Stream::Stream`: the first steps, then the slicing step. -/
def Stream.create (sh : Rng) (MAX_CATEGORIES : Nat) (c : Config) (all : List Locator) :
    Except Error Stream :=
  match Stream.preSlice sh MAX_CATEGORIES c all with
  | .error e => .error e
  | .ok (keys, groups, rng) =>
    .ok { config := { c with keys := keys }, rng := rng
          groups := sliceGroups c.splits keys groups, next_group := 0 }

/-- The positions of the spec's range for key `k` in a group of `len` entries:
"`[len*k/K, len*(k+1)/K)` using integer arithmetic". -/
def rangePositions (len K k : Nat) : List Nat :=
  List.range' (len * k / K) (len * (k + 1) / K - len * k / K)

/-- The positions that the spec selects for the keys `keys`: "concatenate the selected
ranges, in key order". -/
def slicePositions (len K : Nat) (keys : List Nat) : List Nat :=
  keys.flatMap (rangePositions len K)

/-- The entries of `index` at the positions `ps`, in the order of `ps`. -/
def entriesAt {α : Type} (index : List α) (ps : List Nat) : List α :=
  ps.filterMap (fun i => index[i]?)

/-- The slicing formula of the spec for a stream `s` made from `c` and `all`: the first
steps of the constructor yield strictly increasing keys with the values of `c.keys`, every
range `[len*k/K, len*(k+1)/K)` of a key lies inside a group of `len` entries, and every
group of `s` is the group before slicing with its entries replaced by the entries at the
positions of these ranges, in key order. -/
def SlicedByFormula (sh : Rng) (MAX_CATEGORIES : Nat) (c : Config) (all : List Locator)
    (s : Stream) : Prop :=
  ∃ keys pre rng, Stream.preSlice sh MAX_CATEGORIES c all = .ok (keys, pre, rng) ∧
    keys.Pairwise (fun a b => a < b) ∧ (∀ k, k ∈ keys ↔ k ∈ c.keys) ∧
    (∀ len k, k ∈ keys →
      len * k / c.splits ≤ len * (k + 1) / c.splits ∧ len * (k + 1) / c.splits ≤ len) ∧
    s.groups = pre.map (fun g =>
      { g with index := entriesAt g.index (slicePositions g.index.length c.splits keys) })

/-- The example of the spec: for locators with the labels 0,0,0,1,1,1,1,2,2,2, stratifying,
`splits = 5`, `keys = {0}` and no shuffling, group 0 has three entries before slicing, the
range of key 0 in it is `[0, 0)`, and group 0 of the stream is empty. -/
def SliceExample (sh : Rng) (MAX_CATEGORIES : Nat) (c : Config) (all : List Locator) : Prop :=
  ∃ g0 rest rng s, Stream.preSlice sh MAX_CATEGORIES c all = .ok ([0], g0 :: rest, rng) ∧
    g0.id = 0 ∧ g0.index.length = 3 ∧ 3 * 0 / 5 = 0 ∧ 3 * (0 + 1) / 5 = 0 ∧
    rangePositions 3 5 0 = [] ∧
    Stream.create sh MAX_CATEGORIES c all = .ok s ∧
    ∃ h0 hrest, s.groups = h0 :: hrest ∧ h0.id = 0 ∧ h0.index = []

/-- A generator whose `shuffle` leaves the order as it is. -/
def Rng.keep : Rng :=
  { seed := fun n => n, shuffle := fun r l => (l, r + 1), perm := fun _ l => List.Perm.refl l }

/-- A generator whose `shuffle` reverses the order. -/
def Rng.flip : Rng :=
  { seed := fun n => n, shuffle := fun r l => (l.reverse, r + 1)
    perm := fun _ l => List.reverse_perm l }

/-- Locators with the labels `labels`, `size` 8 each, at the offsets 0, 8, 16, ... -/
def locatorsOf (labels : List ℚ) : List Locator :=
  (List.range labels.length).map (fun i => { label := labels.getD i 0, offset := 8 * i, size := 8 })

/-- Modelled from the spec: `Stream::size` is defined in `picpac.h`, which is not among the
sources. "`size() -> total usable record count`": the number of entries over all groups
after slicing (the count `used` of the constructor). -/
def Stream.size (s : Stream) : Nat :=
  (s.groups.map (fun g => g.index.length)).sum

/-- The removal loop of `Stream::next`: `std::swap (groups[x-1], groups[x])` for `x` from
its start value while `x < groups.size()`; `n` iterations are left. -/
def swapLoop : Nat → Nat → List Group → List Group
  | 0, _, groups => groups
  | n + 1, x, groups =>
    match groups[x - 1]?, groups[x]? with
    | some a, some b => swapLoop n (x + 1) ((groups.set (x - 1) b).set x a)
    | _, _ => groups

/-- The removal of `groups[next_group]` in `Stream::next`: the swap loop, then
`pop_back`. -/
def retire (groups : List Group) (next_group : Nat) : List Group :=
  (swapLoop (groups.length - (next_group + 1)) (next_group + 1) groups).dropLast

/-- The tail of the loop body of `Stream::next`: the `CHECK`, then entry `g.next` of the
group `g = groups[next_group]` is returned and both cursors move on. -/
def Stream.serve (s : Stream) (g : Group) : Except Error Locator × Stream :=
  match g.index[g.next]? with
  | none => (.error Error.CheckFailed, s)
  | some e =>
    (.ok e, { s with groups := s.groups.set s.next_group { g with next := g.next + 1 }
                     next_group := s.next_group + 1 })

/-- The index that an iteration of `Stream::next` looks at: `next_group`, or 0 when
`next_group` has run past the end. -/
def Stream.cursor (s : Stream) : Nat :=
  if s.next_group ≥ s.groups.length then 0 else s.next_group

/-- The `for (;;)` loop of `Stream::next`, for at most `fuel` iterations. -/
def Stream.nextLoop (sh : Rng) : Nat → Stream → Except Error Locator × Stream
  | 0, s => (.error Error.OutOfFuel, s)
  | fuel + 1, s =>
    if s.next_group ≥ s.groups.length ∧ s.groups.length = 0 then (.error Error.EoS, s)
    else
      let s := if s.next_group ≥ s.groups.length then { s with next_group := 0 } else s
      match s.groups[s.next_group]? with
      | none => (.error Error.CheckFailed, s)
      | some g =>
        if g.next ≥ g.index.length then
          let g := if s.config.loop then { g with next := 0 } else g
          let shuffled := sh.shuffle s.rng g.index
          let reshuffled := s.config.loop && s.config.reshuffle
          let g := if reshuffled then { g with index := shuffled.1 } else g
          let s := { s with rng := if reshuffled then shuffled.2 else s.rng
                            groups := s.groups.set s.next_group g }
          if g.next ≥ g.index.length then
            Stream.nextLoop sh fuel { s with groups := retire s.groups s.next_group }
          else s.serve g
        else s.serve g

/-- Embedding of `Stream::next`. Every iteration but the last removes a group, so one iteration more
than there are groups is enough. -/
def Stream.next (sh : Rng) (s : Stream) : Except Error Locator × Stream :=
  Stream.nextLoop sh (s.groups.length + 1) s

/-- The results of `n` calls of `Stream::next` in a row, and the state after them. -/
def Stream.run (sh : Rng) : Nat → Stream → List (Except Error Locator) × Stream
  | 0, s => ([], s)
  | n + 1, s =>
    let (r, s) := Stream.next sh s
    let (rs, s) := Stream.run sh n s
    (r :: rs, s)

/-- The result of call number `i` (from 0) of `Stream::next`. -/
def Stream.call (sh : Rng) (s : Stream) (i : Nat) : Except Error Locator :=
  (Stream.next sh (Stream.run sh i s).2).1

/-- The entries that a stream has not served yet: for every group, those from its cursor
on. -/
def Stream.remaining (s : Stream) : List Locator :=
  s.groups.flatMap (fun g => g.index.drop g.next)

/-- The groups that have entries. -/
def live (groups : List Group) : List Group :=
  groups.filter (fun g => !g.index.isEmpty)

/-- The groups with entries of `gs` and of `gs1` are the same, one by one and in the same
order, up to the order of the entries inside a group. -/
def SameLive (gs gs1 : List Group) : Prop :=
  List.Forall₂ (fun g g1 => g.id = g1.id ∧ g.index.Perm g1.index) (live gs) (live gs1)

/-- The round-robin view of a looping stream: its groups with entries, starting with the one
that is served next, each with the position of the entry that it serves next. -/
def Stream.rotation (s : Stream) : List (List Locator × Nat) :=
  (live (s.groups.drop s.next_group ++ s.groups.take s.next_group)).map
    (fun g => (g.index, g.next % g.index.length))

/-- A plain round robin over lists with positions: the first list serves the entry at its
position, moves its position on by one, cyclically, and goes to the end of the queue. -/
def rrStep : List (List Locator × Nat) → List (List Locator × Nat)
  | [] => []
  | (idx, cur) :: rest => rest ++ [(idx, (cur + 1) % idx.length)]

/-- What the plain round robin serves next. -/
def rrOut : List (List Locator × Nat) → Option Locator
  | [] => none
  | (idx, cur) :: _ => idx[cur]?

/-- A label that the stratifying branch accepts: an integer value in
`[0, MAX_CATEGORIES)`. -/
def Stratifiable (MAX_CATEGORIES : Nat) (label : ℚ) : Prop :=
  ∃ n : Nat, n < MAX_CATEGORIES ∧ label = n

/-! ## Theorems: record codec -/

theorem pickLoop_eq {α : Type} (index : List α) (K : Nat) (keys : List Nat) (picked : List α) :
    pickLoop index K keys picked = picked ++ keys.flatMap (pickRange index K) := by
  induction keys generalizing picked with
  | nil => simp [pickLoop]
  | cons k keys ih => simp [pickLoop, ih, List.flatMap_cons]

theorem take_drop_eq_entriesAt {α : Type} (l : List α) (a n : Nat) :
    (l.drop a).take n = entriesAt l (List.range' a n) := by
  induction n with
  | zero => simp [entriesAt]
  | succ n ih =>
    rw [List.take_succ, ih, List.range'_concat]
    simp only [entriesAt, List.filterMap_append, List.getElem?_drop, mul_comm 1 n, mul_one]
    congr 1

theorem pickRange_eq {α : Type} (index : List α) (K k : Nat) :
    pickRange index K k = entriesAt index (rangePositions index.length K k) := by
  simp only [pickRange, rangePositions, take_drop_eq_entriesAt]

theorem entriesAt_append {α : Type} (index : List α) (p q : List Nat) :
    entriesAt index (p ++ q) = entriesAt index p ++ entriesAt index q := by
  simp [entriesAt]

theorem pickLoop_eq_entriesAt {α : Type} (index : List α) (K : Nat) (keys : List Nat) :
    pickLoop index K keys [] = entriesAt index (slicePositions index.length K keys) := by
  rw [pickLoop_eq, List.nil_append]
  induction keys with
  | nil => simp [slicePositions, entriesAt]
  | cons k keys ih =>
    simp only [List.flatMap_cons, slicePositions, entriesAt_append] at ih ⊢
    rw [ih, pickRange_eq]

theorem range_bounds (len K k : Nat) (hk : k < K) :
    len * k / K ≤ len * (k + 1) / K ∧ len * (k + 1) / K ≤ len := by
  constructor
  · exact Nat.div_le_div_right (Nat.mul_le_mul_left _ (Nat.le_succ k))
  · calc len * (k + 1) / K ≤ len * K / K :=
          Nat.div_le_div_right (Nat.mul_le_mul_left _ hk)
      _ = len := Nat.mul_div_cancel _ (by omega)

theorem slicePositions_range (len K m : Nat) (hm : m ≤ K) :
    slicePositions len K (List.range m) = List.range' 0 (len * m / K) := by
  induction m with
  | zero => simp [slicePositions]
  | succ m ih =>
    have hb := range_bounds len K m (by omega)
    have ih := ih (by omega)
    simp only [slicePositions] at ih
    simp only [slicePositions, List.range_succ, List.flatMap_append, ih, List.flatMap_cons,
      List.flatMap_nil, List.append_nil, rangePositions]
    have := List.range'_append 0 (len * m / K) (len * (m + 1) / K - len * m / K) 1
    simp only [zero_add, one_mul] at this
    rw [this]
    congr 1
    omega

theorem slicePositions_full (len K : Nat) (hK : 0 < K) :
    slicePositions len K (List.range K) = List.range len := by
  rw [slicePositions_range len K K le_rfl, Nat.mul_div_cancel _ hK, List.range_eq_range']

theorem entriesAt_range {α : Type} (l : List α) : entriesAt l (List.range l.length) = l := by
  have := take_drop_eq_entriesAt l 0 l.length
  simp at this
  rw [List.range_eq_range']
  exact this.symm

/-! ## Theorems: key normalization -/

theorem mem_unique (k : Nat) (l : List Nat) : k ∈ unique l ↔ k ∈ l := by
  induction l using unique.induct with
  | case1 => simp [unique]
  | case2 a => simp [unique]
  | case3 a t ih => simp [unique, ih]
  | case4 a b t h ih => simp [unique, h, ih]

theorem unique_sorted (l : List Nat) (h : l.Pairwise (fun a b => a ≤ b)) :
    (unique l).Pairwise (fun a b => a < b) := by
  induction l using unique.induct with
  | case1 => simp [unique]
  | case2 a => simp [unique]
  | case3 a t ih =>
    simp only [unique, if_true]
    exact ih (List.Pairwise.of_cons h)
  | case4 a b t hab ih =>
    simp only [unique, hab, if_false]
    rw [List.pairwise_cons]
    refine ⟨?_, ih (List.Pairwise.of_cons h)⟩
    intro x hx
    rw [mem_unique] at hx
    rw [List.pairwise_cons] at h
    have h1 := h.1 b (by simp)
    have h2 : b ≤ x := by
      rcases List.mem_cons.mp hx with rfl | hx
      · exact le_rfl
      · exact (List.pairwise_cons.mp h.2).1 x hx
    omega

theorem unique_of_strict (l : List Nat) (h : l.Pairwise (fun a b => a < b)) : unique l = l := by
  induction l using unique.induct with
  | case1 => simp [unique]
  | case2 a => simp [unique]
  | case3 a t ih =>
    rw [List.pairwise_cons] at h
    have := h.1 a (by simp)
    omega
  | case4 a b t hab ih =>
    simp only [unique, hab, if_false]
    rw [ih (List.Pairwise.of_cons h)]

/-- What `check_sort_dedupe_keys` returns: a non-empty, strictly increasing list with the
values of the input, all below `splits`. -/
theorem check_sort_dedupe_keys_ok (splits : Nat) (keys keys1 : List Nat)
    (h : check_sort_dedupe_keys splits keys = .ok keys1) :
    keys1 ≠ [] ∧ keys1.Pairwise (fun a b => a < b) ∧ (∀ k, k ∈ keys1 ↔ k ∈ keys) ∧
      ∀ k, k ∈ keys1 → k < splits := by
  unfold check_sort_dedupe_keys at h
  simp only at h
  split at h
  · cases h
  · rename_i hlen
    split at h
    · rename_i hall
      injection h with h
      subst h
      refine ⟨?_, ?_, ?_, ?_⟩
      · intro hnil; simp [hnil] at hlen
      · exact unique_sorted _ (List.sorted_insertionSort (fun a b : Nat => a ≤ b) keys)
      · intro k
        rw [mem_unique]
        exact (List.perm_insertionSort _ keys).mem_iff
      · intro k hk
        simpa using (List.all_eq_true.mp hall) k hk
    · cases h

/-- Keys that are already normalized pass `check_sort_dedupe_keys` unchanged. -/
theorem check_sort_dedupe_keys_of_normal (splits : Nat) (keys : List Nat) (hne : keys ≠ [])
    (hs : keys.Pairwise (fun a b => a < b)) (hlt : ∀ k, k ∈ keys → k < splits) :
    check_sort_dedupe_keys splits keys = .ok keys := by
  have hle : keys.Sorted (fun a b => a ≤ b) := hs.imp (fun h => Nat.le_of_lt h)
  unfold check_sort_dedupe_keys
  simp only [List.Sorted.insertionSort_eq hle, unique_of_strict keys hs]
  rw [if_neg (by simpa using hne), if_pos]
  exact List.all_eq_true.mpr (fun k hk => by simpa using hlt k hk)

/-- Two strictly increasing lists with the same values are equal. -/
theorem strict_ext (l1 l2 : List Nat) (h1 : l1.Pairwise (fun a b => a < b))
    (h2 : l2.Pairwise (fun a b => a < b)) (h : ∀ k, k ∈ l1 ↔ k ∈ l2) : l1 = l2 := by
  have n1 : l1.Nodup := h1.imp (fun h => Nat.ne_of_lt h)
  have n2 : l2.Nodup := h2.imp (fun h => Nat.ne_of_lt h)
  exact List.eq_of_perm_of_sorted ((List.perm_ext_iff_of_nodup n1 n2).mpr h)
    (h1.imp (fun h => Nat.le_of_lt h) : l1.Sorted (fun a b => a ≤ b))
    (h2.imp (fun h => Nat.le_of_lt h))

theorem range_strict (K : Nat) : (List.range K).Pairwise (fun a b => a < b) :=
  List.pairwise_lt_range K

theorem filter_range_strict (K fold : Nat) :
    ((List.range K).filter (fun k => k ≠ fold)).Pairwise (fun a b => a < b) :=
  (range_strict K).filter _

/-! ## Theorems: grouping -/

theorem truncLabel_natCast (n : Nat) : truncLabel (n : ℚ) = n := by
  simp [truncLabel]

theorem category_natCast (e : Locator) (n : Nat) (h : e.label = n) : category e = n := by
  simp [category, h, truncLabel_natCast]

theorem getD_modify_append (C : List (List Locator)) (e : Locator) (n c : Nat)
    (hn : n < C.length) :
    (C.modify (fun b => b ++ [e]) n).getD c [] =
      C.getD c [] ++ (if n = c then [e] else []) := by
  simp only [List.getD_eq_getElem?_getD, List.getElem?_modify]
  by_cases h : n = c
  · subst h
    simp [List.getElem?_eq_getElem hn]
  · cases hc : C[c]? <;> simp [h]

/-- The stratifying loop on valid labels: it succeeds, `nc` ends as the largest category
seen and bucket `c` has gained the locators of category `c` in scan order. -/
theorem stratifyLoop_ok (M : Nat) (all : List Locator) (C : List (List Locator)) (nc : Nat)
    (hC : C.length = M) (hv : ∀ e, e ∈ all → ∃ n : Nat, n < M ∧ e.label = n) :
    ∃ C1, stratifyLoop M all C nc = .ok (C1, all.foldl (fun m e => max m (category e)) nc) ∧
      C1.length = M ∧
      ∀ c, C1.getD c [] = C.getD c [] ++ all.filter (fun e => category e = c) := by
  induction all generalizing C nc with
  | nil => exact ⟨C, by simp [stratifyLoop], hC, by simp⟩
  | cons e rest ih =>
    obtain ⟨n, hn, hl⟩ := hv e (by simp)
    have hcat := category_natCast e n hl
    have hlen : (C.modify (fun b => b ++ [e]) (category e)).length = M := by
      rw [List.length_modify]; exact hC
    obtain ⟨C1, h1, h2, h3⟩ := ih (C.modify (fun b => b ++ [e]) (category e))
      (if category e > nc then category e else nc) hlen
      (fun e1 he1 => hv e1 (List.mem_cons_of_mem _ he1))
    refine ⟨C1, ?_, h2, ?_⟩
    · unfold stratifyLoop
      simp only [hl, truncLabel_natCast, Int.cast_natCast, ne_eq, not_true_eq_false, if_false,
        Nat.cast_nonneg, ge_iff_le, Nat.cast_lt, hn, not_lt]
      rw [h1]
      simp only [List.foldl_cons]
      congr 3
      split
      · rw [max_eq_right (by omega)]
      · rw [max_eq_left (by omega)]
    · intro c
      rw [h3 c, getD_modify_append C e (category e) c (by omega)]
      by_cases hc : category e = c
      · simp [hc, List.filter_cons]
      · simp [hc, List.filter_cons]

theorem le_foldl_max (l : List Locator) (nc : Nat) :
    nc ≤ l.foldl (fun m e => max m (category e)) nc ∧
      ∀ e, e ∈ l → category e ≤ l.foldl (fun m e => max m (category e)) nc := by
  induction l generalizing nc with
  | nil => simp
  | cons a l ih =>
    simp only [List.foldl_cons, List.mem_cons]
    have h := ih (max nc (category a))
    refine ⟨le_trans (le_max_left _ _) h.1, ?_⟩
    rintro e (rfl | he)
    · exact le_trans (le_max_right _ _) h.1
    · exact h.2 e he

theorem foldl_max_attained (l : List Locator) (nc : Nat) :
    l.foldl (fun m e => max m (category e)) nc = nc ∨
      ∃ e, e ∈ l ∧ category e = l.foldl (fun m e => max m (category e)) nc := by
  induction l generalizing nc with
  | nil => simp
  | cons a l ih =>
    simp only [List.foldl_cons, List.mem_cons]
    rcases ih (max nc (category a)) with h | ⟨e, he, h⟩
    · rw [h]
      rcases le_total nc (category a) with h1 | h1
      · right; exact ⟨a, Or.inl rfl, by rw [max_eq_right h1]⟩
      · left; exact max_eq_left h1
    · right; exact ⟨e, Or.inr he, h⟩

/-- The groups that the stratifying branch builds: one per category from 0 to the largest
one seen, each with the locators of its category in scan order. -/
theorem makeGroups_stratify (M : Nat) (all : List Locator)
    (hv : ∀ e, e ∈ all → ∃ n : Nat, n < M ∧ e.label = n) :
    makeGroups M true all = .ok ((List.range (all.foldl (fun m e => max m (category e)) 0 + 1)).map
      (fun c => { id := c, index := all.filter (fun e => category e = c), next := 0 })) := by
  obtain ⟨C1, h1, -, h3⟩ := stratifyLoop_ok M all (List.replicate M []) 0 (by simp) hv
  unfold makeGroups
  simp only [if_true, h1]
  congr 1
  apply List.map_congr_left
  intro c _
  rw [h3 c]
  simp [List.getD_eq_getElem?_getD, List.getElem?_replicate]
  split <;> simp

theorem count_filter_category (a : Locator) (c : Nat) (l : List Locator) :
    List.count a (l.filter (fun e => category e = c)) =
      if category a = c then List.count a l else 0 := by
  split
  · rename_i h
    exact List.count_filter (by simpa using h)
  · rename_i h
    apply List.count_eq_zero_of_not_mem
    simp [List.mem_filter, h]

theorem sum_indicator (cs : List Nat) (hn : cs.Nodup) (k x : Nat) :
    (cs.map (fun c => if k = c then x else 0)).sum = if k ∈ cs then x else 0 := by
  induction cs with
  | nil => simp
  | cons c cs ih =>
    rw [List.nodup_cons] at hn
    simp only [List.map_cons, List.sum_cons, ih hn.2, List.mem_cons]
    by_cases h : k = c
    · subst h; simp [hn.1]
    · simp [h]

/-- The buckets of the categories `0 .. m` hold every locator of `l` once, when no
category of `l` exceeds `m`. -/
theorem buckets_perm (l : List Locator) (m : Nat) (h : ∀ e, e ∈ l → category e ≤ m) :
    ((List.range (m + 1)).flatMap (fun c => l.filter (fun e => category e = c))).Perm l := by
  rw [List.perm_iff_count]
  intro a
  rw [List.count_flatMap]
  have : (List.count a ∘ fun c => l.filter (fun e => category e = c)) =
      fun c => if category a = c then List.count a l else 0 := by
    funext c
    exact count_filter_category a c l
  rw [this, sum_indicator _ (List.nodup_range _)]
  split
  · rfl
  · rename_i hna
    symm
    apply List.count_eq_zero_of_not_mem
    intro ha
    exact hna (List.mem_range.mpr (Nat.lt_succ_of_le (h a ha)))

theorem category_eq_iff (M : Nat) (e : Locator) (c : Nat)
    (hv : ∃ n : Nat, n < M ∧ e.label = n) : category e = c ↔ e.label = c := by
  obtain ⟨n, -, hl⟩ := hv
  rw [category_natCast e n hl, hl]
  exact ⟨fun h => by rw [h], fun h => by exact_mod_cast h⟩

theorem filter_category_eq (M : Nat) (all : List Locator) (c : Nat)
    (hv : ∀ e, e ∈ all → ∃ n : Nat, n < M ∧ e.label = n) :
    all.filter (fun e => category e = c) = all.filter (fun e => e.label = (c : ℚ)) := by
  apply List.filter_congr
  intro e he
  simp only [decide_eq_decide]
  exact category_eq_iff M e c (hv e he)

/-- C9: when stratifying locators whose labels are integers in `[0, MAX_CATEGORIES)`, the
grouping step succeeds; the groups together hold every scanned locator exactly once, group
ids are pairwise different and the id of a group is the label of each of its locators (so
a locator lies in one group only), and every group holds its locators in scan order: it
is the scanned list filtered by the label. -/
theorem stratification_partitioning (M : Nat) (all : List Locator)
    (hv : ∀ e, e ∈ all → ∃ n : Nat, n < M ∧ e.label = n) :
    ∃ groups, makeGroups M true all = .ok groups ∧
      (groups.flatMap Group.index).Perm all ∧
      (groups.map Group.id).Nodup ∧
      (∀ g, g ∈ groups → ∀ e, e ∈ g.index → e.label = (g.id : ℚ)) ∧
      (∀ g, g ∈ groups → g.next = 0 ∧ g.index = all.filter (fun e => e.label = (g.id : ℚ))) := by
  refine ⟨_, makeGroups_stratify M all hv, ?_, ?_, ?_, ?_⟩
  · rw [List.flatMap_map]
    exact buckets_perm all _ (le_foldl_max all 0).2
  · rw [List.map_map]
    have : ∀ l : List Nat, l.map (Group.id ∘ fun c =>
        Group.mk c (all.filter (fun e => category e = c)) 0) = l := by
      intro l
      induction l with
      | nil => rfl
      | cons a l ih => simp [ih]
    rw [this]
    exact List.nodup_range _
  · intro g hg e he
    obtain ⟨c, -, rfl⟩ := List.mem_map.mp hg
    simp only [List.mem_filter, decide_eq_true_eq] at he
    exact (category_eq_iff M e c (hv e he.1)).mp he.2
  · intro g hg
    obtain ⟨c, -, rfl⟩ := List.mem_map.mp hg
    exact ⟨rfl, filter_category_eq M all c hv⟩

/-- Witness of `stratification_partitioning`: three locators with the labels 1, 0, 1 and
2000 categories. -/
theorem stratification_partitioning_witness :
    ∃ groups, makeGroups 2000 true [⟨1, 0, 8⟩, ⟨0, 8, 8⟩, ⟨1, 16, 8⟩] = .ok groups ∧
      (groups.flatMap Group.index).Perm [⟨1, 0, 8⟩, ⟨0, 8, 8⟩, ⟨1, 16, 8⟩] ∧
      (groups.map Group.id).Nodup ∧
      (∀ g, g ∈ groups → ∀ e, e ∈ g.index → e.label = (g.id : ℚ)) ∧
      (∀ g, g ∈ groups → g.next = 0 ∧
        g.index = [⟨1, 0, 8⟩, ⟨0, 8, 8⟩, ⟨1, 16, 8⟩].filter (fun e => e.label = (g.id : ℚ))) :=
  stratification_partitioning 2000 [⟨1, 0, 8⟩, ⟨0, 8, 8⟩, ⟨1, 16, 8⟩] (by
    intro e he
    simp only [List.mem_cons, List.mem_singleton, List.not_mem_nil, or_false] at he
    rcases he with rfl | rfl | rfl
    · exact ⟨1, by norm_num, by norm_num⟩
    · exact ⟨0, by norm_num, by norm_num⟩
    · exact ⟨1, by norm_num, by norm_num⟩)

/-- C10, as stated, fails: for the labels 0 and 2 the constructor builds three groups, and
the group with id 1 belongs to no label that occurs. -/
theorem groups_per_label_counterexample :
    makeGroups 2000 true [⟨0, 0, 8⟩, ⟨2, 8, 8⟩] =
      .ok [⟨0, [⟨0, 0, 8⟩], 0⟩, ⟨1, [], 0⟩, ⟨2, [⟨2, 8, 8⟩], 0⟩] := by
  decide

/-- C10 (amended): when stratifying locators with valid labels, the group list holds one
group for every integer from 0 to the largest label that occurs (one group, with id 0, when
there is no locator): the ids are `0, 1, ..., groups.size() - 1`, every label that occurs
is below `groups.size()` and so is the id of one group, the largest label is
`groups.size() - 1`, a group is non-empty exactly when its id occurs as a label, and the
number of distinct labels is at most the number of groups. -/
theorem groups_per_category (M : Nat) (all : List Locator)
    (hv : ∀ e, e ∈ all → ∃ n : Nat, n < M ∧ e.label = n) :
    ∃ groups, makeGroups M true all = .ok groups ∧
      groups.map Group.id = List.range groups.length ∧
      (∀ e, e ∈ all → ∃ n : Nat, n < groups.length ∧ e.label = n) ∧
      (all = [] → groups.length = 1) ∧
      (all ≠ [] → ∃ e, e ∈ all ∧ e.label = ((groups.length - 1 : Nat) : ℚ)) ∧
      (∀ g, g ∈ groups → (g.index ≠ [] ↔ ∃ e, e ∈ all ∧ e.label = (g.id : ℚ))) ∧
      ((all.map Locator.label).dedup.length ≤ groups.length) := by
  have hmap : ∀ l : List Nat, (l.map (fun c =>
      Group.mk c (all.filter (fun e => category e = c)) 0)).map Group.id = l := by
    intro l
    induction l with
    | nil => rfl
    | cons a l ih => simp [ih]
  have hlab : ∀ e, e ∈ all → e.label = (category e : ℚ) := by
    intro e he
    obtain ⟨n, -, hl⟩ := hv e he
    rw [category_natCast e n hl, hl]
  refine ⟨_, makeGroups_stratify M all hv, ?_, ?_, ?_, ?_, ?_, ?_⟩
  · rw [hmap]; simp
  · intro e he
    refine ⟨category e, ?_, hlab e he⟩
    simp only [List.length_map, List.length_range]
    exact Nat.lt_succ_of_le ((le_foldl_max all 0).2 e he)
  · intro h; subst h; simp
  · intro hne
    simp only [List.length_map, List.length_range, Nat.add_sub_cancel]
    rcases foldl_max_attained all 0 with h | ⟨e, he, h⟩
    · obtain ⟨e, he⟩ := List.exists_mem_of_ne_nil all hne
      refine ⟨e, he, ?_⟩
      have := (le_foldl_max all 0).2 e he
      rw [h] at this ⊢
      rw [hlab e he, Nat.le_zero.mp this]
    · exact ⟨e, he, by rw [hlab e he, h]⟩
  · intro g hg
    obtain ⟨c, -, rfl⟩ := List.mem_map.mp hg
    simp only [ne_eq, List.filter_eq_nil_iff, decide_eq_true_eq, not_forall, not_not]
    constructor
    · rintro ⟨e, he, hc⟩
      exact ⟨e, he, (category_eq_iff M e c (hv e he)).mp hc⟩
    · rintro ⟨e, he, hc⟩
      exact ⟨e, he, (category_eq_iff M e c (hv e he)).mpr hc⟩
  · simp only [List.length_map, List.length_range]
    have hsub : (all.map Locator.label).dedup ⊆
        List.map (fun c : Nat => (c : ℚ))
          (List.range (all.foldl (fun m e => max m (category e)) 0 + 1)) := by
      intro x hx
      rw [List.mem_dedup, List.mem_map] at hx
      obtain ⟨e, he, rfl⟩ := hx
      rw [List.mem_map]
      exact ⟨category e, List.mem_range.mpr (Nat.lt_succ_of_le ((le_foldl_max all 0).2 e he)),
        (hlab e he).symm⟩
    have := (List.subperm_of_subset (List.nodup_dedup _) hsub).length_le
    simpa using this

/-- Witness of `groups_per_category`: the labels 0 and 2 with 2000 categories. -/
theorem groups_per_category_witness :
    ∃ groups, makeGroups 2000 true [⟨0, 0, 8⟩, ⟨2, 8, 8⟩] = .ok groups ∧
      groups.map Group.id = List.range groups.length ∧
      (∀ e, e ∈ [(⟨0, 0, 8⟩ : Locator), ⟨2, 8, 8⟩] →
        ∃ n : Nat, n < groups.length ∧ e.label = n) ∧
      (([⟨0, 0, 8⟩, ⟨2, 8, 8⟩] : List Locator) = [] → groups.length = 1) ∧
      (([⟨0, 0, 8⟩, ⟨2, 8, 8⟩] : List Locator) ≠ [] → ∃ e, e ∈ [(⟨0, 0, 8⟩ : Locator), ⟨2, 8, 8⟩] ∧
        e.label = ((groups.length - 1 : Nat) : ℚ)) ∧
      (∀ g, g ∈ groups → (g.index ≠ [] ↔
        ∃ e, e ∈ [(⟨0, 0, 8⟩ : Locator), ⟨2, 8, 8⟩] ∧ e.label = (g.id : ℚ))) ∧
      (([(⟨0, 0, 8⟩ : Locator), ⟨2, 8, 8⟩].map Locator.label).dedup.length ≤ groups.length) :=
  groups_per_category 2000 [⟨0, 0, 8⟩, ⟨2, 8, 8⟩] (by
    intro e he
    simp only [List.mem_cons, List.mem_singleton, List.not_mem_nil, or_false] at he
    rcases he with rfl | rfl
    · exact ⟨0, by norm_num, by norm_num⟩
    · exact ⟨2, by norm_num, by norm_num⟩)

/-! ## Theorems: stream construction -/

theorem preSlice_keys (sh : Rng) (M : Nat) (c : Config) (all : List Locator)
    (keys : List Nat) (pre : List Group) (rng : Nat)
    (h : Stream.preSlice sh M c all = .ok (keys, pre, rng)) :
    check_sort_dedupe_keys c.splits c.keys = .ok keys := by
  unfold Stream.preSlice at h
  split at h
  · cases h
  · rename_i keys1 hk
    split at h
    · cases h
    · split at h
      · cases h
      · split at h <;>
        · injection h with h
          injection h with h1 h2
          rw [hk, h1]

theorem create_ok (sh : Rng) (M : Nat) (c : Config) (all : List Locator) (s : Stream)
    (h : Stream.create sh M c all = .ok s) :
    ∃ keys pre rng, Stream.preSlice sh M c all = .ok (keys, pre, rng) ∧
      s = { config := { c with keys := keys }, rng := rng
            groups := sliceGroups c.splits keys pre, next_group := 0 } := by
  unfold Stream.create at h
  split at h
  · cases h
  · rename_i keys pre rng hp
    injection h with h
    exact ⟨keys, pre, rng, hp, h.symm⟩

theorem sliceGroups_eq (K : Nat) (hK : K > 1) (keys : List Nat) (pre : List Group) :
    sliceGroups K keys pre = pre.map (fun g =>
      { g with index := entriesAt g.index (slicePositions g.index.length K keys) }) := by
  unfold sliceGroups
  rw [if_pos hK]
  apply List.map_congr_left
  intro g _
  simp only [sliceGroup, pickLoop_eq_entriesAt]

/-- The categories of locators whose labels are the labels of the example. -/
theorem map_category_of_labels (all : List Locator) (ns : List Nat)
    (h : all.map Locator.label = ns.map (fun n : Nat => (n : ℚ))) :
    all.map category = ns := by
  induction all generalizing ns with
  | nil =>
    cases ns with
    | nil => rfl
    | cons n ns => simp at h
  | cons e all ih =>
    cases ns with
    | nil => simp at h
    | cons n ns =>
      simp only [List.map_cons, List.cons.injEq] at h ⊢
      exact ⟨category_natCast e n h.1, ih ns h.2⟩

theorem valid_of_labels (M : Nat) (all : List Locator) (ns : List Nat)
    (h : all.map Locator.label = ns.map (fun n : Nat => (n : ℚ)))
    (hn : ∀ n, n ∈ ns → n < M) :
    ∀ e, e ∈ all → ∃ n : Nat, n < M ∧ e.label = n := by
  intro e he
  have : e.label ∈ all.map Locator.label := List.mem_map_of_mem _ he
  rw [h, List.mem_map] at this
  obtain ⟨n, hn1, hn2⟩ := this
  exact ⟨n, hn n hn1, hn2.symm⟩

theorem preSlice_example (sh : Rng) (M : Nat) (hM : 3 ≤ M) (c : Config) (all : List Locator)
    (hl : all.map Locator.label = [0, 0, 0, 1, 1, 1, 1, 2, 2, 2])
    (hs : c.stratify = true) (hK : c.splits = 5) (hk : c.keys = [0]) (hsh : c.shuffle = false) :
    ∃ g0 g1 g2 : Group, Stream.preSlice sh M c all = .ok ([0], [g0, g1, g2], sh.seed c.seed) ∧
      g0.index.length = 3 ∧ g1.index.length = 4 ∧ g2.index.length = 3 := by
  have hl1 : all.map Locator.label =
      ([0, 0, 0, 1, 1, 1, 1, 2, 2, 2] : List Nat).map (fun n : Nat => (n : ℚ)) := by
    rw [hl]; norm_num
  have hcat := map_category_of_labels all _ hl1
  have hv := valid_of_labels M all _ hl1 (by
    intro n hn
    have : n ≤ 2 := by
      simp only [List.mem_cons, List.mem_singleton, List.not_mem_nil, or_false] at hn
      omega
    omega)
  have hmax : all.foldl (fun m e => max m (category e)) 0 = 2 := by
    have : ∀ (l : List Locator) (nc : Nat), l.foldl (fun m e => max m (category e)) nc
        = (l.map category).foldl max nc := by
      intro l
      induction l with
      | nil => intro nc; rfl
      | cons a l ih => intro nc; simp [ih]
    rw [this, hcat]; decide
  have hlen : ∀ c : Nat, (all.filter (fun e => category e = c)).length
      = ([0, 0, 0, 1, 1, 1, 1, 2, 2, 2] : List Nat).count c := by
    intro c
    rw [← hcat, List.count_eq_countP, List.countP_map, List.countP_eq_length_filter]
    congr 1
  refine ⟨⟨0, all.filter (fun e => category e = 0), 0⟩, ⟨1, all.filter (fun e => category e = 1), 0⟩,
    ⟨2, all.filter (fun e => category e = 2), 0⟩, ?_, ?_, ?_, ?_⟩
  · unfold Stream.preSlice
    rw [hK, hk, hs, makeGroups_stratify M all hv, hmax, hsh]
    rfl
  · rw [hlen]; decide
  · rw [hlen]; decide
  · rw [hlen]; decide

/-- C6: when `splits = K > 1`, in a constructed stream every group's entries are the
concatenation, in ascending key order over the normalized keys, of the sub-ranges
`[len*k/K, len*(k+1)/K)` (integer division) of its entries before slicing; and for labels
0,0,0,1,1,1,1,2,2,2 with `stratify`, `K = 5`, keys `{0}` and no shuffle, the slice of
group 0 (three entries) is the range `[0, 0)`, of length 0. -/
theorem fold_slicing_formula (sh : Rng) (M : Nat) (c : Config) (all : List Locator)
    (s : Stream) (hK : c.splits > 1) (h : Stream.create sh M c all = .ok s) :
    SlicedByFormula sh M c all s ∧
    (∀ (sh1 : Rng) (M1 : Nat) (c1 : Config) (all1 : List Locator), 3 ≤ M1 →
      all1.map Locator.label = [0, 0, 0, 1, 1, 1, 1, 2, 2, 2] → c1.stratify = true →
      c1.splits = 5 → c1.keys = [0] → c1.shuffle = false → SliceExample sh1 M1 c1 all1) := by
  constructor
  · obtain ⟨keys, pre, rng, hp, hs⟩ := create_ok sh M c all s h
    obtain ⟨-, h2, h3, h4⟩ := check_sort_dedupe_keys_ok _ _ _ (preSlice_keys sh M c all keys pre rng hp)
    refine ⟨keys, pre, rng, hp, h2, h3, ?_, ?_⟩
    · intro len k hk
      exact range_bounds len c.splits k (h4 k hk)
    · rw [hs]
      exact sliceGroups_eq c.splits hK keys pre
  · intro sh1 M1 c1 all1 hM hl hs hK1 hk hsh
    obtain ⟨g0, g1, g2, hp, h0, -, -⟩ := preSlice_example sh1 M1 hM c1 all1 hl hs hK1 hk hsh
    have hid : g0.id = 0 := by
      have hp2 := hp
      unfold Stream.preSlice at hp2
      rw [hK1, hk, hs, hsh] at hp2
      have hl1 : all1.map Locator.label =
          ([0, 0, 0, 1, 1, 1, 1, 2, 2, 2] : List Nat).map (fun n : Nat => (n : ℚ)) := by
        rw [hl]; norm_num
      have hv := valid_of_labels M1 all1 _ hl1 (by
        intro n hn
        have : n ≤ 2 := by
          simp only [List.mem_cons, List.mem_singleton, List.not_mem_nil, or_false] at hn
          omega
        omega)
      rw [makeGroups_stratify M1 all1 hv] at hp2
      have e1 : check_sort_dedupe_keys 5 [0] = .ok [0] := by decide
      simp only [e1, List.length_map, List.length_range, Nat.add_one_ne_zero, if_false,
        Bool.false_eq_true, Except.ok.injEq, Prod.mk.injEq, true_and] at hp2
      have := hp2.1
      rw [List.range_succ_eq_map] at this
      simp only [List.map_cons, List.cons.injEq] at this
      rw [← this.1]
    have hc : Stream.create sh1 M1 c1 all1 = .ok
        { config := { c1 with keys := [0] }, rng := sh1.seed c1.seed
          groups := sliceGroups c1.splits [0] [g0, g1, g2], next_group := 0 } := by
      unfold Stream.create
      rw [hp]
    refine ⟨g0, [g1, g2], _, _, hp, hid, h0, by decide, by decide, by decide, hc,
      sliceGroup 5 [0] g0, [sliceGroup 5 [0] g1, sliceGroup 5 [0] g2], ?_, hid, ?_⟩
    · simp only [sliceGroups, hK1]
      rw [if_pos (by decide)]
      rfl
    · simp only [sliceGroup, pickLoop, pickRange, h0]
      simp

/-- Witness of `fold_slicing_formula`: the example of the spec. -/
theorem fold_slicing_formula_witness :
    (5 > 1 ∧ Stream.create Rng.keep 2000 ⟨5, [0], true, false, false, false, 0⟩
        (locatorsOf [0, 0, 0, 1, 1, 1, 1, 2, 2, 2])
      = .ok ⟨⟨5, [0], true, false, false, false, 0⟩, 0, [⟨0, [], 0⟩, ⟨1, [], 0⟩, ⟨2, [], 0⟩], 0⟩) ∧
    SlicedByFormula Rng.keep 2000 ⟨5, [0], true, false, false, false, 0⟩
      (locatorsOf [0, 0, 0, 1, 1, 1, 1, 2, 2, 2])
      ⟨⟨5, [0], true, false, false, false, 0⟩, 0, [⟨0, [], 0⟩, ⟨1, [], 0⟩, ⟨2, [], 0⟩], 0⟩ :=
  ⟨⟨by decide, by decide⟩,
   (fold_slicing_formula Rng.keep 2000 ⟨5, [0], true, false, false, false, 0⟩
      (locatorsOf [0, 0, 0, 1, 1, 1, 1, 2, 2, 2]) _ (by decide) (by decide)).1⟩

theorem filter_eq_fold (K fold : Nat) (hf : fold < K) :
    (List.range K).filter (fun k => !decide (k ≠ fold)) = [fold] := by
  have h1 : (List.range K).filter (fun k => !decide (k ≠ fold)) =
      (List.range K).filter (fun k => k == fold) := by
    apply List.filter_congr
    intro k _
    by_cases h : k = fold <;> simp [h]
  rw [h1, List.filter_beq, List.count_eq_one_of_mem (List.nodup_range K) (List.mem_range.mpr hf)]
  rfl

theorem kfold_keys_perm (K fold : Nat) (hf : fold < K) :
    ((List.range K).filter (fun k => k ≠ fold) ++ [fold]).Perm (List.range K) := by
  have := List.filter_append_perm (fun k => decide (k ≠ fold)) (List.range K)
  rw [filter_eq_fold K fold hf] at this
  exact this

/-- C7: for every `K > 1` and `fold < K`, `kfold` succeeds for training and for evaluation;
both key lists pass the key check unchanged; for every group the entries that slicing
selects are those at the positions `slicePositions` of the keys; and the positions of the
training keys followed by those of the evaluation key are a permutation of all positions
`0 .. len - 1` of the group: the two selections are disjoint and cover every position
exactly once. -/
theorem train_eval_partition (c : Config) (K fold : Nat) (hK : K > 1) (hf : fold < K) :
    ∃ ct ce, c.kfold K fold true = .ok ct ∧ c.kfold K fold false = .ok ce ∧
      ct.splits = K ∧ ce.splits = K ∧
      check_sort_dedupe_keys K ct.keys = .ok ct.keys ∧
      check_sort_dedupe_keys K ce.keys = .ok ce.keys ∧
      ∀ g : Group,
        (sliceGroup K ct.keys g).index
          = entriesAt g.index (slicePositions g.index.length K ct.keys) ∧
        (sliceGroup K ce.keys g).index
          = entriesAt g.index (slicePositions g.index.length K ce.keys) ∧
        (slicePositions g.index.length K ct.keys
          ++ slicePositions g.index.length K ce.keys).Perm (List.range g.index.length) := by
  refine ⟨{ c with splits := K, keys := (List.range K).filter (fun k => k ≠ fold) },
    { c with splits := K, keys := [fold], loop := false, reshuffle := false }, ?_, ?_, rfl, rfl,
    ?_, ?_, ?_⟩
  · simp [Config.kfold, hK, hf]
  · simp [Config.kfold, hK, hf]
  · apply check_sort_dedupe_keys_of_normal
    · intro hnil
      have h0 : (if fold = 0 then 1 else 0) ∈ (List.range K).filter (fun k => k ≠ fold) := by
        rw [List.mem_filter, List.mem_range]
        split <;> simp <;> omega
      simp only at hnil
      rw [hnil] at h0
      exact List.not_mem_nil _ h0
    · exact filter_range_strict K fold
    · intro k hk
      exact List.mem_range.mp (List.mem_filter.mp hk).1
  · apply check_sort_dedupe_keys_of_normal
    · simp
    · simp
    · intro k hk
      simp only [List.mem_singleton] at hk
      omega
  · intro g
    refine ⟨pickLoop_eq_entriesAt _ _ _, pickLoop_eq_entriesAt _ _ _, ?_⟩
    simp only [slicePositions]
    rw [← List.flatMap_append]
    have := slicePositions_full g.index.length K (by omega)
    simp only [slicePositions] at this
    rw [← this]
    exact List.Perm.flatMap_right _ (kfold_keys_perm K fold hf)

/-- Witness of `train_eval_partition`: three folds, fold 1. -/
theorem train_eval_partition_witness :
    (3 > 1 ∧ 1 < 3) ∧
    ∃ ct ce, Config.kfold ⟨1, [0], true, false, true, true, 0⟩ 3 1 true = .ok ct ∧
      Config.kfold ⟨1, [0], true, false, true, true, 0⟩ 3 1 false = .ok ce ∧
      ct.splits = 3 ∧ ce.splits = 3 ∧
      check_sort_dedupe_keys 3 ct.keys = .ok ct.keys ∧
      check_sort_dedupe_keys 3 ce.keys = .ok ce.keys ∧
      ∀ g : Group,
        (sliceGroup 3 ct.keys g).index
          = entriesAt g.index (slicePositions g.index.length 3 ct.keys) ∧
        (sliceGroup 3 ce.keys g).index
          = entriesAt g.index (slicePositions g.index.length 3 ce.keys) ∧
        (slicePositions g.index.length 3 ct.keys
          ++ slicePositions g.index.length 3 ce.keys).Perm (List.range g.index.length) :=
  ⟨⟨by decide, by decide⟩,
   train_eval_partition ⟨1, [0], true, false, true, true, 0⟩ 3 1 (by decide) (by decide)⟩

/-- C8: when `splits = K > 1` and the keys of the configuration are, as a set, all of
`0 .. K-1`, the keys are normalized to `0, 1, ..., K-1` and slicing leaves every group as
it was before slicing: the same entries in the same order, so nothing is lost and nothing
is duplicated. -/
theorem fold_slicing_complete (sh : Rng) (M : Nat) (c : Config) (all : List Locator)
    (s : Stream) (hK : c.splits > 1) (hkeys : ∀ k, k ∈ c.keys ↔ k < c.splits)
    (h : Stream.create sh M c all = .ok s) :
    ∃ pre rng, Stream.preSlice sh M c all = .ok (List.range c.splits, pre, rng) ∧
      s.groups = pre ∧
      ∀ g, g ∈ pre → sliceGroup c.splits (List.range c.splits) g = g := by
  obtain ⟨keys, pre, rng, hp, hs⟩ := create_ok sh M c all s h
  obtain ⟨-, h2, h3, -⟩ :=
    check_sort_dedupe_keys_ok _ _ _ (preSlice_keys sh M c all keys pre rng hp)
  have hk : keys = List.range c.splits := by
    apply strict_ext keys _ h2 (range_strict _)
    intro k
    rw [h3, hkeys, List.mem_range]
  subst hk
  have hg : ∀ g : Group, sliceGroup c.splits (List.range c.splits) g = g := by
    intro g
    simp only [sliceGroup, pickLoop_eq_entriesAt,
      slicePositions_full g.index.length c.splits (by omega), entriesAt_range]
  refine ⟨pre, rng, hp, ?_, fun g _ => hg g⟩
  rw [hs]
  simp only [sliceGroups, if_pos hK]
  conv_rhs => rw [← List.map_id pre]
  apply List.map_congr_left
  intro g _
  exact hg g

/-- Witness of `fold_slicing_complete`: two folds, the keys given as 1, 0, 1, five
locators with the labels 0, 1, 0, 0, 1, stratified. -/
theorem fold_slicing_complete_witness :
    (2 > 1 ∧ (∀ k, k ∈ [1, 0, 1] ↔ k < 2) ∧
      Stream.create Rng.keep 2000 ⟨2, [1, 0, 1], true, false, false, false, 0⟩
        (locatorsOf [0, 1, 0, 0, 1])
      = .ok ⟨⟨2, [0, 1], true, false, false, false, 0⟩, 0,
          [⟨0, [⟨0, 0, 8⟩, ⟨0, 16, 8⟩, ⟨0, 24, 8⟩], 0⟩, ⟨1, [⟨1, 8, 8⟩, ⟨1, 32, 8⟩], 0⟩], 0⟩) ∧
    ∃ pre rng, Stream.preSlice Rng.keep 2000 ⟨2, [1, 0, 1], true, false, false, false, 0⟩
        (locatorsOf [0, 1, 0, 0, 1]) = .ok (List.range 2, pre, rng) ∧
      [⟨0, [⟨0, 0, 8⟩, ⟨0, 16, 8⟩, ⟨0, 24, 8⟩], 0⟩, ⟨1, [⟨1, 8, 8⟩, ⟨1, 32, 8⟩], 0⟩] = pre ∧
      ∀ g, g ∈ pre → sliceGroup 2 (List.range 2) g = g :=
  ⟨⟨by decide, by intro k; simp; omega, by decide⟩,
   fold_slicing_complete Rng.keep 2000 ⟨2, [1, 0, 1], true, false, false, false, 0⟩
     (locatorsOf [0, 1, 0, 0, 1])
     ⟨⟨2, [0, 1], true, false, false, false, 0⟩, 0,
       [⟨0, [⟨0, 0, 8⟩, ⟨0, 16, 8⟩, ⟨0, 24, 8⟩], 0⟩, ⟨1, [⟨1, 8, 8⟩, ⟨1, 32, 8⟩], 0⟩], 0⟩
     (by decide) (by intro k; simp; omega) (by decide)⟩

theorem swapLoop_shift (pre : List Group) (g : Group) (post : List Group) :
    swapLoop post.length (pre.length + 1) (pre ++ g :: post) = pre ++ post ++ [g] := by
  induction post generalizing pre with
  | nil => simp [swapLoop]
  | cons b post ih =>
    have h1 : (pre ++ g :: b :: post)[pre.length + 1 - 1]? = some g := by
      rw [Nat.add_sub_cancel, List.getElem?_append_right (le_refl _)]
      simp
    have h2 : (pre ++ g :: b :: post)[pre.length + 1]? = some b := by
      rw [List.getElem?_append_right (by omega)]
      simp
    have h3 : ((pre ++ g :: b :: post).set (pre.length + 1 - 1) b).set (pre.length + 1) g
        = (pre ++ [b]) ++ g :: post := by
      simp [List.set_append]
    simp only [List.length_cons, swapLoop, h1, h2, h3]
    have := ih (pre ++ [b])
    simp only [List.length_append, List.length_singleton] at this
    rw [this]
    simp

/-- The removal in `Stream::next` erases the group at the cursor and keeps the others in
order. -/
theorem retire_eq (pre : List Group) (g : Group) (post : List Group) :
    retire (pre ++ g :: post) pre.length = pre ++ post := by
  unfold retire
  have : (pre ++ g :: post).length - (pre.length + 1) = post.length := by
    simp only [List.length_append, List.length_cons]; omega
  rw [this, swapLoop_shift]
  simp

theorem serve_eq (s : Stream) (pre : List Group) (g : Group) (post : List Group)
    (e : Locator) (hd : s.groups = pre ++ g :: post) (hn : s.next_group = pre.length)
    (he : g.index[g.next]? = some e) :
    s.serve g = (.ok e, { s with groups := pre ++ { g with next := g.next + 1 } :: post
                                 next_group := pre.length + 1 }) := by
  unfold Stream.serve
  rw [he]
  simp only [hd, hn]
  congr 2
  simp

/-- One iteration of the loop of `Stream::next` when there is a group at the cursor. -/
theorem nextLoop_unfold (sh : Rng) (fuel : Nat) (s : Stream) (pre : List Group) (g : Group)
    (post : List Group) (hd : s.groups = pre ++ g :: post) (hc : pre.length = s.cursor) :
    Stream.nextLoop sh (fuel + 1) s =
      if g.next ≥ g.index.length then
        if (if s.config.loop && s.config.reshuffle then (sh.shuffle s.rng g.index).1
            else g.index).length ≤ (if s.config.loop then 0 else g.next) then
          Stream.nextLoop sh fuel
            { s with rng := if s.config.loop && s.config.reshuffle then
                       (sh.shuffle s.rng g.index).2 else s.rng
                     groups := pre ++ post, next_group := pre.length }
        else
          Stream.serve
            { s with rng := if s.config.loop && s.config.reshuffle then
                       (sh.shuffle s.rng g.index).2 else s.rng
                     groups := pre ++
                       { id := g.id
                         index := if s.config.loop && s.config.reshuffle then
                           (sh.shuffle s.rng g.index).1 else g.index
                         next := if s.config.loop then 0 else g.next } :: post
                     next_group := pre.length }
            { id := g.id
              index := if s.config.loop && s.config.reshuffle then
                (sh.shuffle s.rng g.index).1 else g.index
              next := if s.config.loop then 0 else g.next }
      else Stream.serve { s with next_group := pre.length } g := by
  obtain ⟨config, rng, groups, next_group⟩ := s
  simp only at hd
  subst hd
  have hlen : (pre ++ g :: post).length = pre.length + (post.length + 1) := by simp
  have hget : (pre ++ g :: post)[pre.length]? = some g := by
    rw [List.getElem?_append_right (le_refl _)]; simp
  have hset : ∀ g1, (pre ++ g :: post).set pre.length g1 = pre ++ g1 :: post := by
    intro g1; simp
  have hret : ∀ g1, retire (pre ++ g1 :: post) pre.length = pre ++ post :=
    fun g1 => retire_eq pre g1 post
  simp only [Stream.cursor] at hc
  rw [Stream.nextLoop]
  simp only
  rw [if_neg (by omega)]
  by_cases hw : pre.length + (post.length + 1) ≤ next_group
  · rw [if_pos (by omega)] at hc
    have hp : pre = [] := List.length_eq_zero.mp hc
    subst hp
    simp only [List.length_nil, List.nil_append] at hget hset hret hlen ⊢
    have hw2 : (g :: post).length ≤ next_group := by simp only [List.length_cons]; omega
    simp only [if_pos hw2, hget, hset]
    by_cases h1 : g.next ≥ g.index.length
    · simp only [if_pos h1]
      cases hl : config.loop <;> cases hr : config.reshuffle <;> simp [hl, hr, hret]
    · simp only [if_neg h1]
  · rw [if_neg (by omega)] at hc
    subst hc
    have hw2 : ¬ (pre ++ g :: post).length ≤ pre.length := by omega
    simp only [if_neg hw2, hget, hset]
    by_cases h1 : g.next ≥ g.index.length
    · simp only [if_pos h1]
      cases hl : config.loop <;> cases hr : config.reshuffle <;> simp [hl, hr, hret]
    · simp only [if_neg h1]

theorem cursor_split (s : Stream) (h : s.groups ≠ []) :
    ∃ pre g post, s.groups = pre ++ g :: post ∧ pre.length = s.cursor := by
  have hlt : s.cursor < s.groups.length := by
    have := List.length_pos.mpr h
    unfold Stream.cursor
    split <;> omega
  refine ⟨s.groups.take s.cursor, s.groups[s.cursor], s.groups.drop (s.cursor + 1), ?_, ?_⟩
  · rw [← List.drop_eq_getElem_cons hlt, List.take_append_drop]
  · rw [List.length_take]; omega

theorem nextLoop_empty (sh : Rng) (fuel : Nat) (s : Stream) (h : s.groups = []) :
    Stream.nextLoop sh (fuel + 1) s = (.error Error.EoS, s) := by
  rw [Stream.nextLoop]
  simp [h]

/-- One call of `Stream::next` without looping: either nothing is left to serve, the call
fails with `EoS` and leaves no group behind, or it serves one of the entries that were
left. -/
theorem nextLoop_noloop (sh : Rng) (fuel : Nat) (s : Stream) (hl : s.config.loop = false)
    (hf : s.groups.length < fuel) :
    ∃ s1, s1.config = s.config ∧
      ((s.remaining = [] ∧ Stream.nextLoop sh fuel s = (.error Error.EoS, s1) ∧ s1.groups = []) ∨
       (∃ e, Stream.nextLoop sh fuel s = (.ok e, s1) ∧ s.remaining.Perm (e :: s1.remaining))) := by
  induction fuel generalizing s with
  | zero => omega
  | succ fuel ih =>
    by_cases hg : s.groups = []
    · exact ⟨s, rfl, Or.inl ⟨by simp [Stream.remaining, hg], nextLoop_empty sh fuel s hg, hg⟩⟩
    · obtain ⟨pre, g, post, hd, hc⟩ := cursor_split s hg
      rw [nextLoop_unfold sh fuel s pre g post hd hc]
      simp only [hl, Bool.false_and, Bool.false_eq_true, if_false]
      by_cases h1 : g.next ≥ g.index.length
      · rw [if_pos h1, if_pos h1]
        have hlen : s.groups.length = pre.length + post.length + 1 := by
          rw [hd]; simp; omega
        obtain ⟨s1, hc1, h2⟩ := ih { s with groups := pre ++ post, next_group := pre.length }
          hl (by simp only [List.length_append]; omega)
        have hrem : Stream.remaining { s with groups := pre ++ post, next_group := pre.length }
            = s.remaining := by
          simp only [Stream.remaining, hd, List.flatMap_append, List.flatMap_cons,
            List.drop_eq_nil_of_le h1, List.nil_append]
        rw [hrem] at h2
        exact ⟨s1, hc1, h2⟩
      · rw [if_neg h1]
        have hlt : g.next < g.index.length := by omega
        have he : g.index[g.next]? = some g.index[g.next] := List.getElem?_eq_getElem hlt
        rw [serve_eq { s with next_group := pre.length } pre g post _ hd rfl he]
        refine ⟨{ s with groups := pre ++ { g with next := g.next + 1 } :: post
                         next_group := pre.length + 1 }, rfl, Or.inr ⟨g.index[g.next], rfl, ?_⟩⟩
        simp only [Stream.remaining, hd, List.flatMap_append, List.flatMap_cons]
        rw [List.drop_eq_getElem_cons hlt]
        simp only [List.cons_append]
        exact List.perm_middle

theorem run_succ (sh : Rng) (n : Nat) (s : Stream) :
    Stream.run sh (n + 1) s =
      ((Stream.next sh s).1 :: (Stream.run sh n (Stream.next sh s).2).1,
        (Stream.run sh n (Stream.next sh s).2).2) := rfl

theorem run_eos (sh : Rng) (s : Stream) (h : s.groups = []) (m : Nat) :
    (Stream.run sh m s).1 = List.replicate m (.error Error.EoS) := by
  have hn : Stream.next sh s = (.error Error.EoS, s) := by
    unfold Stream.next
    exact nextLoop_empty sh _ s h
  induction m with
  | zero => rfl
  | succ m ih => rw [run_succ, hn]; simp only [ih, List.replicate_succ]

/-- Without looping, a stream with `n` entries left serves them in its next `n` calls, each
once, and fails with `EoS` in every call after them. -/
theorem run_noloop (sh : Rng) (n : Nat) (s : Stream) (hl : s.config.loop = false)
    (hn : s.remaining.length = n) :
    ∃ out : List Locator, out.Perm s.remaining ∧
      ∀ m, (Stream.run sh (n + m) s).1 = out.map .ok ++ List.replicate m (.error Error.EoS) := by
  induction n generalizing s with
  | zero =>
    refine ⟨[], ?_, ?_⟩
    · rw [List.length_eq_zero.mp hn]
    · intro m
      simp only [Nat.zero_add, List.map_nil, List.nil_append]
      cases m with
      | zero => rfl
      | succ m =>
        obtain ⟨s1, -, h | ⟨e, -, hp⟩⟩ := nextLoop_noloop sh (s.groups.length + 1) s hl (by omega)
        · rw [run_succ]
          unfold Stream.next
          rw [h.2.1]
          simp only [run_eos sh s1 h.2.2 m, List.replicate_succ]
        · rw [List.length_eq_zero.mp hn] at hp
          exact absurd hp.symm (List.cons_ne_nil _ _ ∘ List.Perm.eq_nil)
  | succ n ih =>
    obtain ⟨s1, hc, h | ⟨e, he, hp⟩⟩ := nextLoop_noloop sh (s.groups.length + 1) s hl (by omega)
    · rw [h.1] at hn; simp at hn
    · have hlen : s1.remaining.length = n := by
        have := hp.length_eq
        simp only [List.length_cons] at this
        omega
      obtain ⟨out, ho, hr⟩ := ih s1 (by rw [hc]; exact hl) hlen
      refine ⟨e :: out, ?_, ?_⟩
      · exact (List.Perm.cons e ho).trans hp.symm
      · intro m
        have : n + 1 + m = (n + m) + 1 := by omega
        rw [this, run_succ]
        unfold Stream.next
        rw [he]
        simp only [hr m, List.map_cons, List.cons_append]

theorem shuffleGroups_next (sh : Rng) (rng : Nat) (gs : List Group)
    (h : ∀ g, g ∈ gs → g.next = 0) : ∀ g, g ∈ (shuffleGroups sh rng gs).1 → g.next = 0 := by
  induction gs generalizing rng with
  | nil => intro g hg; simp [shuffleGroups] at hg
  | cons a gs ih =>
    intro g hg
    simp only [shuffleGroups, List.mem_cons] at hg
    rcases hg with rfl | hg
    · exact h a (by simp)
    · exact ih _ (fun g1 h1 => h g1 (List.mem_cons_of_mem _ h1)) g hg

theorem makeGroups_next (M : Nat) (st : Bool) (all : List Locator) (gs : List Group)
    (h : makeGroups M st all = .ok gs) : ∀ g, g ∈ gs → g.next = 0 := by
  unfold makeGroups at h
  split at h
  · split at h
    · cases h
    · injection h with h
      subst h
      intro g hg
      obtain ⟨c, -, rfl⟩ := List.mem_map.mp hg
      rfl
  · injection h with h
    subst h
    intro g hg
    simp only [List.mem_singleton] at hg
    rw [hg]

theorem sliceGroups_next (K : Nat) (keys : List Nat) (gs : List Group)
    (h : ∀ g, g ∈ gs → g.next = 0) : ∀ g, g ∈ sliceGroups K keys gs → g.next = 0 := by
  intro g hg
  unfold sliceGroups at hg
  split at hg
  · obtain ⟨g1, h1, rfl⟩ := List.mem_map.mp hg
    exact h g1 h1
  · exact h g hg

theorem preSlice_next (sh : Rng) (M : Nat) (c : Config) (all : List Locator)
    (keys : List Nat) (pre : List Group) (rng : Nat)
    (h : Stream.preSlice sh M c all = .ok (keys, pre, rng)) : ∀ g, g ∈ pre → g.next = 0 := by
  unfold Stream.preSlice at h
  split at h
  · cases h
  · split at h
    · cases h
    · rename_i gs hm
      split at h
      · cases h
      · split at h
        · injection h with h
          injection h with h1 h2
          have := shuffleGroups_next sh (sh.seed c.seed) gs (makeGroups_next _ _ _ _ hm)
          rw [h2] at this
          exact this
        · injection h with h
          injection h with h1 h2
          injection h2 with h2 h3
          rw [← h2]
          exact makeGroups_next _ _ _ _ hm

/-- A stream as the constructor leaves it: the cursors are 0 and the configuration is that
given, with the keys normalized. -/
theorem create_fresh (sh : Rng) (M : Nat) (c : Config) (all : List Locator) (s : Stream)
    (h : Stream.create sh M c all = .ok s) :
    s.next_group = 0 ∧ (∀ g, g ∈ s.groups → g.next = 0) ∧ s.config.loop = c.loop ∧
      s.config.reshuffle = c.reshuffle := by
  obtain ⟨keys, pre, rng, hp, hs⟩ := create_ok sh M c all s h
  subst hs
  exact ⟨rfl, sliceGroups_next _ _ _ (preSlice_next sh M c all keys pre rng hp), rfl, rfl⟩

theorem remaining_fresh (s : Stream) (h : ∀ g, g ∈ s.groups → g.next = 0) :
    s.remaining = s.groups.flatMap Group.index ∧ s.remaining.length = s.size := by
  have h1 : s.remaining = s.groups.flatMap Group.index := by
    unfold Stream.remaining
    apply List.flatMap_congr  
    intro g hg
    rw [h g hg, List.drop_zero]
  refine ⟨h1, ?_⟩
  rw [h1, Stream.size, List.length_flatMap]
  rfl

/-- C3: for every sampler constructed with `loop = false`, exactly the first `size()` calls
of `Stream::next` succeed, the locators they return are, as a multiset, the entries of all
groups after slicing (every entry is returned exactly once), and every later call fails
with `EoS`: for every `m`, the results of the first `size() + m` calls are `size()`
locators followed by `m` times `EoS`. -/
theorem exhaustion (sh : Rng) (M : Nat) (c : Config) (all : List Locator) (s : Stream)
    (hl : c.loop = false) (h : Stream.create sh M c all = .ok s) :
    ∃ out : List Locator, out.length = s.size ∧ out.Perm (s.groups.flatMap Group.index) ∧
      ∀ m, (Stream.run sh (s.size + m) s).1
        = out.map .ok ++ List.replicate m (.error Error.EoS) := by
  obtain ⟨-, h2, h3, -⟩ := create_fresh sh M c all s h
  obtain ⟨hr1, hr2⟩ := remaining_fresh s h2
  obtain ⟨out, ho, hrun⟩ := run_noloop sh s.size s (by rw [h3, hl]) hr2
  refine ⟨out, ?_, ?_, hrun⟩
  · rw [ho.length_eq, hr2]
  · rw [← hr1]; exact ho

/-- Witness of `exhaustion`: four locators with the labels 0, 1, 1, 3, stratified. -/
theorem exhaustion_witness :
    (false = false ∧
      Stream.create Rng.flip 2000 ⟨1, [0], true, true, false, false, 0⟩ (locatorsOf [0, 1, 1, 3])
      = .ok ⟨⟨1, [0], true, true, false, false, 0⟩, 4,
          [⟨0, [⟨0, 0, 8⟩], 0⟩, ⟨1, [⟨1, 16, 8⟩, ⟨1, 8, 8⟩], 0⟩, ⟨2, [], 0⟩, ⟨3, [⟨3, 24, 8⟩], 0⟩], 0⟩) ∧
    ∃ out : List Locator, out.length = 4 ∧
      out.Perm [⟨0, 0, 8⟩, ⟨1, 16, 8⟩, ⟨1, 8, 8⟩, ⟨3, 24, 8⟩] ∧
      ∀ m, (Stream.run Rng.flip (4 + m) ⟨⟨1, [0], true, true, false, false, 0⟩, 4,
          [⟨0, [⟨0, 0, 8⟩], 0⟩, ⟨1, [⟨1, 16, 8⟩, ⟨1, 8, 8⟩], 0⟩, ⟨2, [], 0⟩, ⟨3, [⟨3, 24, 8⟩], 0⟩], 0⟩).1
        = out.map .ok ++ List.replicate m (.error Error.EoS) :=
  ⟨⟨rfl, by decide⟩,
   exhaustion Rng.flip 2000 ⟨1, [0], true, true, false, false, 0⟩ (locatorsOf [0, 1, 1, 3])
     ⟨⟨1, [0], true, true, false, false, 0⟩, 4,
       [⟨0, [⟨0, 0, 8⟩], 0⟩, ⟨1, [⟨1, 16, 8⟩, ⟨1, 8, 8⟩], 0⟩, ⟨2, [], 0⟩, ⟨3, [⟨3, 24, 8⟩], 0⟩], 0⟩
     rfl (by decide)⟩

theorem sameLive_refl (gs : List Group) : SameLive gs gs :=
  List.forall₂_same.mpr (fun _ _ => ⟨rfl, List.Perm.refl _⟩)

theorem forall₂_live_trans {a b c : List Group}
    (h1 : List.Forall₂ (fun g g1 => g.id = g1.id ∧ g.index.Perm g1.index) a b)
    (h2 : List.Forall₂ (fun g g1 => g.id = g1.id ∧ g.index.Perm g1.index) b c) :
    List.Forall₂ (fun g g1 => g.id = g1.id ∧ g.index.Perm g1.index) a c := by
  induction h1 generalizing c with
  | nil => cases h2; exact List.Forall₂.nil
  | cons hab _ ih =>
    cases h2 with
    | cons hbc h2 => exact List.Forall₂.cons ⟨hab.1.trans hbc.1, hab.2.trans hbc.2⟩ (ih h2)

theorem sameLive_trans {a b c : List Group} (h1 : SameLive a b) (h2 : SameLive b c) :
    SameLive a c := forall₂_live_trans h1 h2

theorem live_append (a b : List Group) : live (a ++ b) = live a ++ live b := by
  simp [live]

theorem live_cons_empty (g : Group) (gs : List Group) (h : g.index = []) :
    live (g :: gs) = live gs := by
  simp [live, h]

theorem live_cons_nonempty (g : Group) (gs : List Group) (h : g.index ≠ []) :
    live (g :: gs) = g :: live gs := by
  simp [live, h]

theorem sameLive_replace (pre post : List Group) (g g1 : Group) (hid : g.id = g1.id)
    (hp : g.index.Perm g1.index) : SameLive (pre ++ g :: post) (pre ++ g1 :: post) := by
  unfold SameLive
  rw [live_append, live_append]
  apply List.rel_append (sameLive_refl pre)
  by_cases h : g.index = []
  · have h1 : g1.index = [] := by rw [h] at hp; exact hp.symm.eq_nil
    rw [live_cons_empty g post h, live_cons_empty g1 post h1]
    exact sameLive_refl post
  · have h1 : g1.index ≠ [] := by
      intro h1; rw [h1] at hp; exact h hp.eq_nil
    rw [live_cons_nonempty g post h, live_cons_nonempty g1 post h1]
    exact List.Forall₂.cons ⟨hid, hp⟩ (sameLive_refl post)

theorem live_remove_empty (pre post : List Group) (g : Group) (h : g.index = []) :
    live (pre ++ g :: post) = live (pre ++ post) := by
  rw [live_append, live_append, live_cons_empty g post h]

/-- One call of `Stream::next` of a looping stream that has a group with entries: it
serves a locator, the groups with entries stay, and no group is added. -/
theorem nextLoop_loop (sh : Rng) (fuel : Nat) (s : Stream) (hl : s.config.loop = true)
    (hlive : live s.groups ≠ []) (hf : s.groups.length < fuel) :
    ∃ e s1, Stream.nextLoop sh fuel s = (.ok e, s1) ∧ s1.config = s.config ∧
      SameLive s.groups s1.groups ∧ (s1.groups.map Group.id).Sublist (s.groups.map Group.id) := by
  induction fuel generalizing s with
  | zero => omega
  | succ fuel ih =>
    have hg : s.groups ≠ [] := by
      intro hg; rw [hg] at hlive; exact hlive rfl
    obtain ⟨pre, g, post, hd, hc⟩ := cursor_split s hg
    rw [nextLoop_unfold sh fuel s pre g post hd hc]
    simp only [hl, Bool.true_and, if_true]
    have hperm : (if s.config.reshuffle = true then (sh.shuffle s.rng g.index).1
        else g.index).Perm g.index := by
      split
      · exact sh.perm _ _
      · exact List.Perm.refl _
    have hserve : ∀ (s0 : Stream) (g1 : Group), s0.config = s.config →
        s0.groups = pre ++ g1 :: post → s0.next_group = pre.length → g1.id = g.id →
        g1.index.Perm g.index → g1.next < g1.index.length →
        ∃ e s1, s0.serve g1 = (.ok e, s1) ∧ s1.config = s.config ∧
          SameLive s.groups s1.groups ∧
          (s1.groups.map Group.id).Sublist (s.groups.map Group.id) := by
      intro s0 g1 h0 h1 h2 h3 h4 h5
      have he : g1.index[g1.next]? = some g1.index[g1.next] := List.getElem?_eq_getElem h5
      refine ⟨_, _, serve_eq s0 pre g1 post _ h1 h2 he, h0, ?_, ?_⟩
      · rw [hd]
        exact sameLive_replace pre post g _ h3.symm h4.symm
      · rw [hd]
        simp only [List.map_append, List.map_cons, h3]
        exact List.Sublist.refl _
    by_cases h1 : g.next ≥ g.index.length
    · rw [if_pos h1]
      by_cases h2 : (if s.config.reshuffle = true then (sh.shuffle s.rng g.index).1
          else g.index).length ≤ 0
      · rw [if_pos h2]
        have hempty : g.index = [] := by
          have := hperm.length_eq
          exact List.length_eq_zero.mp (by omega)
        have hlive1 : live (pre ++ post) = live s.groups := by
          rw [hd, live_remove_empty pre post g hempty]
        obtain ⟨e, s1, h3, h4, h5, h6⟩ := ih
          { s with rng := if s.config.reshuffle = true then (sh.shuffle s.rng g.index).2
                     else s.rng
                   groups := pre ++ post, next_group := pre.length }
          hl (by rw [hlive1]; exact hlive)
          (by
            have : s.groups.length = pre.length + post.length + 1 := by
              rw [hd]; simp only [List.length_append, List.length_cons]; omega
            simp only [List.length_append]; omega)
        refine ⟨e, s1, h3, h4, ?_, ?_⟩
        · unfold SameLive at h5 ⊢
          simp only at h5
          rw [hlive1] at h5
          exact h5
        · refine h6.trans ?_
          rw [hd]
          simp only [List.map_append, List.map_cons]
          exact List.Sublist.append_left (List.sublist_cons_self _ _) _
      · rw [if_neg h2]
        exact hserve _ _ rfl rfl rfl rfl hperm (by simp only; omega)
    · rw [if_neg h1]
      exact hserve _ _ rfl hd rfl rfl (List.Perm.refl _) (by omega)

/-- Any number of calls of `Stream::next` of a looping stream that has a group with
entries: all of them serve a locator, and the groups with entries stay. -/
theorem run_loop (sh : Rng) (n : Nat) (s : Stream) (hl : s.config.loop = true)
    (hlive : live s.groups ≠ []) :
    ∃ out : List Locator, out.length = n ∧ (Stream.run sh n s).1 = out.map .ok ∧
      SameLive s.groups (Stream.run sh n s).2.groups ∧
      ((Stream.run sh n s).2.groups.map Group.id).Sublist (s.groups.map Group.id) := by
  induction n generalizing s with
  | zero => exact ⟨[], rfl, rfl, sameLive_refl _, List.Sublist.refl _⟩
  | succ n ih =>
    obtain ⟨e, s1, h1, h2, h3, h4⟩ := nextLoop_loop sh (s.groups.length + 1) s hl hlive (by omega)
    have hlive1 : live s1.groups ≠ [] := by
      intro h0
      have := List.Forall₂.length_eq h3
      rw [h0] at this
      exact hlive (List.length_eq_zero.mp this)
    obtain ⟨out, ho1, ho2, ho3, ho4⟩ := ih s1 (by rw [h2]; exact hl) hlive1
    have hn : Stream.next sh s = (.ok e, s1) := h1
    refine ⟨e :: out, by simp [ho1], ?_, ?_, ?_⟩
    · rw [run_succ, hn]; simp only [ho2, List.map_cons]
    · rw [run_succ, hn]; exact sameLive_trans h3 ho3
    · rw [run_succ, hn]; exact ho4.trans h4

/-- C5: for every sampler constructed with `loop = true` (with or without `reshuffle`)
that has at least one non-empty group after slicing, every call of `Stream::next` returns
a locator, however many calls are made (so none of the first `3 * size()` fails with
`EoS`); at any time the non-empty groups are all still there, in their order, each with its
entries (up to their order), and no group has been added: only empty groups are retired. -/
theorem looping_never_ends (sh : Rng) (M : Nat) (c : Config) (all : List Locator)
    (s : Stream) (hl : c.loop = true) (h : Stream.create sh M c all = .ok s)
    (hne : ∃ g, g ∈ s.groups ∧ g.index ≠ []) (n : Nat) :
    ∃ out : List Locator, out.length = n ∧ (Stream.run sh n s).1 = out.map .ok ∧
      SameLive s.groups (Stream.run sh n s).2.groups ∧
      ((Stream.run sh n s).2.groups.map Group.id).Sublist (s.groups.map Group.id) := by
  obtain ⟨-, -, h3, -⟩ := create_fresh sh M c all s h
  apply run_loop sh n s (by rw [h3, hl])
  obtain ⟨g, hg, hi⟩ := hne
  intro h0
  have : g ∈ live s.groups := by
    simp only [live, List.mem_filter, hg, true_and]
    cases hgi : g.index with
    | nil => exact absurd hgi hi
    | cons a l => rfl
  rw [h0] at this
  exact List.not_mem_nil _ this

/-- Witness of `looping_never_ends`: locators with the labels 0, 2, 2, stratified, looping
with reshuffling, nine calls. -/
theorem looping_never_ends_witness :
    (true = true ∧
      Stream.create Rng.flip 2000 ⟨1, [0], true, false, true, true, 0⟩ (locatorsOf [0, 2, 2])
        = .ok ⟨⟨1, [0], true, false, true, true, 0⟩, 0,
            [⟨0, [⟨0, 0, 8⟩], 0⟩, ⟨1, [], 0⟩, ⟨2, [⟨2, 8, 8⟩, ⟨2, 16, 8⟩], 0⟩], 0⟩ ∧
      ∃ g, g ∈ [(⟨0, [⟨0, 0, 8⟩], 0⟩ : Group), ⟨1, [], 0⟩, ⟨2, [⟨2, 8, 8⟩, ⟨2, 16, 8⟩], 0⟩] ∧
        g.index ≠ []) ∧
    ∃ out : List Locator, out.length = 9 ∧
      (Stream.run Rng.flip 9 ⟨⟨1, [0], true, false, true, true, 0⟩, 0,
        [⟨0, [⟨0, 0, 8⟩], 0⟩, ⟨1, [], 0⟩, ⟨2, [⟨2, 8, 8⟩, ⟨2, 16, 8⟩], 0⟩], 0⟩).1 = out.map .ok ∧
      SameLive [⟨0, [⟨0, 0, 8⟩], 0⟩, ⟨1, [], 0⟩, ⟨2, [⟨2, 8, 8⟩, ⟨2, 16, 8⟩], 0⟩]
        (Stream.run Rng.flip 9 ⟨⟨1, [0], true, false, true, true, 0⟩, 0,
          [⟨0, [⟨0, 0, 8⟩], 0⟩, ⟨1, [], 0⟩, ⟨2, [⟨2, 8, 8⟩, ⟨2, 16, 8⟩], 0⟩], 0⟩).2.groups ∧
      ((Stream.run Rng.flip 9 ⟨⟨1, [0], true, false, true, true, 0⟩, 0,
          [⟨0, [⟨0, 0, 8⟩], 0⟩, ⟨1, [], 0⟩, ⟨2, [⟨2, 8, 8⟩, ⟨2, 16, 8⟩], 0⟩], 0⟩).2.groups.map
        Group.id).Sublist
        (([⟨0, [⟨0, 0, 8⟩], 0⟩, ⟨1, [], 0⟩, ⟨2, [⟨2, 8, 8⟩, ⟨2, 16, 8⟩], 0⟩] : List Group).map
          Group.id) :=
  ⟨⟨rfl, by decide, ⟨0, [⟨0, 0, 8⟩], 0⟩, by simp, by simp⟩,
   looping_never_ends Rng.flip 2000 ⟨1, [0], true, false, true, true, 0⟩ (locatorsOf [0, 2, 2])
     ⟨⟨1, [0], true, false, true, true, 0⟩, 0,
       [⟨0, [⟨0, 0, 8⟩], 0⟩, ⟨1, [], 0⟩, ⟨2, [⟨2, 8, 8⟩, ⟨2, 16, 8⟩], 0⟩], 0⟩
     rfl (by decide) ⟨⟨0, [⟨0, 0, 8⟩], 0⟩, by simp, by simp⟩ 9⟩

/-! ### The plain round robin -/

theorem rrStep_length (p : List (List Locator × Nat)) : (rrStep p).length = p.length := by
  cases p with
  | nil => rfl
  | cons a p => obtain ⟨idx, cur⟩ := a; simp [rrStep]

theorem rrStep_iterate_length (k : Nat) (p : List (List Locator × Nat)) :
    (rrStep^[k] p).length = p.length := by
  induction k generalizing p with
  | zero => rfl
  | succ k ih => rw [Function.iterate_succ_apply, ih, rrStep_length]

/-- After `k` steps the first `k` lists have been served once and stand at the end. -/
theorem rrStep_iterate_le (p : List (List Locator × Nat)) (k : Nat) (hk : k ≤ p.length) :
    rrStep^[k] p = p.drop k ++ (p.take k).map (fun q => (q.1, (q.2 + 1) % q.1.length)) := by
  induction k with
  | zero => simp
  | succ k ih =>
    have hlt : k < p.length := by omega
    rw [Function.iterate_succ_apply', ih (by omega), List.drop_eq_getElem_cons hlt]
    rw [List.take_succ, List.getElem?_eq_getElem hlt]
    generalize p[k] = q
    obtain ⟨idx, cur⟩ := q
    simp [rrStep]

theorem rrStep_round (p : List (List Locator × Nat)) :
    rrStep^[p.length] p = p.map (fun q => (q.1, (q.2 + 1) % q.1.length)) := by
  rw [rrStep_iterate_le p p.length le_rfl]
  simp

theorem rrStep_rounds (p : List (List Locator × Nat)) (j : Nat) :
    rrStep^[p.length * j] p = p.map (fun q => (q.1, (q.2 + 1) % q.1.length))^[j] := by
  induction j with
  | zero => simp
  | succ j ih =>
    rw [Nat.mul_succ, Nat.add_comm, Function.iterate_add_apply, ih]
    have hlen : (p.map (fun q : List Locator × Nat => (q.1, (q.2 + 1) % q.1.length))^[j]).length
        = p.length := by simp
    have := rrStep_round (p.map (fun q : List Locator × Nat => (q.1, (q.2 + 1) % q.1.length))^[j])
    rw [hlen] at this
    rw [this, List.map_map, Function.iterate_succ']

theorem inc_iterate (idx : List Locator) (cur j : Nat) :
    (fun q : List Locator × Nat => (q.1, (q.2 + 1) % q.1.length))^[j] (idx, cur)
      = (idx, if j = 0 then cur else (cur + j) % idx.length) := by
  induction j with
  | zero => simp
  | succ j ih =>
    rw [Function.iterate_succ_apply', ih]
    by_cases hj : j = 0
    · subst hj; simp
    · simp only [hj, if_false, Nat.add_one_ne_zero]
      congr 1
      rw [Nat.mod_add_mod, Nat.add_assoc]

/-- A round robin over `G` lists of `L` entries each is back in its state after `G * L`
steps. -/
theorem rrStep_period (p : List (List Locator × Nat)) (L : Nat)
    (h : ∀ q, q ∈ p → q.1.length = L ∧ q.2 < L) : rrStep^[p.length * L] p = p := by
  rw [rrStep_rounds]
  conv_rhs => rw [← List.map_id p]
  apply List.map_congr_left
  intro q hq
  obtain ⟨idx, cur⟩ := q
  obtain ⟨h1, h2⟩ := h _ hq
  simp only at h1 h2
  rw [inc_iterate, id]
  congr 1
  split
  · rfl
  · rw [h1, Nat.add_mod_right, Nat.mod_eq_of_lt h2]

theorem rotation_split (s : Stream) (pre : List Group) (g : Group) (post : List Group)
    (hd : s.groups = pre ++ g :: post) (hc : pre.length = s.cursor) :
    s.rotation = (live (g :: post ++ pre)).map (fun g => (g.index, g.next % g.index.length)) := by
  unfold Stream.rotation
  unfold Stream.cursor at hc
  congr 2
  split at hc
  · rename_i hw
    have hp : pre = [] := List.length_eq_zero.mp hc
    subst hp
    rw [List.drop_of_length_le hw, List.take_of_length_le hw, hd]
    simp
  · rw [← hc, hd]
    simp

theorem rotation_served (s : Stream) (pre : List Group) (g : Group) (post : List Group)
    (hd : s.groups = pre ++ g :: post) (hn : s.next_group = pre.length + 1)
    (hg : g.index ≠ []) :
    s.rotation = (live (post ++ pre)).map (fun g => (g.index, g.next % g.index.length))
      ++ [(g.index, g.next % g.index.length)] := by
  unfold Stream.rotation
  have h1 : (pre ++ g :: post).drop (pre.length + 1) = post := by
    rw [List.drop_append_eq_append_drop]
    simp
  have h2 : (pre ++ g :: post).take (pre.length + 1) = pre ++ [g] := by
    rw [List.take_append_eq_append_take]
    simp
  rw [hn, hd, h1, h2, ← List.append_assoc, live_append]
  simp only [List.map_append]
  congr 1
  rw [live_cons_nonempty g [] hg]
  rfl

/-- One call of `Stream::next` of a stream that loops without reshuffling is one step of
the plain round robin over its groups with entries. -/
theorem nextLoop_rr (sh : Rng) (fuel : Nat) (s : Stream) (hl : s.config.loop = true)
    (hr : s.config.reshuffle = false) (hinv : ∀ g, g ∈ s.groups → g.next ≤ g.index.length)
    (hrot : s.rotation ≠ []) (hf : s.groups.length < fuel) :
    ∃ e s1, Stream.nextLoop sh fuel s = (.ok e, s1) ∧ s1.config = s.config ∧
      (∀ g, g ∈ s1.groups → g.next ≤ g.index.length) ∧
      rrOut s.rotation = some e ∧ s1.rotation = rrStep s.rotation := by
  induction fuel generalizing s with
  | zero => omega
  | succ fuel ih =>
    have hg : s.groups ≠ [] := by
      intro hg
      apply hrot
      simp [Stream.rotation, hg, live]
    obtain ⟨pre, g, post, hd, hc⟩ := cursor_split s hg
    have hrs := rotation_split s pre g post hd hc
    have hinvg : g.next ≤ g.index.length := hinv g (by rw [hd]; simp)
    have hserve : ∀ (s0 : Stream) (g1 : Group), s0.config = s.config →
        s0.groups = pre ++ g1 :: post → s0.next_group = pre.length → g1.index = g.index →
        g1.next = g.next % g.index.length → g.index ≠ [] →
        ∃ e s1, s0.serve g1 = (.ok e, s1) ∧ s1.config = s.config ∧
          (∀ g, g ∈ s1.groups → g.next ≤ g.index.length) ∧
          rrOut s.rotation = some e ∧ s1.rotation = rrStep s.rotation := by
      intro s0 g1 h0 h1 h2 h3 h4 h5
      have hpos : 0 < g.index.length := List.length_pos.mpr h5
      have hlt : g1.next < g1.index.length := by
        rw [h3, h4]; exact Nat.mod_lt _ hpos
      have he : g1.index[g1.next]? = some g1.index[g1.next] := List.getElem?_eq_getElem hlt
      have hrot0 : s.rotation = (g.index, g.next % g.index.length) ::
          (live (post ++ pre)).map (fun g => (g.index, g.next % g.index.length)) := by
        rw [hrs, List.cons_append, live_cons_nonempty g _ h5]
        rfl
      refine ⟨_, _, serve_eq s0 pre g1 post _ h1 h2 he, h0, ?_, ?_, ?_⟩
      · intro x hx
        simp only [List.mem_append, List.mem_cons] at hx
        rcases hx with hx | rfl | hx
        · exact hinv x (by rw [hd]; simp [hx])
        · simp only; omega
        · exact hinv x (by rw [hd]; simp [hx])
      · rw [hrot0]
        simp only [rrOut]
        have : g1.index[g1.next]? = g.index[g.next % g.index.length]? := by rw [h3, h4]
        rw [← this]
        exact he
      · rw [rotation_served _ pre { g1 with next := g1.next + 1 } post rfl rfl
          (by simp only; rw [h3]; exact h5)]
        rw [hrot0]
        simp only [rrStep, h3, h4]
    rw [nextLoop_unfold sh fuel s pre g post hd hc]
    simp only [hl, hr, Bool.and_false, Bool.false_eq_true, if_false, if_true]
    by_cases h1 : g.next ≥ g.index.length
    · rw [if_pos h1]
      by_cases h2 : g.index.length ≤ 0
      · rw [if_pos h2]
        have hempty : g.index = [] := List.length_eq_zero.mp (by omega)
        have hrot1 : Stream.rotation { s with groups := pre ++ post, next_group := pre.length }
            = s.rotation := by
          rw [hrs, List.cons_append, live_cons_empty g _ hempty]
          unfold Stream.rotation
          simp
        obtain ⟨e, s1, h3, h4, h5, h6, h7⟩ := ih
          { s with groups := pre ++ post, next_group := pre.length } hl hr
          (by
            intro x hx
            simp only [List.mem_append] at hx
            rcases hx with hx | hx
            · exact hinv x (by rw [hd]; simp [hx])
            · exact hinv x (by rw [hd]; simp [hx]))
          (by rw [hrot1]; exact hrot)
          (by
            have : s.groups.length = pre.length + post.length + 1 := by
              rw [hd]; simp only [List.length_append, List.length_cons]; omega
            simp only [List.length_append]; omega)
        rw [hrot1] at h6 h7
        exact ⟨e, s1, h3, h4, h5, h6, h7⟩
      · rw [if_neg h2]
        have hne : g.index ≠ [] := by
          intro h0; rw [h0] at h2; simp at h2
        have heq : g.next = g.index.length := by omega
        exact hserve _ _ rfl rfl rfl rfl (by simp only; rw [heq, Nat.mod_self]) hne
    · rw [if_neg h1]
      have hne : g.index ≠ [] := by
        intro h0; rw [h0] at h1; simp at h1
      exact hserve _ _ rfl hd rfl rfl (by rw [Nat.mod_eq_of_lt (by omega)]) hne

/-- The calls of a stream that loops without reshuffling: call `i` serves what the plain
round robin serves after `i` steps. -/
theorem run_rr (sh : Rng) (i : Nat) (s : Stream) (hl : s.config.loop = true)
    (hr : s.config.reshuffle = false) (hinv : ∀ g, g ∈ s.groups → g.next ≤ g.index.length)
    (hrot : s.rotation ≠ []) :
    ∃ e, Stream.call sh s i = .ok e ∧ rrOut (rrStep^[i] s.rotation) = some e := by
  induction i generalizing s with
  | zero =>
    obtain ⟨e, s1, h1, -, -, h4, -⟩ :=
      nextLoop_rr sh (s.groups.length + 1) s hl hr hinv hrot (by omega)
    refine ⟨e, ?_, h4⟩
    simp only [Stream.call, Stream.run, Stream.next, h1]
  | succ i ih =>
    obtain ⟨e, s1, h1, h2, h3, -, h5⟩ :=
      nextLoop_rr sh (s.groups.length + 1) s hl hr hinv hrot (by omega)
    have hrot1 : s1.rotation ≠ [] := by
      intro h0
      have := rrStep_length s.rotation
      rw [← h5, h0] at this
      exact hrot (List.length_eq_zero.mp this.symm)
    obtain ⟨e1, h6, h7⟩ := ih s1 (by rw [h2]; exact hl) (by rw [h2]; exact hr) h3 hrot1
    have hn : Stream.next sh s = (.ok e, s1) := h1
    refine ⟨e1, ?_, ?_⟩
    · simp only [Stream.call, run_succ, hn] at h6 ⊢
      exact h6
    · rw [Function.iterate_succ_apply, ← h5]
      exact h7

theorem size_eq_live (gs : List Group) (L : Nat)
    (h : ∀ g, g ∈ gs → g.index.length = 0 ∨ g.index.length = L) :
    (gs.map (fun g => g.index.length)).sum = (live gs).length * L := by
  induction gs with
  | nil => simp [live]
  | cons g gs ih =>
    have ih := ih (fun x hx => h x (List.mem_cons_of_mem _ hx))
    simp only [List.map_cons, List.sum_cons, ih]
    by_cases hg : g.index = []
    · rw [live_cons_empty g gs hg, hg]; simp
    · rw [live_cons_nonempty g gs hg]
      rcases h g (by simp) with h0 | h0
      · exact absurd (List.length_eq_zero.mp h0) hg
      · rw [h0, List.length_cons, Nat.succ_mul, Nat.add_comm]

theorem rotation_fresh (s : Stream) (hn : s.next_group = 0)
    (h : ∀ g, g ∈ s.groups → g.next = 0) :
    s.rotation = (live s.groups).map (fun g => (g.index, 0)) := by
  unfold Stream.rotation
  rw [hn, List.drop_zero, List.take_zero, List.append_nil]
  apply List.map_congr_left
  intro g hg
  have : g ∈ s.groups := (List.mem_filter.mp hg).1
  rw [h g this, Nat.zero_mod]

/-- A fresh stream that loops without reshuffling and whose groups with entries all have
`L` entries serves the same locator in call `i + size()` as in call `i`. -/
theorem periodic_of_equal_lengths (sh : Rng) (s : Stream) (hl : s.config.loop = true)
    (hr : s.config.reshuffle = false) (hn : s.next_group = 0)
    (h0 : ∀ g, g ∈ s.groups → g.next = 0) (L : Nat)
    (hL : ∀ g, g ∈ s.groups → g.index.length = 0 ∨ g.index.length = L) (i : Nat) :
    Stream.call sh s (i + s.size) = Stream.call sh s i := by
  by_cases hz : s.size = 0
  · rw [hz, Nat.add_zero]
  · have hsize : s.size = s.rotation.length * L := by
      rw [rotation_fresh s hn h0, List.length_map]
      exact size_eq_live s.groups L hL
    have hrot : s.rotation ≠ [] := by
      intro hnil
      rw [hnil] at hsize
      simp at hsize
      exact hz hsize
    have hinv : ∀ g, g ∈ s.groups → g.next ≤ g.index.length := by
      intro g hg; rw [h0 g hg]; exact Nat.zero_le _
    have hq : ∀ q, q ∈ s.rotation → q.1.length = L ∧ q.2 < L := by
      intro q hq
      rw [rotation_fresh s hn h0, List.mem_map] at hq
      obtain ⟨g, hg, rfl⟩ := hq
      have hg1 : g ∈ s.groups := (List.mem_filter.mp hg).1
      have hg2 : g.index ≠ [] := by
        have := (List.mem_filter.mp hg).2
        intro h; simp [h] at this
      rcases hL g hg1 with h | h
      · exact absurd (List.length_eq_zero.mp h) hg2
      · have := List.length_pos.mpr hg2
        exact ⟨h, by simp only; omega⟩
    obtain ⟨e1, h1, h2⟩ := run_rr sh i s hl hr hinv hrot
    obtain ⟨e2, h3, h4⟩ := run_rr sh (i + s.size) s hl hr hinv hrot
    rw [Function.iterate_add_apply, hsize, rrStep_period s.rotation L hq, h2] at h4
    rw [h1, h3, Option.some.inj h4]

theorem shuffleGroups_single (sh : Rng) (rng : Nat) (g : Group) :
    ∃ g1, (shuffleGroups sh rng [g]).1 = [g1] := by
  simp [shuffleGroups]

theorem create_unstratified (sh : Rng) (M : Nat) (c : Config) (all : List Locator)
    (s : Stream) (hs : c.stratify = false) (h : Stream.create sh M c all = .ok s) :
    ∃ g, s.groups = [g] := by
  obtain ⟨keys, pre, rng, hp, hs1⟩ := create_ok sh M c all s h
  have hpre : ∃ g, pre = [g] := by
    unfold Stream.preSlice at hp
    split at hp
    · cases hp
    · rw [hs] at hp
      simp only [makeGroups, Bool.false_eq_true, if_false, List.length_singleton,
        Nat.add_one_ne_zero] at hp
      split at hp
      · injection hp with hp
        injection hp with h1 h2
        obtain ⟨g1, hg1⟩ := shuffleGroups_single sh (sh.seed c.seed)
          { id := 0, index := all, next := 0 }
        refine ⟨g1, ?_⟩
        rw [← hg1, h2]
      · injection hp with hp
        injection hp with h1 h2
        injection h2 with h2 h3
        exact ⟨_, h2.symm⟩
  obtain ⟨g, rfl⟩ := hpre
  subst hs1
  simp only [sliceGroups]
  split
  · exact ⟨_, rfl⟩
  · exact ⟨_, rfl⟩

/-- C4, as stated, fails: with the labels 0, 1, 1, stratified, `loop = true` and
`reshuffle = false`, `size()` is 3, call 0 returns the locator at offset 0 and call
`0 + 3` returns the locator at offset 16. -/
theorem looping_periodicity_counterexample :
    Stream.create Rng.keep 2000 ⟨1, [0], true, false, true, false, 0⟩ (locatorsOf [0, 1, 1])
      = .ok ⟨⟨1, [0], true, false, true, false, 0⟩, 0,
          [⟨0, [⟨0, 0, 8⟩], 0⟩, ⟨1, [⟨1, 8, 8⟩, ⟨1, 16, 8⟩], 0⟩], 0⟩ ∧
    Stream.size ⟨⟨1, [0], true, false, true, false, 0⟩, 0,
          [⟨0, [⟨0, 0, 8⟩], 0⟩, ⟨1, [⟨1, 8, 8⟩, ⟨1, 16, 8⟩], 0⟩], 0⟩ = 3 ∧
    Stream.call Rng.keep ⟨⟨1, [0], true, false, true, false, 0⟩, 0,
          [⟨0, [⟨0, 0, 8⟩], 0⟩, ⟨1, [⟨1, 8, 8⟩, ⟨1, 16, 8⟩], 0⟩], 0⟩ 0 = .ok ⟨0, 0, 8⟩ ∧
    Stream.call Rng.keep ⟨⟨1, [0], true, false, true, false, 0⟩, 0,
          [⟨0, [⟨0, 0, 8⟩], 0⟩, ⟨1, [⟨1, 8, 8⟩, ⟨1, 16, 8⟩], 0⟩], 0⟩ (0 + 3) = .ok ⟨1, 16, 8⟩ := by
  decide

/-- C4 (amended): for every sampler constructed with `loop = true` and `reshuffle = false`
whose non-empty groups (after slicing) all have the same number of entries, the sequence
served by `Stream::next` repeats every `size()` calls: call `i + size()` returns what call
`i` returns; this is so in particular whenever `stratify` is off (there is one group). -/
theorem looping_periodicity (sh : Rng) (M : Nat) (c : Config) (all : List Locator)
    (s : Stream) (hl : c.loop = true) (hr : c.reshuffle = false)
    (h : Stream.create sh M c all = .ok s) :
    ((∃ L, ∀ g, g ∈ s.groups → g.index.length = 0 ∨ g.index.length = L) →
      ∀ i, Stream.call sh s (i + s.size) = Stream.call sh s i) ∧
    (c.stratify = false → ∀ i, Stream.call sh s (i + s.size) = Stream.call sh s i) := by
  obtain ⟨h1, h2, h3, h4⟩ := create_fresh sh M c all s h
  have key : ∀ L, (∀ g, g ∈ s.groups → g.index.length = 0 ∨ g.index.length = L) →
      ∀ i, Stream.call sh s (i + s.size) = Stream.call sh s i :=
    fun L hL i => periodic_of_equal_lengths sh s (by rw [h3, hl]) (by rw [h4, hr]) h1 h2 L hL i
  constructor
  · rintro ⟨L, hL⟩
    exact key L hL
  · intro hs
    obtain ⟨g, hg⟩ := create_unstratified sh M c all s hs h
    apply key g.index.length
    intro x hx
    rw [hg, List.mem_singleton] at hx
    right; rw [hx]

/-- Witness of `looping_periodicity`: the labels 0, 0, 3, 3, stratified, two groups of two
entries (and two empty ones); call 1 and call 1 + 4. -/
theorem looping_periodicity_witness :
    (true = true ∧ false = false ∧
      Stream.create Rng.keep 2000 ⟨1, [0], true, false, true, false, 0⟩ (locatorsOf [0, 0, 3, 3])
        = .ok ⟨⟨1, [0], true, false, true, false, 0⟩, 0,
            [⟨0, [⟨0, 0, 8⟩, ⟨0, 8, 8⟩], 0⟩, ⟨1, [], 0⟩, ⟨2, [], 0⟩,
             ⟨3, [⟨3, 16, 8⟩, ⟨3, 24, 8⟩], 0⟩], 0⟩ ∧
      ∃ L, ∀ g, g ∈ [(⟨0, [⟨0, 0, 8⟩, ⟨0, 8, 8⟩], 0⟩ : Group), ⟨1, [], 0⟩, ⟨2, [], 0⟩,
             ⟨3, [⟨3, 16, 8⟩, ⟨3, 24, 8⟩], 0⟩] → g.index.length = 0 ∨ g.index.length = L) ∧
    Stream.call Rng.keep ⟨⟨1, [0], true, false, true, false, 0⟩, 0,
            [⟨0, [⟨0, 0, 8⟩, ⟨0, 8, 8⟩], 0⟩, ⟨1, [], 0⟩, ⟨2, [], 0⟩,
             ⟨3, [⟨3, 16, 8⟩, ⟨3, 24, 8⟩], 0⟩], 0⟩ (1 + 4)
      = Stream.call Rng.keep ⟨⟨1, [0], true, false, true, false, 0⟩, 0,
            [⟨0, [⟨0, 0, 8⟩, ⟨0, 8, 8⟩], 0⟩, ⟨1, [], 0⟩, ⟨2, [], 0⟩,
             ⟨3, [⟨3, 16, 8⟩, ⟨3, 24, 8⟩], 0⟩], 0⟩ 1 :=
  ⟨⟨rfl, rfl, by decide, 2, by decide⟩,
   (looping_periodicity Rng.keep 2000 ⟨1, [0], true, false, true, false, 0⟩
      (locatorsOf [0, 0, 3, 3])
      ⟨⟨1, [0], true, false, true, false, 0⟩, 0,
        [⟨0, [⟨0, 0, 8⟩, ⟨0, 8, 8⟩], 0⟩, ⟨1, [], 0⟩, ⟨2, [], 0⟩,
         ⟨3, [⟨3, 16, 8⟩, ⟨3, 24, 8⟩], 0⟩], 0⟩
      rfl rfl (by decide)).1 ⟨2, by decide⟩ 1⟩

/-! ## Theorems: file writer and reader -/

theorem roundup_ge (L : Layout) (hA : 0 < L.RECORD_ALIGN) (n : Nat) :
    n ≤ roundup L n ∧ roundup L n % L.RECORD_ALIGN = 0 := by
  unfold roundup
  constructor
  · have h1 := Nat.div_add_mod (n + L.RECORD_ALIGN - 1) L.RECORD_ALIGN
    have h2 := Nat.mod_lt (n + L.RECORD_ALIGN - 1) hA
    rw [Nat.mul_comm] at h1
    generalize (n + L.RECORD_ALIGN - 1) / L.RECORD_ALIGN * L.RECORD_ALIGN = m at h1 ⊢
    omega
  · exact Nat.mul_mod_left _ _

theorem write_ok (L : Layout) (hA : 0 < L.RECORD_ALIGN) (r : Record) (file : File) (pos : Nat)
    (hpos : pos % L.RECORD_ALIGN = 0) :
    Record.write L r file pos =
      .ok (roundup L (r.dataSize L.sizeofMeta),
        file.pwrite pos (r.dataSize L.sizeofMeta) (fun i => Cell.recByte r i),
        pos + roundup L (r.dataSize L.sizeofMeta)) := by
  obtain ⟨h1, h2⟩ := roundup_ge L hA (r.dataSize L.sizeofMeta)
  have h3 : (pos + roundup L (r.dataSize L.sizeofMeta)) % L.RECORD_ALIGN = 0 := by
    rw [Nat.add_mod, hpos, h2]; simp
  have hR : (r.dataSize L.sizeofMeta + L.RECORD_ALIGN - 1) / L.RECORD_ALIGN * L.RECORD_ALIGN
      = roundup L (r.dataSize L.sizeofMeta) := rfl
  unfold Record.write
  simp only [hpos, ne_eq, not_true_eq_false, if_false, hR]
  generalize roundup L (r.dataSize L.sizeofMeta) = R at h1 h2 h3 ⊢
  generalize r.dataSize L.sizeofMeta = n at h1 ⊢
  by_cases hgt : R > n
  · have e1 : pos + n + (R - n) = pos + R := by omega
    have e2 : pos + R - pos = R := by omega
    have e3 : pos + R > 0 := by omega
    simp [hgt, e1, e2, e3, h3]
  · have e1 : R = n := by omega
    subst e1
    simp [h3]

theorem segEntries_acc (seg : SegmentHeader) (n i off : Nat) (l : List Locator) :
    FileReader.segEntries seg n i off l =
      (l ++ (FileReader.segEntries seg n i off []).1, (FileReader.segEntries seg n i off []).2) := by
  induction n generalizing i off l with
  | zero => simp [FileReader.segEntries]
  | succ n ih =>
    simp only [FileReader.segEntries]
    rw [ih (i + 1) _ (l ++ _), ih (i + 1) _ ([] ++ _)]
    simp

theorem segEntries_snoc (seg : SegmentHeader) (n i off : Nat) (l : List Locator) :
    FileReader.segEntries seg (n + 1) i off l =
      ((FileReader.segEntries seg n i off l).1 ++
          [{ label := seg.labels.getD (i + n) 0, offset := (FileReader.segEntries seg n i off l).2
             size := seg.sizes.getD (i + n) 0 }],
        (FileReader.segEntries seg n i off l).2 + seg.sizes.getD (i + n) 0) := by
  induction n generalizing i off l with
  | zero => simp [FileReader.segEntries]
  | succ n ih =>
    rw [FileReader.segEntries, ih (i + 1)]
    simp only [FileReader.segEntries]
    have : i + 1 + n = i + (n + 1) := by omega
    rw [this]

theorem segEntries_congr (seg seg1 : SegmentHeader) (n i off : Nat) (l : List Locator)
    (h : ∀ j, i ≤ j → j < i + n →
      seg.labels.getD j 0 = seg1.labels.getD j 0 ∧ seg.sizes.getD j 0 = seg1.sizes.getD j 0) :
    FileReader.segEntries seg n i off l = FileReader.segEntries seg1 n i off l := by
  induction n generalizing i off l with
  | zero => rfl
  | succ n ih =>
    simp only [FileReader.segEntries]
    obtain ⟨h1, h2⟩ := h i le_rfl (by omega)
    rw [h1, h2]
    exact ih (i + 1) _ _ (fun j hj1 hj2 => h j (by omega) (by omega))

theorem segEntries_off_ge (seg : SegmentHeader) (n i off : Nat) (l : List Locator) :
    off ≤ (FileReader.segEntries seg n i off l).2 := by
  induction n generalizing i off l with
  | zero => simp [FileReader.segEntries]
  | succ n ih =>
    simp only [FileReader.segEntries]
    exact le_trans (Nat.le_add_right _ _) (ih _ _ _)

theorem segEnd_ge (L : Layout) (o : Nat) (h : SegmentHeader) : o + L.sizeofSeg ≤ segEnd L o h :=
  segEntries_off_ge _ _ _ _ _

theorem Segs_le (L : Layout) (f : File) (o : Nat) (segs : List SegmentHeader) (o1 : Nat)
    (h : Segs L f o segs o1) : o ≤ o1 := by
  induction segs generalizing o with
  | nil => exact le_of_eq h
  | cons a segs ih =>
    obtain ⟨-, h2, h3⟩ := h
    have := segEnd_ge L o a
    have := ih _ h3
    omega

theorem Segs_frame (L : Layout) (f f1 : File) (o : Nat) (segs : List SegmentHeader) (o1 : Nat)
    (h : Segs L f o segs o1) (hf : ∀ p, p < o1 → f1.cells p = f.cells p) :
    Segs L f1 o segs o1 := by
  induction segs generalizing o with
  | nil => exact h
  | cons a segs ih =>
    obtain ⟨h1, h2, h3⟩ := h
    refine ⟨?_, h2, ih _ h3⟩
    intro i hi
    have := segEnd_ge L o a
    have := Segs_le L f _ _ _ h3
    rw [hf (o + i) (by omega)]
    exact h1 i hi

theorem Segs_append (L : Layout) (f : File) (o : Nat) (a b : List SegmentHeader)
    (o1 o2 : Nat) (h1 : Segs L f o a o1) (h2 : Segs L f o1 b o2) : Segs L f o (a ++ b) o2 := by
  induction a generalizing o with
  | nil => have : o = o1 := h1; subst this; exact h2
  | cons x a ih =>
    obtain ⟨h3, h4, h5⟩ := h1
    exact ⟨h3, h4, ih _ h5⟩

theorem chainLocs_append (L : Layout) (f : File) (o : Nat) (a b : List SegmentHeader)
    (o1 : Nat) (h1 : Segs L f o a o1) :
    chainLocs L o (a ++ b) = chainLocs L o a ++ chainLocs L o1 b := by
  induction a generalizing o with
  | nil => have : o = o1 := h1; subst this; simp [chainLocs]
  | cons x a ih =>
    obtain ⟨-, -, h5⟩ := h1
    have := ih _ h5
    show segLocs L o x ++ chainLocs L x.link (a ++ b) = (segLocs L o x ++ chainLocs L x.link a) ++ _
    rw [this, List.append_assoc]

theorem preadSeg_ok (L : Layout) (hS : 0 < L.sizeofSeg) (f : File) (o : Nat)
    (h : SegmentHeader) (hh : HeaderAt L f o h) (hsz : o + L.sizeofSeg ≤ f.size) :
    f.preadSeg L.sizeofSeg o = .ok h := by
  unfold File.preadSeg
  rw [if_neg (by omega)]
  have h0 := hh 0 hS
  rw [Nat.add_zero] at h0
  rw [h0]
  simp only
  exact if_pos hh

/-- The `while` loop of `FileReader::ping` along a chain of segments that ends at the end
of the file: it returns the locators of the chain. -/
theorem pingLoop_chain (L : Layout) (hS : 0 < L.sizeofSeg) (f : File)
    (segs : List SegmentHeader) (o fuel : Nat) (acc : List Locator)
    (h : Segs L f o segs f.size) (hfuel : f.size ≤ fuel + o) :
    FileReader.pingLoop L f fuel o acc = .ok (acc ++ chainLocs L o segs) := by
  induction segs generalizing o fuel acc with
  | nil =>
    have : o = f.size := h
    cases fuel <;> simp [FileReader.pingLoop, this, chainLocs]
  | cons a segs ih =>
    obtain ⟨h1, h2, h3⟩ := h
    have hge := segEnd_ge L o a
    have hle := Segs_le L f _ _ _ h3
    have hlt : o < f.size := by omega
    cases fuel with
    | zero => omega
    | succ fuel =>
      rw [FileReader.pingLoop, if_pos hlt, preadSeg_ok L hS f o a h1 (by omega)]
      simp only
      rw [segEntries_acc]
      have e1 : (FileReader.segEntries a a.size 0 (o + L.sizeofSeg) []).2 = a.link := h2
      simp only [e1, ne_eq, not_true_eq_false, if_false]
      rw [ih a.link fuel _ h3 (by omega)]
      simp [chainLocs, segLocs]

theorem pwrite_cells_lt (f : File) (off len : Nat) (img : Nat → Cell) (p : Nat) (h : p < off) :
    (f.pwrite off len img).cells p = f.cells p := by
  simp only [File.pwrite]
  rw [if_neg (by omega)]

theorem pwrite_cells_ge (f : File) (off len : Nat) (img : Nat → Cell) (p : Nat)
    (h : off + len ≤ p) : (f.pwrite off len img).cells p = f.cells p := by
  simp only [File.pwrite]
  rw [if_neg (by omega)]

theorem pwrite_cells_in (f : File) (off len : Nat) (img : Nat → Cell) (j : Nat) (h : j < len) :
    (f.pwrite off len img).cells (off + j) = img j := by
  simp only [File.pwrite]
  rw [if_pos (by omega), Nat.add_sub_cancel_left]

theorem getD_set_eq {α : Type} (l : List α) (i : Nat) (a d : α) (h : i < l.length) :
    (l.set i a).getD i d = a := by
  simp [List.getD_eq_getElem?_getD, List.getElem?_set, h]

theorem getD_set_ne {α : Type} (l : List α) (i j : Nat) (a d : α) (h : i ≠ j) :
    (l.set i a).getD j d = l.getD j d := by
  simp [List.getD_eq_getElem?_getD, List.getElem?_set, h]

/-- Putting a record into a segment that is not full keeps the invariant of the writer and
enters one locator: the label of the record, the offset at which it was written and its
padded length. -/
theorem put_ok (L : Layout) (hL : L.WellFormed) (w : FileWriter) (closed : List SegmentHeader)
    (done : List Record) (r : Record) (hinv : WInv L w closed done)
    (hnext : w.next < L.MAX_SEG_RECORDS) (hr : roundup L (r.dataSize L.sizeofMeta) < 2 ^ 32) :
    ∃ w1, FileWriter.put L w r = .ok w1 ∧ WInv L w1 closed (done ++ [r]) ∧
      writerLocs L w1 closed = writerLocs L w closed ++
        [{ label := r.meta_ptr.label, offset := w.pos
           size := roundup L (r.dataSize L.sizeofMeta) }] ∧
      w1.pos = w.pos + roundup L (r.dataSize L.sizeofMeta) ∧ w1.next = w.next + 1 := by
  obtain ⟨hA, hSA, hS, hM, hMAX, hMAX32⟩ := hL
  obtain ⟨i1, i2, i3, i4, i5, i6, i7, i8, i9⟩ := hinv
  obtain ⟨hge, hRA⟩ := roundup_ge L hA (r.dataSize L.sizeofMeta)
  have hn : 0 < r.dataSize L.sizeofMeta := by unfold Record.dataSize; omega
  have hposge : w.seg_off + L.sizeofSeg ≤ w.pos := by
    rw [← i4]; exact segEntries_off_ge _ _ _ _ _
  have hmod : roundup L (r.dataSize L.sizeofMeta) % 4294967296
      = roundup L (r.dataSize L.sizeofMeta) := Nat.mod_eq_of_lt (by simpa using hr)
  have hsize : (w.seg.size + 1) % 4294967296 = w.next + 1 := by
    rw [i5]; exact Nat.mod_eq_of_lt (by norm_num at hMAX32; omega)
  have hE : FileReader.segEntries
      { size := w.next + 1, labels := w.seg.labels.set w.next r.meta_ptr.label
        sizes := w.seg.sizes.set w.next (roundup L (r.dataSize L.sizeofMeta))
        link := w.seg.link } (w.next + 1) 0 (w.seg_off + L.sizeofSeg) []
      = ((FileReader.segEntries w.seg w.next 0 (w.seg_off + L.sizeofSeg) []).1 ++
          [{ label := r.meta_ptr.label, offset := w.pos
             size := roundup L (r.dataSize L.sizeofMeta) }],
         w.pos + roundup L (r.dataSize L.sizeofMeta)) := by
    rw [segEntries_snoc]
    have hc := segEntries_congr
      { size := w.next + 1, labels := w.seg.labels.set w.next r.meta_ptr.label
        sizes := w.seg.sizes.set w.next (roundup L (r.dataSize L.sizeofMeta))
        link := w.seg.link } w.seg w.next 0 (w.seg_off + L.sizeofSeg) []
      (by
        intro j _ hj
        simp only [Nat.zero_add] at hj
        exact ⟨getD_set_ne _ _ _ _ _ (by omega), getD_set_ne _ _ _ _ _ (by omega)⟩)
    rw [hc, i4, Nat.zero_add]
    simp only
    rw [getD_set_eq _ _ _ _ (by omega), getD_set_eq _ _ _ _ (by omega)]
  refine ⟨{ file := w.file.pwrite w.pos (r.dataSize L.sizeofMeta) (fun i => Cell.recByte r i)
            pos := w.pos + roundup L (r.dataSize L.sizeofMeta), seg_off := w.seg_off
            seg := { size := w.next + 1
                     labels := w.seg.labels.set w.next r.meta_ptr.label
                     sizes := w.seg.sizes.set w.next (roundup L (r.dataSize L.sizeofMeta))
                     link := w.seg.link }
            next := w.next + 1 }, ?_, ?_, ?_, rfl, rfl⟩
  · unfold FileWriter.put
    rw [write_ok L hA r w.file w.pos i1]
    simp only [gt_iff_lt, not_lt, Nat.le_zero_eq, Nat.reducePow, hmod, hsize]
    rw [if_neg (by omega)]
  · refine ⟨?_, i2, ?_, ?_, rfl, by simp only; omega, by simp only [List.length_set]; exact i7,
      by simp only [List.length_set]; exact i8, ?_⟩
    · show (w.pos + roundup L (r.dataSize L.sizeofMeta)) % L.RECORD_ALIGN = 0
      rw [Nat.add_mod, i1, hRA]; simp
    · exact Segs_frame L w.file _ 0 closed w.seg_off i3
        (fun p hp => pwrite_cells_lt _ _ _ _ _ (by omega))
    · simp only [hE]
    · simp only [writerLocs, hE, ← List.append_assoc]
      apply List.rel_append
      · refine List.Forall₂.imp ?_ i9
        rintro loc r1 ⟨⟨h1, h2, h3⟩, h4, h5⟩
        refine ⟨⟨h1, h2, ?_⟩, h4, Nat.le_trans h5 (Nat.le_add_right _ _)⟩
        intro j hj
        show (w.file.pwrite w.pos (r.dataSize L.sizeofMeta) (fun i => Cell.recByte r i)).cells
          (loc.offset + j) = Cell.recByte r1 j
        rw [pwrite_cells_lt _ _ _ _ _ (by omega)]
        exact h3 j hj
      · refine List.Forall₂.cons ⟨⟨rfl, rfl, ?_⟩, Or.inr hposge, Nat.add_le_add_left hge _⟩
          List.Forall₂.nil
        intro j hj
        exact pwrite_cells_in _ _ _ _ _ hj
  · simp only [writerLocs, hE, List.append_assoc]

/-- Closing a segment and opening the next one keeps the invariant of the writer: the
closed header joins the chain, and the locators entered stay the same. -/
theorem switch_ok (L : Layout) (hL : L.WellFormed) (w : FileWriter)
    (closed : List SegmentHeader) (done : List Record) (hinv : WInv L w closed done) :
    ∃ w0 w1, FileWriter.close_segment L w = .ok w0 ∧ FileWriter.open_segment L w0 = .ok w1 ∧
      WInv L w1 (closed ++ [{ w.seg with link := w.pos }]) done ∧
      writerLocs L w1 (closed ++ [{ w.seg with link := w.pos }]) = writerLocs L w closed ∧
      w1.pos = w.pos + L.sizeofSeg ∧ w1.next = 0 := by
  obtain ⟨hA, hSA, hS, hM, hMAX, hMAX32⟩ := hL
  obtain ⟨i1, i2, i3, i4, i5, i6, i7, i8, i9⟩ := hinv
  have hposge : w.seg_off + L.sizeofSeg ≤ w.pos := by
    rw [← i4]; exact segEntries_off_ge _ _ _ _ _
  have hE : FileReader.segEntries { w.seg with link := w.pos } w.seg.size 0
      (w.seg_off + L.sizeofSeg) [] = FileReader.segEntries w.seg w.next 0
      (w.seg_off + L.sizeofSeg) [] := by
    rw [i5]
    exact segEntries_congr _ _ _ _ _ _ (fun j _ _ => ⟨rfl, rfl⟩)
  have hcell : ∀ p, (p < w.seg_off ∨ (w.seg_off + L.sizeofSeg ≤ p ∧ p < w.pos)) →
      ((w.file.pwrite w.seg_off L.sizeofSeg
          (fun i => Cell.segByte { w.seg with link := w.pos } i)).pwrite w.pos L.sizeofSeg
          (fun i => Cell.segByte (SegmentHeader.init L.MAX_SEG_RECORDS) i)).cells p
        = w.file.cells p := by
    intro p hp
    rw [pwrite_cells_lt _ _ _ _ _ (by omega)]
    rcases hp with hp | hp
    · exact pwrite_cells_lt _ _ _ _ _ hp
    · exact pwrite_cells_ge _ _ _ _ _ hp.1
  have hsegs : Segs L ((w.file.pwrite w.seg_off L.sizeofSeg
          (fun i => Cell.segByte { w.seg with link := w.pos } i)).pwrite w.pos L.sizeofSeg
          (fun i => Cell.segByte (SegmentHeader.init L.MAX_SEG_RECORDS) i)) 0 closed w.seg_off :=
    Segs_frame L w.file _ 0 closed w.seg_off i3 (fun p hp => hcell p (Or.inl hp))
  have hlocs : chainLocs L 0 (closed ++ [{ w.seg with link := w.pos }])
      = chainLocs L 0 closed
        ++ (FileReader.segEntries w.seg w.next 0 (w.seg_off + L.sizeofSeg) []).1 := by
    rw [chainLocs_append L _ 0 closed _ w.seg_off hsegs]
    simp only [chainLocs, segLocs, List.append_nil, hE]
  refine ⟨{ w with seg := { w.seg with link := w.pos }
                   file := w.file.pwrite w.seg_off L.sizeofSeg
                     (fun i => Cell.segByte { w.seg with link := w.pos } i) },
    { file := (w.file.pwrite w.seg_off L.sizeofSeg
          (fun i => Cell.segByte { w.seg with link := w.pos } i)).pwrite w.pos L.sizeofSeg
          (fun i => Cell.segByte (SegmentHeader.init L.MAX_SEG_RECORDS) i)
      pos := w.pos + L.sizeofSeg, seg_off := w.pos
      seg := SegmentHeader.init L.MAX_SEG_RECORDS, next := 0 }, ?_, ?_, ?_, ?_, rfl, rfl⟩
  · unfold FileWriter.close_segment
    simp only [i1, ne_eq, not_true_eq_false, if_false]
  · unfold FileWriter.open_segment
    simp only [i1, ne_eq, not_true_eq_false, if_false]
  · refine ⟨?_, i1, ?_, rfl, rfl, Nat.zero_le _, ?_, ?_, ?_⟩
    · show (w.pos + L.sizeofSeg) % L.RECORD_ALIGN = 0
      rw [Nat.add_mod, i1, hSA]; simp
    · refine Segs_append L _ 0 closed _ w.seg_off w.pos hsegs ⟨?_, ?_, rfl⟩
      · intro i hi
        show ((w.file.pwrite w.seg_off L.sizeofSeg _).pwrite w.pos L.sizeofSeg _).cells
          (w.seg_off + i) = _
        rw [pwrite_cells_lt _ _ _ _ _ (by omega)]
        exact pwrite_cells_in _ _ _ _ _ hi
      · show (FileReader.segEntries { w.seg with link := w.pos } w.seg.size 0
          (w.seg_off + L.sizeofSeg) []).2 = w.pos
        rw [hE, i4]
    · simp [SegmentHeader.init]
    · simp [SegmentHeader.init]
    · simp only [writerLocs, FileReader.segEntries, List.append_nil, hlocs]
      refine List.Forall₂.imp ?_ i9
      rintro loc r1 ⟨⟨h1, h2, h3⟩, h4, h5⟩
      refine ⟨⟨h1, h2, ?_⟩, Or.inl h5, Nat.le_trans h5 (Nat.le_add_right _ _)⟩
      intro j hj
      show ((w.file.pwrite w.seg_off L.sizeofSeg _).pwrite w.pos L.sizeofSeg _).cells
        (loc.offset + j) = Cell.recByte r1 j
      rw [hcell (loc.offset + j) (by omega)]
      exact h3 j hj
  · simp only [writerLocs, FileReader.segEntries, List.append_nil, hlocs]

/-- The function `FileWriter::append` keeps the invariant of the writer and enters the locator that the
spec expects. -/
theorem append_ok (L : Layout) (hL : L.WellFormed) (w : FileWriter)
    (closed : List SegmentHeader) (done : List Record) (r : Record)
    (hinv : WInv L w closed done) (hr : roundup L (r.dataSize L.sizeofMeta) < 2 ^ 32) :
    ∃ w1 closed1, FileWriter.append L w r = .ok w1 ∧ WInv L w1 closed1 (done ++ [r]) ∧
      writerLocs L w1 closed1 = writerLocs L w closed ++
        [{ label := r.meta_ptr.label
           offset := if w.next ≥ L.MAX_SEG_RECORDS then w.pos + L.sizeofSeg else w.pos
           size := roundup L (r.dataSize L.sizeofMeta) }] ∧
      w1.pos = (if w.next ≥ L.MAX_SEG_RECORDS then w.pos + L.sizeofSeg else w.pos)
        + roundup L (r.dataSize L.sizeofMeta) ∧
      w1.next = (if w.next ≥ L.MAX_SEG_RECORDS then 0 else w.next) + 1 := by
  unfold FileWriter.append
  by_cases hfull : w.next ≥ L.MAX_SEG_RECORDS
  · obtain ⟨w0, w1, h0, h1, h2, h3, h4, h5⟩ := switch_ok L hL w closed done hinv
    obtain ⟨w2, h6, h7, h8, h9, h10⟩ := put_ok L hL w1 _ done r h2
      (by rw [h5]; exact hL.2.2.2.2.1) hr
    refine ⟨w2, _, ?_, h7, ?_, ?_, ?_⟩
    · simp only [if_pos hfull, h0, h1, h6]
    · rw [h8, h3, h4, if_pos hfull]
    · rw [h9, h4, if_pos hfull]
    · rw [h10, h5, if_pos hfull]
  · obtain ⟨w2, h6, h7, h8, h9, h10⟩ := put_ok L hL w closed done r hinv (by omega) hr
    refine ⟨w2, closed, ?_, h7, ?_, ?_, ?_⟩
    · simp only [if_neg hfull, h6]
    · rw [h8, if_neg hfull]
    · rw [h9, if_neg hfull]
    · rw [h10, if_neg hfull]

/-- A sequence of `append`s keeps the invariant of the writer and enters the locators
that the spec expects. -/
theorem appendAll_ok (L : Layout) (hL : L.WellFormed) (rs : List Record) (w : FileWriter)
    (closed : List SegmentHeader) (done : List Record) (hinv : WInv L w closed done)
    (hr : ∀ r, r ∈ rs → roundup L (r.dataSize L.sizeofMeta) < 2 ^ 32) :
    ∃ w1 closed1, FileWriter.appendAll L w rs = .ok w1 ∧ WInv L w1 closed1 (done ++ rs) ∧
      writerLocs L w1 closed1 = writerLocs L w closed ++ expectedLocators L w.pos w.next rs := by
  induction rs generalizing w closed done with
  | nil => exact ⟨w, closed, rfl, by simpa using hinv, by simp [expectedLocators]⟩
  | cons r rs ih =>
    obtain ⟨w1, closed1, h1, h2, h3, h4, h5⟩ :=
      append_ok L hL w closed done r hinv (hr r (by simp))
    obtain ⟨w2, closed2, h6, h7, h8⟩ := ih w1 closed1 (done ++ [r]) h2
      (fun x hx => hr x (List.mem_cons_of_mem _ hx))
    refine ⟨w2, closed2, ?_, ?_, ?_⟩
    · simp only [FileWriter.appendAll, h1, h6]
    · simpa using h7
    · rw [h8, h3, h4, h5]
      simp only [expectedLocators, List.append_assoc, List.singleton_append]

/-- A freshly opened writer satisfies the invariant, with no closed segment and no
record. -/
theorem create_ok_writer (L : Layout) (hL : L.WellFormed) :
    ∃ w, FileWriter.create L = .ok w ∧ WInv L w [] [] ∧ writerLocs L w [] = [] ∧
      w.pos = L.sizeofSeg ∧ w.next = 0 := by
  obtain ⟨hA, hSA, hS, hM, hMAX, hMAX32⟩ := hL
  refine ⟨{ file := File.empty.pwrite 0 L.sizeofSeg
              (fun i => Cell.segByte (SegmentHeader.init L.MAX_SEG_RECORDS) i)
            pos := 0 + L.sizeofSeg, seg_off := 0
            seg := SegmentHeader.init L.MAX_SEG_RECORDS, next := 0 }, ?_, ?_, ?_, ?_, rfl⟩
  · unfold FileWriter.create FileWriter.open_segment
    simp
  · refine ⟨?_, by simp, rfl, rfl, rfl, Nat.zero_le _, by simp [SegmentHeader.init],
      by simp [SegmentHeader.init], ?_⟩
    · show (0 + L.sizeofSeg) % L.RECORD_ALIGN = 0
      rw [Nat.zero_add]; exact hSA
    · simp only [writerLocs, chainLocs, FileReader.segEntries, List.append_nil]
      exact List.Forall₂.nil
  · simp [writerLocs, chainLocs, FileReader.segEntries]
  · simp

/-- Closing a writer that satisfies the invariant leaves a file that `FileReader::ping`
scans into the locators entered, each locating its record in the file. -/
theorem close_ok (L : Layout) (hL : L.WellFormed) (w : FileWriter)
    (closed : List SegmentHeader) (done : List Record) (hinv : WInv L w closed done) :
    ∃ f, FileWriter.close L w = .ok f ∧ f.size = w.pos ∧
      FileReader.ping L f = .ok (writerLocs L w closed) ∧
      List.Forall₂ (Locates L f) (writerLocs L w closed) done := by
  obtain ⟨hA, hSA, hS, hM, hMAX, hMAX32⟩ := hL
  obtain ⟨i1, i2, i3, i4, i5, i6, i7, i8, i9⟩ := hinv
  have hposge : w.seg_off + L.sizeofSeg ≤ w.pos := by
    rw [← i4]; exact segEntries_off_ge _ _ _ _ _
  have hE : FileReader.segEntries { w.seg with link := w.pos } w.seg.size 0
      (w.seg_off + L.sizeofSeg) [] = FileReader.segEntries w.seg w.next 0
      (w.seg_off + L.sizeofSeg) [] := by
    rw [i5]
    exact segEntries_congr _ _ _ _ _ _ (fun j _ _ => ⟨rfl, rfl⟩)
  have hcell : ∀ p, (p < w.seg_off ∨ (w.seg_off + L.sizeofSeg ≤ p ∧ p < w.pos)) →
      ((w.file.pwrite w.seg_off L.sizeofSeg
          (fun i => Cell.segByte { w.seg with link := w.pos } i)).ftruncate w.pos).cells p
        = w.file.cells p := by
    intro p hp
    simp only [File.ftruncate]
    rw [if_pos (by omega)]
    rcases hp with hp | hp
    · exact pwrite_cells_lt _ _ _ _ _ hp
    · exact pwrite_cells_ge _ _ _ _ _ hp.1
  have hsegs : Segs L ((w.file.pwrite w.seg_off L.sizeofSeg
      (fun i => Cell.segByte { w.seg with link := w.pos } i)).ftruncate w.pos) 0 closed
      w.seg_off :=
    Segs_frame L w.file _ 0 closed w.seg_off i3 (fun p hp => hcell p (Or.inl hp))
  have hlocs : chainLocs L 0 (closed ++ [{ w.seg with link := w.pos }])
      = writerLocs L w closed := by
    rw [chainLocs_append L _ 0 closed _ w.seg_off hsegs]
    simp only [chainLocs, segLocs, List.append_nil, hE, writerLocs]
  have hchain : Segs L ((w.file.pwrite w.seg_off L.sizeofSeg
      (fun i => Cell.segByte { w.seg with link := w.pos } i)).ftruncate w.pos) 0
      (closed ++ [{ w.seg with link := w.pos }]) w.pos := by
    refine Segs_append L _ 0 closed _ w.seg_off w.pos hsegs ⟨?_, ?_, rfl⟩
    · intro i hi
      simp only [File.ftruncate]
      rw [if_pos (by omega)]
      exact pwrite_cells_in _ _ _ _ _ hi
    · show (FileReader.segEntries { w.seg with link := w.pos } w.seg.size 0
        (w.seg_off + L.sizeofSeg) []).2 = w.pos
      rw [hE, i4]
  refine ⟨(w.file.pwrite w.seg_off L.sizeofSeg
      (fun i => Cell.segByte { w.seg with link := w.pos } i)).ftruncate w.pos, ?_, rfl, ?_, ?_⟩
  · unfold FileWriter.close FileWriter.close_segment
    simp only [i1, ne_eq, not_true_eq_false, if_false]
  · unfold FileReader.ping
    rw [pingLoop_chain L hS _ (closed ++ [{ w.seg with link := w.pos }]) 0 _ [] hchain
      (by simp), hlocs]
    rfl
  · refine List.Forall₂.imp ?_ i9
    rintro loc r1 ⟨⟨h1, h2, h3⟩, h4, h5⟩
    refine ⟨h1, h2, ?_⟩
    intro j hj
    rw [hcell (loc.offset + j) (by omega)]
    exact h3 j hj

/-- Writing records whose padded lengths fit 32 bits and scanning the file: `ping` returns
the locators that the spec expects, one per record, each locating its record. -/
theorem write_scan (L : Layout) (hL : L.WellFormed) (rs : List Record)
    (hr : ∀ r, r ∈ rs → roundup L (r.dataSize L.sizeofMeta) < 2 ^ 32) :
    ∃ f, writeFile L rs = .ok f ∧
      FileReader.ping L f = .ok (expectedLocators L L.sizeofSeg 0 rs) ∧
      List.Forall₂ (Locates L f) (expectedLocators L L.sizeofSeg 0 rs) rs := by
  obtain ⟨w, h1, h2, h3, h4, h5⟩ := create_ok_writer L hL
  obtain ⟨w1, closed1, h6, h7, h8⟩ := appendAll_ok L hL rs w [] [] h2 hr
  obtain ⟨f, h9, -, h10, h11⟩ := close_ok L hL w1 closed1 _ h7
  rw [h8, h3, h4, h5, List.nil_append] at h10 h11
  refine ⟨f, ?_, h10, by simpa using h11⟩
  simp only [writeFile, h1, h6, h9]

/-- The expected locators in closed form: record `i` of a writer that starts with `c`
records in its segment lies behind `(c + i) / MAX_SEG_RECORDS` further segment headers and
behind the padded records before it. -/
theorem expectedLocators_getElem (L : Layout) (hMAX : 0 < L.MAX_SEG_RECORDS)
    (rs : List Record) (pos c : Nat) (hc : c ≤ L.MAX_SEG_RECORDS) (i : Nat) (r : Record)
    (hi : rs[i]? = some r) :
    (expectedLocators L pos c rs)[i]? = some
      { label := r.meta_ptr.label
        offset := pos + L.sizeofSeg * ((c + i) / L.MAX_SEG_RECORDS)
          + ((rs.take i).map (fun x => roundup L (x.dataSize L.sizeofMeta))).sum
        size := roundup L (r.dataSize L.sizeofMeta) } := by
  induction rs generalizing pos c i with
  | nil => simp at hi
  | cons a rs ih =>
    cases i with
    | zero =>
      simp only [List.getElem?_cons_zero, Option.some.injEq] at hi
      subst hi
      simp only [expectedLocators, List.getElem?_cons_zero, Nat.add_zero, List.take_zero,
        List.map_nil, List.sum_nil]
      by_cases hfull : c ≥ L.MAX_SEG_RECORDS
      · have : c = L.MAX_SEG_RECORDS := by omega
        rw [if_pos hfull, this, Nat.div_self hMAX, Nat.mul_one]
      · rw [if_neg hfull, Nat.div_eq_of_lt (by omega), Nat.mul_zero, Nat.add_zero]
    | succ i =>
      simp only [List.getElem?_cons_succ] at hi
      simp only [expectedLocators, List.getElem?_cons_succ, List.take_succ_cons, List.map_cons,
        List.sum_cons]
      by_cases hfull : c ≥ L.MAX_SEG_RECORDS
      · have hcm : c = L.MAX_SEG_RECORDS := by omega
        rw [if_pos hfull, if_pos hfull, ih _ _ (by omega) i hi]
        have e : (c + (i + 1)) / L.MAX_SEG_RECORDS = (0 + 1 + i) / L.MAX_SEG_RECORDS + 1 := by
          rw [hcm, Nat.add_div_left _ hMAX]
          congr 2
          omega
        rw [e, Nat.mul_add, Nat.mul_one]
        congr 2
        omega
      · rw [if_neg hfull, if_neg hfull, ih _ _ (by omega) i hi]
        have e : c + 1 + i = c + (i + 1) := by omega
        rw [e]
        congr 2
        omega

/-! ## Theorems: fold configuration and key check -/

theorem kfold_train_length (K fold : Nat) (hf : fold < K) :
    ((List.range K).filter (fun k => k ≠ fold)).length = K - 1 := by
  have := (kfold_keys_perm K fold hf).length_eq
  simp only [List.length_append, List.length_singleton, List.length_range] at this
  omega

/-- C14: for every `K > 1` and `fold < K`, `Config::kfold (K, fold, train)` succeeds and
sets `splits = K` without touching `stratify`, `shuffle` and `seed`; for training the keys
become the strictly increasing list of all `k < K` other than `fold` (`K - 1` keys) and
`loop` and `reshuffle` stay as they are; for evaluation the keys become `[fold]` and `loop`
and `reshuffle` become false; and when `K <= 1` or `fold >= K` the call fails its
`CHECK`. -/
theorem configure_kfold (c : Config) (K fold : Nat) (train : Bool) :
    (K > 1 → fold < K → ∃ c1, c.kfold K fold train = .ok c1 ∧ c1.splits = K ∧
      c1.stratify = c.stratify ∧ c1.shuffle = c.shuffle ∧ c1.seed = c.seed ∧
      (train = true → c1.keys.Pairwise (fun a b => a < b) ∧
        (∀ k, k ∈ c1.keys ↔ k < K ∧ k ≠ fold) ∧ c1.keys.length = K - 1 ∧
        c1.loop = c.loop ∧ c1.reshuffle = c.reshuffle) ∧
      (train = false → c1.keys = [fold] ∧ c1.loop = false ∧ c1.reshuffle = false)) ∧
    ((K ≤ 1 ∨ K ≤ fold) → c.kfold K fold train = .error Error.CheckFailed) := by
  constructor
  · intro hK hf
    cases train with
    | true =>
      refine ⟨{ c with splits := K, keys := (List.range K).filter (fun k => k ≠ fold) },
        by simp [Config.kfold, hK, hf], rfl, rfl, rfl, rfl, ?_, by simp⟩
      intro _
      refine ⟨filter_range_strict K fold, ?_, kfold_train_length K fold hf, rfl, rfl⟩
      intro k
      simp [List.mem_filter, List.mem_range]
    | false =>
      refine ⟨{ c with splits := K, keys := [fold], loop := false, reshuffle := false },
        by simp [Config.kfold, hK, hf], rfl, rfl, rfl, rfl, by simp, ?_⟩
      intro _
      exact ⟨rfl, rfl, rfl⟩
  · intro h
    unfold Config.kfold
    by_cases hK : K > 1
    · have hf : ¬ fold < K := by omega
      simp [hK, hf]
    · simp [hK]

/-- Witness of `configure_kfold`: five folds, fold 2, training. -/
theorem configure_kfold_witness :
    (5 > 1 ∧ 2 < 5) ∧
    ∃ c1, Config.kfold ⟨1, [0], true, true, true, true, 7⟩ 5 2 true = .ok c1 ∧ c1.splits = 5 ∧
      c1.stratify = true ∧ c1.shuffle = true ∧ c1.seed = 7 ∧
      (true = true → c1.keys.Pairwise (fun a b => a < b) ∧
        (∀ k, k ∈ c1.keys ↔ k < 5 ∧ k ≠ 2) ∧ c1.keys.length = 5 - 1 ∧
        c1.loop = true ∧ c1.reshuffle = true) ∧
      (true = false → c1.keys = [2] ∧ c1.loop = false ∧ c1.reshuffle = false) :=
  ⟨⟨by decide, by decide⟩,
   (configure_kfold ⟨1, [0], true, true, true, true, 7⟩ 5 2 true).1 (by decide) (by decide)⟩

theorem check_sort_dedupe_keys_fails (splits : Nat) (keys : List Nat)
    (h : ∃ k, k ∈ keys ∧ ¬ k < splits) :
    check_sort_dedupe_keys splits keys = .error Error.CheckFailed := by
  obtain ⟨k, hk, hlt⟩ := h
  unfold check_sort_dedupe_keys
  simp only
  split
  · rfl
  · rw [if_neg]
    intro hall
    have hmem : k ∈ unique (keys.insertionSort (fun a b => a ≤ b)) := by
      rw [mem_unique]
      exact (List.perm_insertionSort _ keys).mem_iff.mpr hk
    have := List.all_eq_true.mp hall k hmem
    exact hlt (by simpa using this)

theorem check_sort_dedupe_keys_error (splits : Nat) (keys : List Nat) (e : Error)
    (h : check_sort_dedupe_keys splits keys = .error e) : e = Error.CheckFailed := by
  unfold check_sort_dedupe_keys at h
  simp only at h
  split at h
  · injection h with h; exact h.symm
  · split at h
    · cases h
    · injection h with h; exact h.symm

/-- C16: for every `splits` and key list, `check_sort_dedupe_keys` either fails its `CHECK`
or leaves a strictly increasing key list with exactly the values of the input, all below
`splits`; it fails whenever some key is not below `splits`; and the slicing step of a
constructed stream is run with the keys so normalized. -/
theorem key_normalization (splits : Nat) (keys : List Nat) :
    (∀ keys1, check_sort_dedupe_keys splits keys = .ok keys1 →
      keys1.Pairwise (fun a b => a < b) ∧ (∀ k, k ∈ keys1 ↔ k ∈ keys) ∧
      ∀ k, k ∈ keys1 → k < splits) ∧
    (∀ e, check_sort_dedupe_keys splits keys = .error e → e = Error.CheckFailed) ∧
    ((∃ k, k ∈ keys ∧ ¬ k < splits) →
      check_sort_dedupe_keys splits keys = .error Error.CheckFailed) ∧
    (∀ (sh : Rng) (M : Nat) (c : Config) (all : List Locator) (s : Stream),
      c.splits = splits → c.keys = keys → Stream.create sh M c all = .ok s →
      ∃ keys1 pre rng, Stream.preSlice sh M c all = .ok (keys1, pre, rng) ∧
        s.groups = sliceGroups splits keys1 pre ∧ s.config.keys = keys1 ∧
        keys1.Pairwise (fun a b => a < b) ∧ (∀ k, k ∈ keys1 ↔ k ∈ keys) ∧
        ∀ k, k ∈ keys1 → k < splits) := by
  refine ⟨?_, check_sort_dedupe_keys_error splits keys, check_sort_dedupe_keys_fails splits keys,
    ?_⟩
  · intro keys1 h
    exact (check_sort_dedupe_keys_ok splits keys keys1 h).2
  · intro sh M c all s hs hk h
    obtain ⟨keys1, pre, rng, hp, hs1⟩ := create_ok sh M c all s h
    have hc := preSlice_keys sh M c all keys1 pre rng hp
    rw [hs, hk] at hc
    refine ⟨keys1, pre, rng, hp, ?_, ?_, (check_sort_dedupe_keys_ok splits keys keys1 hc).2⟩
    · rw [hs1, hs]
    · rw [hs1]

/-- Witness of `key_normalization`: the keys 3, 1, 3 with five splits. -/
theorem key_normalization_witness :
    check_sort_dedupe_keys 5 [3, 1, 3] = .ok [1, 3] ∧
    ([1, 3].Pairwise (fun a b => a < b) ∧ (∀ k, k ∈ [1, 3] ↔ k ∈ [3, 1, 3]) ∧
      ∀ k, k ∈ [1, 3] → k < 5) :=
  ⟨by decide, (key_normalization 5 [3, 1, 3]).1 [1, 3] (by decide)⟩

/-! ## Theorems: balanced folds -/

theorem pickRange_length {α : Type} (index : List α) (K k : Nat) (hk : k < K) :
    (pickRange index K k).length = index.length * (k + 1) / K - index.length * k / K := by
  obtain ⟨h1, h2⟩ := range_bounds index.length K k hk
  simp only [pickRange, List.length_take, List.length_drop]
  omega

/-- The length of the range of a key is the quotient `len / K`, or one more. -/
theorem fold_size (len K k : Nat) (hK : 0 < K) :
    len * (k + 1) / K - len * k / K
      = len / K + (if K ≤ len * k % K + len % K then 1 else 0) := by
  have : len * (k + 1) = len * k + len := by ring
  rw [this, Nat.add_div hK, Nat.add_assoc, Nat.add_sub_cancel_left]

theorem ceil_div (len K : Nat) (hK : 0 < K) :
    (len + K - 1) / K = len / K + (if len % K = 0 then 0 else 1) := by
  have e : len + K - 1 = len + (K - 1) := by omega
  have h1 : (K - 1) / K = 0 := Nat.div_eq_of_lt (by omega)
  have h2 : (K - 1) % K = K - 1 := Nat.mod_eq_of_lt (by omega)
  rw [e, Nat.add_div hK, h1, h2]
  by_cases h : len % K = 0
  · rw [if_pos h, if_neg (by omega)]
  · rw [if_neg h, if_pos (by omega)]

theorem slicePositions_length_le (len K : Nat) (hK : 0 < K) (keys : List Nat)
    (hs : keys.Pairwise (fun a b => a < b)) (hlt : ∀ k, k ∈ keys → k < K) :
    (slicePositions len K keys).length ≤ len := by
  have hn : keys.Nodup := hs.imp (fun h => Nat.ne_of_lt h)
  have hperm : (keys ++ (List.range K).filter (fun k => !decide (k ∈ keys))).Perm
      (List.range K) := by
    rw [List.perm_ext_iff_of_nodup _ (List.nodup_range K)]
    · intro k
      simp only [List.mem_append, List.mem_filter, List.mem_range, Bool.not_eq_true',
        decide_eq_false_iff_not]
      constructor
      · rintro (h | h)
        · exact hlt k h
        · exact h.1
      · intro h
        by_cases hk : k ∈ keys
        · exact Or.inl hk
        · exact Or.inr ⟨h, hk⟩
    · rw [List.nodup_append]
      refine ⟨hn, (List.nodup_range K).filter _, ?_⟩
      intro k h1 h2
      simp only [List.mem_filter, Bool.not_eq_true', decide_eq_false_iff_not] at h2
      exact h2.2 h1
  have h1 := (List.Perm.flatMap_right (rangePositions len K) hperm).length_eq
  have h2 := slicePositions_full len K hK
  simp only [slicePositions] at h2 ⊢
  rw [h2, List.flatMap_append, List.length_append, List.length_range] at h1
  omega

/-- C20: for every group of `len` entries, every `K > 1` and every key `k < K`, the slice
selected for key `k` has `len*(k+1)/K - len*k/K` entries, which is `len / K` rounded down
or rounded up; so the slices of two keys differ in size by at most one entry; and for a
normalized key list the slicing step keeps at most `len` entries. -/
theorem balanced_folds (index : List Locator) (K k : Nat) (hK : K > 1) (hk : k < K) :
    (pickRange index K k).length = index.length * (k + 1) / K - index.length * k / K ∧
    ((pickRange index K k).length = index.length / K ∨
      (pickRange index K k).length = (index.length + K - 1) / K) ∧
    (∀ k1, k1 < K → (pickRange index K k).length ≤ (pickRange index K k1).length + 1 ∧
      (pickRange index K k1).length ≤ (pickRange index K k).length + 1) ∧
    (∀ keys : List Nat, keys.Pairwise (fun a b => a < b) → (∀ x, x ∈ keys → x < K) →
      (pickLoop index K keys []).length ≤ index.length) := by
  have hK0 : 0 < K := by omega
  have hlen : ∀ x, x < K → (pickRange index K x).length
      = index.length / K + (if K ≤ index.length * x % K + index.length % K then 1 else 0) :=
    fun x hx => by rw [pickRange_length index K x hx, fold_size _ _ _ hK0]
  refine ⟨pickRange_length index K k hk, ?_, ?_, ?_⟩
  · rw [hlen k hk, ceil_div _ _ hK0]
    by_cases h : K ≤ index.length * k % K + index.length % K
    · right
      rw [if_pos h, if_neg]
      intro h0
      have := Nat.mod_lt (index.length * k) hK0
      omega
    · left
      rw [if_neg h, Nat.add_zero]
  · intro k1 hk1
    rw [hlen k hk, hlen k1 hk1]
    constructor <;> split <;> split <;> omega
  · intro keys hs hlt
    rw [pickLoop_eq_entriesAt]
    have h1 := slicePositions_length_le index.length K hK0 keys hs hlt
    have h2 : (entriesAt index (slicePositions index.length K keys)).length
        ≤ (slicePositions index.length K keys).length := by
      unfold entriesAt
      exact List.length_filterMap_le _ _
    omega

/-- Witness of `balanced_folds`: a group of seven entries, three folds, key 1. -/
theorem balanced_folds_witness :
    (3 > 1 ∧ 1 < 3) ∧
    ((pickRange (locatorsOf [0, 0, 0, 0, 0, 0, 0]) 3 1).length
        = (locatorsOf [0, 0, 0, 0, 0, 0, 0]).length * (1 + 1) / 3
          - (locatorsOf [0, 0, 0, 0, 0, 0, 0]).length * 1 / 3 ∧
    ((pickRange (locatorsOf [0, 0, 0, 0, 0, 0, 0]) 3 1).length
        = (locatorsOf [0, 0, 0, 0, 0, 0, 0]).length / 3 ∨
      (pickRange (locatorsOf [0, 0, 0, 0, 0, 0, 0]) 3 1).length
        = ((locatorsOf [0, 0, 0, 0, 0, 0, 0]).length + 3 - 1) / 3) ∧
    (∀ k1, k1 < 3 →
      (pickRange (locatorsOf [0, 0, 0, 0, 0, 0, 0]) 3 1).length
        ≤ (pickRange (locatorsOf [0, 0, 0, 0, 0, 0, 0]) 3 k1).length + 1 ∧
      (pickRange (locatorsOf [0, 0, 0, 0, 0, 0, 0]) 3 k1).length
        ≤ (pickRange (locatorsOf [0, 0, 0, 0, 0, 0, 0]) 3 1).length + 1) ∧
    (∀ keys : List Nat, keys.Pairwise (fun a b => a < b) → (∀ x, x ∈ keys → x < 3) →
      (pickLoop (locatorsOf [0, 0, 0, 0, 0, 0, 0]) 3 keys []).length
        ≤ (locatorsOf [0, 0, 0, 0, 0, 0, 0]).length)) :=
  ⟨⟨by decide, by decide⟩,
   balanced_folds (locatorsOf [0, 0, 0, 0, 0, 0, 0]) 3 1 (by decide) (by decide)⟩

/-! ## Theorems: group retirement -/

theorem retire_eq_eraseIdx (groups : List Group) (i : Nat) (hi : i < groups.length) :
    retire groups i = groups.eraseIdx i := by
  have hsplit : groups = groups.take i ++ groups[i] :: groups.drop (i + 1) := by
    rw [← List.drop_eq_getElem_cons hi, List.take_append_drop]
  have hlen : (groups.take i).length = i := by rw [List.length_take]; omega
  have h1 := retire_eq (groups.take i) groups[i] (groups.drop (i + 1))
  rw [hlen, ← hsplit] at h1
  rw [h1, List.eraseIdx_eq_take_drop_succ]

/-- Whatever the state, the loop of `Stream::next` ends by serving a locator or with `EoS`:
its `CHECK` does not fail and the iterations allowed are enough. -/
theorem nextLoop_total (sh : Rng) (fuel : Nat) (s : Stream) (hf : s.groups.length < fuel) :
    (∃ e s1, Stream.nextLoop sh fuel s = (.ok e, s1)) ∨
      (∃ s1, Stream.nextLoop sh fuel s = (.error Error.EoS, s1)) := by
  induction fuel generalizing s with
  | zero => omega
  | succ fuel ih =>
    by_cases hg : s.groups = []
    · exact Or.inr ⟨s, nextLoop_empty sh fuel s hg⟩
    · obtain ⟨pre, g, post, hd, hc⟩ := cursor_split s hg
      have hlen : s.groups.length = pre.length + post.length + 1 := by
        rw [hd]; simp only [List.length_append, List.length_cons]; omega
      rw [nextLoop_unfold sh fuel s pre g post hd hc]
      by_cases h1 : g.next ≥ g.index.length
      · rw [if_pos h1]
        by_cases h2 : (if s.config.loop && s.config.reshuffle then (sh.shuffle s.rng g.index).1
            else g.index).length ≤ (if s.config.loop then 0 else g.next)
        · rw [if_pos h2]
          exact ih _ (by simp only [List.length_append]; omega)
        · rw [if_neg h2]
          left
          exact ⟨_, _, serve_eq _ pre _ post _ rfl rfl
            (List.getElem?_eq_getElem (Nat.lt_of_not_le h2))⟩
      · rw [if_neg h1]
        left
        exact ⟨_, _, serve_eq _ pre g post _ hd rfl (List.getElem?_eq_getElem (by omega))⟩

/-- C18: the removal in `Stream::next` (the swap loop, then `pop_back`) is the stable
removal of the element at the cursor: the list is the previous one with exactly that
element erased; when the group at the cursor is exhausted and cannot be looped (`loop` is
off, or the group is empty), the loop goes on with that list and with `next_group` at the
same index (0 after the wrap), so that the group now at that index is examined next; and
the `CHECK (g.next < g.index.size ())` never fails: every call serves a locator or ends
with `EoS`. -/
theorem retirement_stable_removal :
    (∀ (groups : List Group) (i : Nat), i < groups.length →
      retire groups i = groups.eraseIdx i) ∧
    (∀ (sh : Rng) (fuel : Nat) (s : Stream) (g : Group), s.groups[s.cursor]? = some g →
      g.next ≥ g.index.length → (s.config.loop = false ∨ g.index = []) →
      Stream.nextLoop sh (fuel + 1) s = Stream.nextLoop sh fuel
        { s with rng := if s.config.loop && s.config.reshuffle then
                   (sh.shuffle s.rng g.index).2 else s.rng
                 groups := s.groups.eraseIdx s.cursor, next_group := s.cursor }) ∧
    (∀ (sh : Rng) (s : Stream),
      (∃ e s1, Stream.next sh s = (.ok e, s1)) ∨
        (∃ s1, Stream.next sh s = (.error Error.EoS, s1))) := by
  refine ⟨retire_eq_eraseIdx, ?_, fun sh s => nextLoop_total sh _ s (by omega)⟩
  intro sh fuel s g hg hnext hcan
  have hne : s.groups ≠ [] := by
    intro h0; rw [h0] at hg; simp at hg
  obtain ⟨pre, g1, post, hd, hc⟩ := cursor_split s hne
  have hg1 : g1 = g := by
    rw [hd, ← hc, List.getElem?_append_right (le_refl _)] at hg
    simpa using hg
  subst hg1
  have herase : s.groups.eraseIdx s.cursor = pre ++ post := by
    rw [hd, ← hc, List.eraseIdx_eq_take_drop_succ]
    simp
  rw [nextLoop_unfold sh fuel s pre g1 post hd hc, if_pos hnext, herase, ← hc]
  rw [if_pos]
  rcases hcan with hl | he
  · simp only [hl, Bool.false_and, Bool.false_eq_true, if_false]
    exact hnext
  · have hz : (if s.config.loop && s.config.reshuffle then (sh.shuffle s.rng g1.index).1
        else g1.index).length = 0 := by
      split
      · have := (sh.perm s.rng g1.index).length_eq
        rw [this, he]; rfl
      · rw [he]; rfl
    rw [hz]
    exact Nat.zero_le _

/-- Witness of `retirement_stable_removal`: the second of four groups is removed. -/
theorem retirement_stable_removal_witness :
    1 < [(⟨0, [], 0⟩ : Group), ⟨1, [], 0⟩, ⟨2, [⟨2, 0, 8⟩], 1⟩, ⟨3, [], 0⟩].length ∧
    retire [⟨0, [], 0⟩, ⟨1, [], 0⟩, ⟨2, [⟨2, 0, 8⟩], 1⟩, ⟨3, [], 0⟩] 1
      = [(⟨0, [], 0⟩ : Group), ⟨1, [], 0⟩, ⟨2, [⟨2, 0, 8⟩], 1⟩, ⟨3, [], 0⟩].eraseIdx 1 :=
  ⟨by decide, retirement_stable_removal.1 _ 1 (by decide)⟩

/-! ## Theorems: rejected labels and empty groups -/

theorem checks_iff_stratifiable (M : Nat) (label : ℚ) :
    (((truncLabel label : Int) : ℚ) = label ∧ truncLabel label ≥ 0 ∧ truncLabel label < (M : Int))
      ↔ Stratifiable M label := by
  constructor
  · rintro ⟨h1, h2, h3⟩
    refine ⟨(truncLabel label).toNat, by omega, ?_⟩
    have : ((truncLabel label).toNat : Int) = truncLabel label := Int.toNat_of_nonneg h2
    have h4 : (((truncLabel label).toNat : Int) : ℚ) = ((truncLabel label : Int) : ℚ) := by
      rw [this]
    have h5 : label = (((truncLabel label).toNat : Int) : ℚ) := h1.symm.trans h4.symm
    rw [Int.cast_natCast] at h5
    exact h5
  · rintro ⟨n, hn, rfl⟩
    rw [truncLabel_natCast]
    exact ⟨by norm_cast, by omega, by omega⟩

theorem stratifyLoop_fails (M : Nat) (all : List Locator)
    (h : ∃ e, e ∈ all ∧ ¬ Stratifiable M e.label) (C : List (List Locator)) (nc : Nat) :
    stratifyLoop M all C nc = .error Error.CheckFailed := by
  induction all generalizing C nc with
  | nil => obtain ⟨e, he, -⟩ := h; simp at he
  | cons a rest ih =>
    unfold stratifyLoop
    simp only
    by_cases h1 : ((truncLabel a.label : Int) : ℚ) ≠ a.label
    · rw [if_pos h1]
    · rw [if_neg h1]
      by_cases h2 : ¬ truncLabel a.label ≥ 0
      · rw [if_pos h2]
      · rw [if_neg h2]
        by_cases h3 : ¬ truncLabel a.label < (M : Int)
        · rw [if_pos h3]
        · rw [if_neg h3]
          apply ih
          obtain ⟨e, he, hbad⟩ := h
          rcases List.mem_cons.mp he with rfl | he
          · exact absurd ((checks_iff_stratifiable M e.label).mp
              ⟨not_not.mp h1, not_not.mp h2, not_not.mp h3⟩) hbad
          · exact ⟨e, he, hbad⟩

/-- The grouping step fails exactly when it stratifies and meets a label that is not an
integer in `[0, MAX_CATEGORIES)`; what it returns is never an empty group list. -/
theorem makeGroups_fails_iff (M : Nat) (st : Bool) (all : List Locator) :
    ((∃ gs, makeGroups M st all = .ok gs ∧ gs.length ≠ 0) ∨
      makeGroups M st all = .error Error.CheckFailed) ∧
    (makeGroups M st all = .error Error.CheckFailed ↔
      (st = true ∧ ∃ e, e ∈ all ∧ ¬ Stratifiable M e.label)) := by
  cases st with
  | false =>
    have : makeGroups M false all = .ok [{ id := 0, index := all, next := 0 }] := by
      simp [makeGroups]
    rw [this]
    exact ⟨Or.inl ⟨_, rfl, by simp⟩, by simp⟩
  | true =>
    by_cases hbad : ∃ e, e ∈ all ∧ ¬ Stratifiable M e.label
    · have : makeGroups M true all = .error Error.CheckFailed := by
        unfold makeGroups
        simp only [if_true, stratifyLoop_fails M all hbad]
      rw [this]
      exact ⟨Or.inr rfl, by simp [hbad]⟩
    · have hv : ∀ e, e ∈ all → ∃ n : Nat, n < M ∧ e.label = n := by
        intro e he
        by_contra hne
        exact hbad ⟨e, he, hne⟩
      rw [makeGroups_stratify M all hv]
      refine ⟨Or.inl ⟨_, rfl, by simp⟩, ?_⟩
      constructor
      · intro h; cases h
      · rintro ⟨-, h⟩; exact absurd h hbad

/-- Once the keys pass their check, the constructor fails exactly when the grouping step
does. -/
theorem create_fails_iff (sh : Rng) (M : Nat) (c : Config) (all : List Locator)
    (keys : List Nat) (hk : check_sort_dedupe_keys c.splits c.keys = .ok keys) :
    ((∃ s, Stream.create sh M c all = .ok s) ∨
      Stream.create sh M c all = .error Error.CheckFailed) ∧
    (Stream.create sh M c all = .error Error.CheckFailed ↔
      (c.stratify = true ∧ ∃ e, e ∈ all ∧ ¬ Stratifiable M e.label)) := by
  obtain ⟨h1, h2⟩ := makeGroups_fails_iff M c.stratify all
  rw [← h2]
  rcases h1 with ⟨gs, hgs, hlen⟩ | herr
  · have hcreate : ∃ s, Stream.create sh M c all = .ok s := by
      unfold Stream.create Stream.preSlice
      simp only [hk, hgs, hlen, if_false]
      cases c.shuffle <;> exact ⟨_, rfl⟩
    refine ⟨Or.inl hcreate, ?_⟩
    obtain ⟨s, hs⟩ := hcreate
    rw [hs, hgs]
    constructor <;> intro h <;> cases h
  · have hcreate : Stream.create sh M c all = .error Error.CheckFailed := by
      unfold Stream.create Stream.preSlice
      simp only [hk, herr]
    exact ⟨Or.inr hcreate, by rw [hcreate, herr]; constructor <;> intro _ <;> rfl⟩

/-- C17, as stated, fails: with `stratify = true`, `splits = 1` and the key 1, construction
fails although both labels, 0 and 1, are integers in `[0, 2000)`: the key check fails. -/
theorem unstratifiable_rejected_counterexample :
    Stream.create Rng.keep 2000 ⟨1, [1], true, false, false, false, 0⟩ (locatorsOf [0, 1])
      = .error Error.CheckFailed ∧
    ∀ e, e ∈ locatorsOf [0, 1] → Stratifiable 2000 e.label := by
  refine ⟨by decide, ?_⟩
  intro e he
  have : e = ⟨0, 0, 8⟩ ∨ e = ⟨1, 8, 8⟩ := by
    have h : locatorsOf [0, 1] = [⟨0, 0, 8⟩, ⟨1, 8, 8⟩] := by decide
    rw [h] at he
    simpa using he
  rcases this with rfl | rfl
  · exact ⟨0, by norm_num, by norm_num⟩
  · exact ⟨1, by norm_num, by norm_num⟩

/-- C17 (amended): when the fold keys pass `check_sort_dedupe_keys`, construction with
`stratify = true` fails (a `CHECK` fails, no sampler is returned) if and only if some
scanned locator has a label that is not an integer value in `[0, MAX_CATEGORIES)`, that
is, not integer-valued, negative or too large; with `stratify = false` construction
succeeds whatever the labels are. -/
theorem unstratifiable_rejected (sh : Rng) (M : Nat) (c : Config) (all : List Locator)
    (keys : List Nat) (hk : check_sort_dedupe_keys c.splits c.keys = .ok keys) :
    (c.stratify = true →
      ((¬ ∃ s, Stream.create sh M c all = .ok s) ↔ ∃ e, e ∈ all ∧ ¬ Stratifiable M e.label) ∧
      (Stream.create sh M c all = .error Error.CheckFailed ↔
        ∃ e, e ∈ all ∧ ¬ Stratifiable M e.label)) ∧
    (c.stratify = false → ∃ s, Stream.create sh M c all = .ok s) := by
  obtain ⟨h1, h2⟩ := create_fails_iff sh M c all keys hk
  constructor
  · intro hs
    have h3 : Stream.create sh M c all = .error Error.CheckFailed ↔
        ∃ e, e ∈ all ∧ ¬ Stratifiable M e.label := by
      rw [h2]; simp [hs]
    refine ⟨?_, h3⟩
    rw [← h3]
    constructor
    · intro hno
      rcases h1 with h | h
      · exact absurd h hno
      · exact h
    · rintro herr ⟨s, hs1⟩
      rw [herr] at hs1
      cases hs1
  · intro hs
    rcases h1 with h | h
    · exact h
    · have := h2.mp h
      rw [hs] at this
      exact absurd this.1 (by simp)

/-- Witness of `unstratifiable_rejected`: the labels 0 and 1/2, stratified. -/
theorem unstratifiable_rejected_witness :
    check_sort_dedupe_keys 1 [0] = .ok [0] ∧
    ((true = true →
      ((¬ ∃ s, Stream.create Rng.keep 2000 ⟨1, [0], true, false, false, false, 0⟩
          [⟨0, 0, 8⟩, ⟨1 / 2, 8, 8⟩] = .ok s) ↔
        ∃ e, e ∈ [(⟨0, 0, 8⟩ : Locator), ⟨1 / 2, 8, 8⟩] ∧ ¬ Stratifiable 2000 e.label) ∧
      (Stream.create Rng.keep 2000 ⟨1, [0], true, false, false, false, 0⟩
          [⟨0, 0, 8⟩, ⟨1 / 2, 8, 8⟩] = .error Error.CheckFailed ↔
        ∃ e, e ∈ [(⟨0, 0, 8⟩ : Locator), ⟨1 / 2, 8, 8⟩] ∧ ¬ Stratifiable 2000 e.label)) ∧
    (true = false → ∃ s, Stream.create Rng.keep 2000 ⟨1, [0], true, false, false, false, 0⟩
          [⟨0, 0, 8⟩, ⟨1 / 2, 8, 8⟩] = .ok s)) :=
  ⟨by decide,
   unstratifiable_rejected Rng.keep 2000 ⟨1, [0], true, false, false, false, 0⟩
     [⟨0, 0, 8⟩, ⟨1 / 2, 8, 8⟩] [0] (by decide)⟩

/-- When no group has an entry, a call of `Stream::next` retires all groups and ends with
`EoS`. -/
theorem nextLoop_all_empty (sh : Rng) (fuel : Nat) (s : Stream)
    (he : ∀ g, g ∈ s.groups → g.index = []) (hf : s.groups.length < fuel) :
    ∃ s1, Stream.nextLoop sh fuel s = (.error Error.EoS, s1) ∧ s1.groups = [] := by
  induction fuel generalizing s with
  | zero => omega
  | succ fuel ih =>
    by_cases hg : s.groups = []
    · exact ⟨s, nextLoop_empty sh fuel s hg, hg⟩
    · obtain ⟨pre, g, post, hd, hc⟩ := cursor_split s hg
      have hlen : s.groups.length = pre.length + post.length + 1 := by
        rw [hd]; simp only [List.length_append, List.length_cons]; omega
      have hgi : g.index = [] := he g (by rw [hd]; simp)
      have hz : (if s.config.loop && s.config.reshuffle then (sh.shuffle s.rng g.index).1
          else g.index).length = 0 := by
        split
        · have := (sh.perm s.rng g.index).length_eq
          rw [this, hgi]; rfl
        · rw [hgi]; rfl
      rw [nextLoop_unfold sh fuel s pre g post hd hc, if_pos (by rw [hgi]; exact Nat.zero_le _),
        if_pos (by rw [hz]; exact Nat.zero_le _)]
      apply ih
      · intro x hx
        simp only [List.mem_append] at hx
        rcases hx with hx | hx
        · exact he x (by rw [hd]; simp [hx])
        · exact he x (by rw [hd]; simp [hx])
      · simp only [List.length_append]; omega

theorem run_all_empty (sh : Rng) (s : Stream) (he : ∀ g, g ∈ s.groups → g.index = [])
    (m : Nat) : (Stream.run sh m s).1 = List.replicate m (.error Error.EoS) := by
  cases m with
  | zero => rfl
  | succ m =>
    obtain ⟨s1, h1, h2⟩ := nextLoop_all_empty sh (s.groups.length + 1) s he (by omega)
    have hn : Stream.next sh s = (.error Error.EoS, s1) := h1
    rw [run_succ, hn]
    simp only [run_eos sh s1 h2 m, List.replicate_succ]

/-- C15, as stated, fails: for the labels 0,0,0,1,1,1,1,2,2,2 with `stratify = true`,
`splits = 5` and `keys = {0}` no group has an entry after slicing, and the constructor
returns a sampler all the same, with three empty groups. -/
theorem zero_usable_groups_counterexample :
    Stream.create Rng.keep 2000 ⟨5, [0], true, false, true, false, 0⟩
        (locatorsOf [0, 0, 0, 1, 1, 1, 1, 2, 2, 2])
      = .ok ⟨⟨5, [0], true, false, true, false, 0⟩, 0,
          [⟨0, [], 0⟩, ⟨1, [], 0⟩, ⟨2, [], 0⟩], 0⟩ := by
  decide

/-- C15 (amended): for every locator list and configuration whose key check and grouping
succeed and for which no group has an entry after fold slicing, construction does not
fail: it returns a sampler with `size() = 0` that keeps the empty groups, and it is the
calls of `Stream::next`, from the first one on, that fail, with `EoS`. -/
theorem zero_usable_groups (sh : Rng) (M : Nat) (c : Config) (all : List Locator)
    (keys : List Nat) (pre : List Group) (rng : Nat)
    (hp : Stream.preSlice sh M c all = .ok (keys, pre, rng))
    (hempty : ∀ g, g ∈ sliceGroups c.splits keys pre → g.index = []) :
    ∃ s, Stream.create sh M c all = .ok s ∧ s.groups = sliceGroups c.splits keys pre ∧
      s.groups.length = pre.length ∧ s.groups ≠ [] ∧ s.size = 0 ∧
      ∀ m, (Stream.run sh m s).1 = List.replicate m (.error Error.EoS) := by
  have hlen : (sliceGroups c.splits keys pre).length = pre.length := by
    unfold sliceGroups
    split
    · simp
    · rfl
  have hpre : pre.length ≠ 0 := by
    unfold Stream.preSlice at hp
    split at hp
    · cases hp
    · split at hp
      · cases hp
      · rename_i gs hm
        split at hp
        · cases hp
        · rename_i hne
          split at hp
          · injection hp with hp
            injection hp with h1 h2
            have hl : ∀ (r : Nat) (l : List Group), (shuffleGroups sh r l).1.length = l.length := by
              intro r l
              induction l generalizing r with
              | nil => rfl
              | cons a l ih => simp [shuffleGroups, ih]
            have := hl (sh.seed c.seed) gs
            rw [h2] at this
            simp only at this
            omega
          · injection hp with hp
            injection hp with h1 h2
            injection h2 with h2 h3
            rw [← h2]; exact hne
  refine ⟨{ config := { c with keys := keys }, rng := rng
            groups := sliceGroups c.splits keys pre, next_group := 0 }, ?_, rfl, hlen, ?_, ?_,
    fun m => run_all_empty sh _ hempty m⟩
  · unfold Stream.create
    rw [hp]
  · intro h0
    have : (sliceGroups c.splits keys pre).length = 0 := by
      simp only at h0
      rw [h0]; rfl
    omega
  · unfold Stream.size
    simp only
    apply List.sum_eq_zero
    intro x hx
    obtain ⟨g, hg, rfl⟩ := List.mem_map.mp hx
    rw [hempty g hg]
    rfl

/-- Witness of `zero_usable_groups`: the example of the spec. -/
theorem zero_usable_groups_witness :
    (Stream.preSlice Rng.keep 2000 ⟨5, [0], true, false, false, false, 0⟩
        (locatorsOf [0, 0, 0, 1, 1, 1, 1, 2, 2, 2])
      = .ok ([0], [⟨0, [⟨0, 0, 8⟩, ⟨0, 8, 8⟩, ⟨0, 16, 8⟩], 0⟩,
          ⟨1, [⟨1, 24, 8⟩, ⟨1, 32, 8⟩, ⟨1, 40, 8⟩, ⟨1, 48, 8⟩], 0⟩,
          ⟨2, [⟨2, 56, 8⟩, ⟨2, 64, 8⟩, ⟨2, 72, 8⟩], 0⟩], 0) ∧
      ∀ g, g ∈ sliceGroups 5 [0] [⟨0, [⟨0, 0, 8⟩, ⟨0, 8, 8⟩, ⟨0, 16, 8⟩], 0⟩,
          ⟨1, [⟨1, 24, 8⟩, ⟨1, 32, 8⟩, ⟨1, 40, 8⟩, ⟨1, 48, 8⟩], 0⟩,
          ⟨2, [⟨2, 56, 8⟩, ⟨2, 64, 8⟩, ⟨2, 72, 8⟩], 0⟩] → g.index = []) ∧
    ∃ s, Stream.create Rng.keep 2000 ⟨5, [0], true, false, false, false, 0⟩
        (locatorsOf [0, 0, 0, 1, 1, 1, 1, 2, 2, 2]) = .ok s ∧
      s.groups = sliceGroups 5 [0] [⟨0, [⟨0, 0, 8⟩, ⟨0, 8, 8⟩, ⟨0, 16, 8⟩], 0⟩,
          ⟨1, [⟨1, 24, 8⟩, ⟨1, 32, 8⟩, ⟨1, 40, 8⟩, ⟨1, 48, 8⟩], 0⟩,
          ⟨2, [⟨2, 56, 8⟩, ⟨2, 64, 8⟩, ⟨2, 72, 8⟩], 0⟩] ∧
      s.groups.length = 3 ∧ s.groups ≠ [] ∧ s.size = 0 ∧
      ∀ m, (Stream.run Rng.keep m s).1 = List.replicate m (.error Error.EoS) :=
  ⟨⟨by decide, by decide⟩,
   zero_usable_groups Rng.keep 2000 ⟨5, [0], true, false, false, false, 0⟩
     (locatorsOf [0, 0, 0, 1, 1, 1, 1, 2, 2, 2]) [0] _ 0 (by decide) (by decide)⟩

/-! ## Theorems: corrupt field layouts -/

/-- Once the running offset is past the buffer, the loop of `Record::read` throws in its
next iteration, or, when no iteration is left, hands the offset to the final test. -/
theorem readLoop_past (m : Meta) (size n i o : Nat) (ptrs : List Nat) (h : size < o) :
    Record.readLoop m size n i o ptrs = .error Error.DataCorruption ∨
      Record.readLoop m size n i o ptrs = .ok (o, ptrs) := by
  cases n with
  | zero => right; rfl
  | succ n => left; simp only [Record.readLoop]; rw [if_pos (by omega)]

/-- The loop of `Record::read` when the exact end offset of the field `t` iterations ahead
lies beyond the buffer and below `2^32`: the loop throws, or it ends with an offset beyond
the buffer. -/
theorem readLoop_overrun (m : Meta) (size : Nat) (n i o : Nat) (ptrs : List Nat) (t : Nat)
    (ht : t < n)
    (hbig : size < o + ((List.range (t + 1)).map (fun j => m.fields.getD (i + j) 0)).sum)
    (hfit : o + ((List.range (t + 1)).map (fun j => m.fields.getD (i + j) 0)).sum < 2 ^ 32) :
    Record.readLoop m size n i o ptrs = .error Error.DataCorruption ∨
      ∃ o1 ptrs1, Record.readLoop m size n i o ptrs = .ok (o1, ptrs1) ∧ size < o1 := by
  induction t generalizing n i o ptrs with
  | zero =>
    cases n with
    | zero => omega
    | succ n =>
      have hone : ((List.range (0 + 1)).map (fun j => m.fields.getD (i + j) 0)).sum
          = m.fields.getD i 0 := by
        simp [List.range_succ]
      rw [hone] at hbig hfit
      simp only [Record.readLoop]
      by_cases h1 : o ≥ size
      · left; rw [if_pos h1]
      · rw [if_neg h1, Nat.mod_eq_of_lt hfit]
        rcases readLoop_past m size n (i + 1) (o + m.fields.getD i 0) (ptrs ++ [o]) hbig
          with h | h
        · exact Or.inl h
        · exact Or.inr ⟨_, _, h, hbig⟩
  | succ t ih =>
    cases n with
    | zero => omega
    | succ n =>
      have hsum : ((List.range (t + 1 + 1)).map (fun j => m.fields.getD (i + j) 0)).sum
          = m.fields.getD i 0
            + ((List.range (t + 1)).map (fun j => m.fields.getD (i + 1 + j) 0)).sum := by
        rw [List.range_succ_eq_map, List.map_cons, List.sum_cons, List.map_map]
        congr 2
        apply List.map_congr_left
        intro j _
        simp only [Function.comp, Nat.add_zero]
        congr 1
        omega
      rw [hsum] at hbig hfit
      simp only [Record.readLoop]
      by_cases h1 : o ≥ size
      · left; rw [if_pos h1]
      · rw [if_neg h1, Nat.mod_eq_of_lt (by omega)]
        exact ih n (i + 1) (o + m.fields.getD i 0) (ptrs ++ [o]) (by omega) (by omega)
          (by omega)

/-- Without wrap-around `Record::read` detects an overrun: if the exact end offset of some
field lies beyond the buffer and below `2^32`, it fails with `DataCorruption`. -/
theorem read_detects_overrun (sz : Nat) (m : Meta) (rest : List Byte) (i : Nat)
    (hi : i < m.width)
    (hbig : sz + rest.length
      < sz + ((List.range (i + 1)).map (fun j => m.fields.getD j 0)).sum)
    (hfit : sz + ((List.range (i + 1)).map (fun j => m.fields.getD j 0)).sum < 2 ^ 32) :
    Record.read sz m rest = .error Error.DataCorruption := by
  have hsz : sz % 2 ^ 32 = sz := Nat.mod_eq_of_lt (by omega)
  have hmap : ((List.range (i + 1)).map (fun j => m.fields.getD (0 + j) 0))
      = ((List.range (i + 1)).map (fun j => m.fields.getD j 0)) := by
    apply List.map_congr_left
    intro j _
    rw [Nat.zero_add]
  unfold Record.read
  simp only [hsz]
  rcases readLoop_overrun m (sz + rest.length) m.width 0 sz [] i hi (by rw [hmap]; exact hbig)
    (by rw [hmap]; exact hfit) with h | ⟨o1, ptrs1, h, hlt⟩
  · rw [h]
  · rw [h]
    simp only
    rw [if_pos hlt]

/-- C11, failing input: a buffer of 100 bytes (a 16-byte header and 84 more) whose header
records one field of `2^32 - 8` bytes. The exact end offset of the field,
`16 + (2^32 - 8)`, exceeds the buffer length, but the 32-bit offset wraps to 8 and
`Record::read` returns the field view instead of failing with `DataCorruption`. -/
theorem decode_corruption_wraparound :
    16 + List.length (List.replicate 84 (0 : Byte)) < 16 + 4294967288 ∧
    Record.read 16 ⟨0, 1, [4294967288]⟩ (List.replicate 84 0)
      = .ok ⟨⟨0, 1, [4294967288]⟩, List.replicate 84 0, [16]⟩ := by
  decide

/-! ## Theorems: layout of the written file -/

theorem paddedSize_append (L : Layout) (a b : List Record) :
    paddedSize L (a ++ b) = paddedSize L a + paddedSize L b := by
  simp [paddedSize]

theorem paddedSize_cons (L : Layout) (r : Record) (b : List Record) :
    paddedSize L (r :: b) = roundup L (r.dataSize L.sizeofMeta) + paddedSize L b := by
  simp [paddedSize]

theorem RecsAt_frame (L : Layout) (hA : 0 < L.RECORD_ALIGN) (f f1 : File) (recs : List Record)
    (o : Nat) (h : ∀ p, o ≤ p → p < o + paddedSize L recs → f1.cells p = f.cells p)
    (hr : RecsAt L f o recs) : RecsAt L f1 o recs := by
  induction recs generalizing o with
  | nil => trivial
  | cons r rs ih =>
    obtain ⟨h1, h2⟩ := hr
    rw [paddedSize_cons] at h
    have hge := (roundup_ge L hA (r.dataSize L.sizeofMeta)).1
    refine ⟨?_, ih _ ?_ h2⟩
    · intro j hj
      rw [h (o + j) (by omega) (by omega)]
      exact h1 j hj
    · intro p hp1 hp2
      exact h p (by omega) (by omega)

theorem RecsAt_append (L : Layout) (f : File) (a b : List Record) (o : Nat)
    (ha : RecsAt L f o a) (hb : RecsAt L f (o + paddedSize L a) b) : RecsAt L f o (a ++ b) := by
  induction a generalizing o with
  | nil => simpa [paddedSize] using hb
  | cons r rs ih =>
    obtain ⟨h1, h2⟩ := ha
    refine ⟨h1, ih _ h2 ?_⟩
    rw [paddedSize_cons] at hb
    rw [Nat.add_assoc]
    exact hb

theorem SegChain_le (L : Layout) (f : File) (segs : List (SegmentHeader × List Record))
    (o o1 : Nat) (h : SegChain L f o segs o1) : o ≤ o1 := by
  induction segs generalizing o with
  | nil => exact le_of_eq h
  | cons p rest ih =>
    obtain ⟨hd, recs⟩ := p
    obtain ⟨_, _, _, h4, h5⟩ := h
    have := ih _ h5
    omega

theorem SegChain_frame (L : Layout) (hA : 0 < L.RECORD_ALIGN) (f f1 : File)
    (segs : List (SegmentHeader × List Record)) (o o1 : Nat)
    (h : ∀ p, p < o1 → f1.cells p = f.cells p)
    (hc : SegChain L f o segs o1) : SegChain L f1 o segs o1 := by
  induction segs generalizing o with
  | nil => exact hc
  | cons p rest ih =>
    obtain ⟨hd, recs⟩ := p
    obtain ⟨h1, h2, h3, h4, h5⟩ := hc
    have hle := SegChain_le L f rest _ _ h5
    refine ⟨?_, h2, RecsAt_frame L hA f f1 recs _ ?_ h3, h4, ih _ h5⟩
    · intro i hi
      rw [h (o + i) (by omega)]
      exact h1 i hi
    · intro p _ hp2
      exact h p (by omega)

theorem SegChain_append (L : Layout) (f : File) (a b : List (SegmentHeader × List Record))
    (o o1 o2 : Nat) (ha : SegChain L f o a o1) (hb : SegChain L f o1 b o2) :
    SegChain L f o (a ++ b) o2 := by
  induction a generalizing o with
  | nil =>
    have : o = o1 := ha
    subst this
    exact hb
  | cons p rest ih =>
    obtain ⟨hd, recs⟩ := p
    obtain ⟨h1, h2, h3, h4, h5⟩ := ha
    exact ⟨h1, h2, h3, h4, ih _ h5⟩

/-- Putting a record of any size into a segment that is not full keeps the layout
invariant: the record stands at the old offset, the offset moves on by the padded length,
and the label and the size, reduced to 32 bits, are stored in slot `next`, which lies
inside the arrays. -/
theorem put_lay (L : Layout) (hL : L.WellFormed) (w : FileWriter)
    (closed : List (SegmentHeader × List Record)) (cur : List Record) (r : Record)
    (hinv : WLay L w closed cur) (hnext : w.next < L.MAX_SEG_RECORDS) :
    ∃ w1, FileWriter.put L w r = .ok w1 ∧ WLay L w1 closed (cur ++ [r]) ∧
      w1.pos = w.pos + roundup L (r.dataSize L.sizeofMeta) ∧ RecordAt L w1.file w.pos r ∧
      w1.seg_off = w.seg_off ∧ w1.next = w.next + 1 ∧
      w1.seg.labels[w.next]? = some r.meta_ptr.label ∧
      w1.seg.sizes[w.next]? = some (roundup L (r.dataSize L.sizeofMeta) % 2 ^ 32) := by
  obtain ⟨hA, hSA, hS, hM, hMAX, hMAX32⟩ := hL
  obtain ⟨i1, i2, i3, i4, i5, i6, i7, i8, i9, i10, i11⟩ := hinv
  obtain ⟨hge, hRA⟩ := roundup_ge L hA (r.dataSize L.sizeofMeta)
  have hn : 0 < r.dataSize L.sizeofMeta := by unfold Record.dataSize; omega
  have hsize : (w.seg.size + 1) % 4294967296 = w.next + 1 := by
    rw [i6]; exact Nat.mod_eq_of_lt (by norm_num at hMAX32; omega)
  refine ⟨{ file := w.file.pwrite w.pos (r.dataSize L.sizeofMeta) (fun i => Cell.recByte r i)
            pos := w.pos + roundup L (r.dataSize L.sizeofMeta), seg_off := w.seg_off
            seg := { size := w.next + 1
                     labels := w.seg.labels.set w.next r.meta_ptr.label
                     sizes := w.seg.sizes.set w.next
                       (roundup L (r.dataSize L.sizeofMeta) % 2 ^ 32)
                     link := w.seg.link }
            next := w.next + 1 }, ?_, ?_, rfl, ?_, rfl, rfl, ?_, ?_⟩
  · unfold FileWriter.put
    rw [write_ok L hA r w.file w.pos i1]
    simp only [gt_iff_lt, not_lt, Nat.le_zero_eq, Nat.reducePow, hsize]
    rw [if_neg (by omega)]
  · refine ⟨?_, i2, ?_, ?_, ?_, rfl, ?_, by simp only; omega,
      by simp only [List.length_set]; exact i9,
      by simp only [List.length_set]; exact i10, i11⟩
    · show (w.pos + roundup L (r.dataSize L.sizeofMeta)) % L.RECORD_ALIGN = 0
      rw [Nat.add_mod, i1, hRA]; simp
    · exact SegChain_frame L hA w.file _ closed 0 w.seg_off
        (fun p hp => pwrite_cells_lt _ _ _ _ _ (by omega)) i3
    · show w.pos + roundup L (r.dataSize L.sizeofMeta)
        = w.seg_off + L.sizeofSeg + paddedSize L (cur ++ [r])
      rw [paddedSize_append, paddedSize_cons, i4]
      simp [paddedSize]
      omega
    · refine RecsAt_append L _ cur [r] (w.seg_off + L.sizeofSeg) ?_ ?_
      · exact RecsAt_frame L hA w.file _ cur _
          (fun p _ hp => pwrite_cells_lt _ _ _ _ _ (by omega)) i5
      · refine ⟨?_, trivial⟩
        intro j hj
        rw [← i4]
        exact pwrite_cells_in _ _ _ _ _ hj
    · show w.next + 1 = (cur ++ [r]).length
      rw [List.length_append, ← i7]
      rfl
  · intro j hj
    exact pwrite_cells_in _ _ _ _ _ hj
  · show (w.seg.labels.set w.next r.meta_ptr.label)[w.next]? = _
    simp [List.getElem?_set, i9, hnext]
  · show (w.seg.sizes.set w.next _)[w.next]? = _
    simp [List.getElem?_set, i10, hnext]

/-- Closing a full segment and opening the next one keeps the layout invariant: the closed
header, with its link set to the current offset, joins the chain with its records, and the
new segment starts at that offset, empty. -/
theorem switch_lay (L : Layout) (hL : L.WellFormed) (w : FileWriter)
    (closed : List (SegmentHeader × List Record)) (cur : List Record)
    (hinv : WLay L w closed cur) (hfull : w.next = L.MAX_SEG_RECORDS) :
    ∃ w0 w1, FileWriter.close_segment L w = .ok w0 ∧ FileWriter.open_segment L w0 = .ok w1 ∧
      WLay L w1 (closed ++ [({ w.seg with link := w.pos }, cur)]) [] ∧
      w1.pos = w.pos + L.sizeofSeg ∧ w1.seg_off = w.pos ∧ w1.next = 0 := by
  obtain ⟨hA, hSA, hS, hM, hMAX, hMAX32⟩ := hL
  obtain ⟨i1, i2, i3, i4, i5, i6, i7, i8, i9, i10, i11⟩ := hinv
  have hcell : ∀ p, (p < w.seg_off ∨ (w.seg_off + L.sizeofSeg ≤ p ∧ p < w.pos)) →
      ((w.file.pwrite w.seg_off L.sizeofSeg
          (fun i => Cell.segByte { w.seg with link := w.pos } i)).pwrite w.pos L.sizeofSeg
          (fun i => Cell.segByte (SegmentHeader.init L.MAX_SEG_RECORDS) i)).cells p
        = w.file.cells p := by
    intro p hp
    rw [pwrite_cells_lt _ _ _ _ _ (by omega)]
    rcases hp with hp | hp
    · exact pwrite_cells_lt _ _ _ _ _ hp
    · exact pwrite_cells_ge _ _ _ _ _ hp.1
  refine ⟨{ w with seg := { w.seg with link := w.pos }
                   file := w.file.pwrite w.seg_off L.sizeofSeg
                     (fun i => Cell.segByte { w.seg with link := w.pos } i) },
    { file := (w.file.pwrite w.seg_off L.sizeofSeg
          (fun i => Cell.segByte { w.seg with link := w.pos } i)).pwrite w.pos L.sizeofSeg
          (fun i => Cell.segByte (SegmentHeader.init L.MAX_SEG_RECORDS) i)
      pos := w.pos + L.sizeofSeg, seg_off := w.pos
      seg := SegmentHeader.init L.MAX_SEG_RECORDS, next := 0 }, ?_, ?_, ?_, rfl, rfl, rfl⟩
  · unfold FileWriter.close_segment
    simp only [i1, ne_eq, not_true_eq_false, if_false]
  · unfold FileWriter.open_segment
    simp only [i1, ne_eq, not_true_eq_false, if_false]
  · refine ⟨?_, i1, ?_, ?_, trivial, rfl, rfl, Nat.zero_le _, ?_, ?_, ?_⟩
    · show (w.pos + L.sizeofSeg) % L.RECORD_ALIGN = 0
      rw [Nat.add_mod, i1, hSA]; simp
    · refine SegChain_append L _ closed _ 0 w.seg_off w.pos
        (SegChain_frame L hA w.file _ closed 0 w.seg_off (fun p hp => hcell p (Or.inl hp)) i3)
        ⟨?_, ?_, ?_, i4, rfl⟩
      · intro i hi
        show ((w.file.pwrite w.seg_off L.sizeofSeg _).pwrite w.pos L.sizeofSeg _).cells
          (w.seg_off + i) = _
        rw [pwrite_cells_lt _ _ _ _ _ (by omega)]
        exact pwrite_cells_in _ _ _ _ _ hi
      · show w.seg.size = cur.length
        rw [i6, i7]
      · exact RecsAt_frame L hA w.file _ cur _
          (fun p hp1 hp2 => hcell p (Or.inr ⟨hp1, by omega⟩)) i5
    · show w.pos + L.sizeofSeg = w.pos + L.sizeofSeg + paddedSize L []
      simp [paddedSize]
    · simp [SegmentHeader.init]
    · simp [SegmentHeader.init]
    · intro p hp
      rcases List.mem_append.1 hp with hp | hp
      · exact i11 p hp
      · rw [List.mem_singleton.1 hp]
        show cur.length = _
        rw [← i7, hfull]

/-- The function `FileWriter::append` on a writer that satisfies the layout invariant, for
a record of any size: it succeeds and keeps the invariant; a new segment is started when
the current one holds `MAX_SEG_RECORDS` records, and only then; the record stands at an
aligned offset, the offset of the writer is behind its padding, and its label and its size
are stored in the slot before the new `next`. -/
theorem append_lay (L : Layout) (hL : L.WellFormed) (w : FileWriter)
    (closed : List (SegmentHeader × List Record)) (cur : List Record) (r : Record)
    (hinv : WLay L w closed cur) :
    ∃ w1 closed1 cur1, FileWriter.append L w r = .ok w1 ∧ WLay L w1 closed1 cur1 ∧
      cur1 ≠ [] ∧
      (closed1.map Prod.snd).flatten ++ cur1 = (closed.map Prod.snd).flatten ++ cur ++ [r] ∧
      (w.next = L.MAX_SEG_RECORDS → w1.seg_off = w.pos ∧ w1.next = 1 ∧
        closed1 = closed ++ [({ w.seg with link := w.pos }, cur)] ∧
        w1.pos = w.pos + L.sizeofSeg + roundup L (r.dataSize L.sizeofMeta) ∧
        RecordAt L w1.file (w.pos + L.sizeofSeg) r) ∧
      (w.next ≠ L.MAX_SEG_RECORDS → w1.seg_off = w.seg_off ∧ w1.next = w.next + 1 ∧
        closed1 = closed ∧ w1.pos = w.pos + roundup L (r.dataSize L.sizeofMeta) ∧
        RecordAt L w1.file w.pos r) ∧
      w1.next - 1 < L.MAX_SEG_RECORDS ∧
      w1.seg.labels[w1.next - 1]? = some r.meta_ptr.label ∧
      w1.seg.sizes[w1.next - 1]? = some (roundup L (r.dataSize L.sizeofMeta) % 2 ^ 32) := by
  have hle : w.next ≤ L.MAX_SEG_RECORDS := hinv.2.2.2.2.2.2.2.1
  unfold FileWriter.append
  by_cases hfull : w.next ≥ L.MAX_SEG_RECORDS
  · have heq : w.next = L.MAX_SEG_RECORDS := by omega
    obtain ⟨w0, w1, h0, h1, h2, h3, h4, h5⟩ := switch_lay L hL w closed cur hinv heq
    obtain ⟨w2, h6, h7, h8, h9, h10, h11, h12, h13⟩ := put_lay L hL w1 _ [] r h2
      (by rw [h5]; exact hL.2.2.2.2.1)
    refine ⟨w2, _, _, ?_, h7, by simp, ?_, ?_, fun hne => absurd heq hne, ?_, ?_, ?_⟩
    · simp only [if_pos hfull, h0, h1, h6]
    · simp
    · intro _
      refine ⟨by rw [h10, h4], by rw [h11, h5], rfl, by rw [h8, h3], ?_⟩
      rw [← h3]
      exact h9
    · rw [h11, h5]
      exact hL.2.2.2.2.1
    · rw [h11, h5]
      rw [h5] at h12
      exact h12
    · rw [h11, h5]
      rw [h5] at h13
      exact h13
  · have hlt : w.next < L.MAX_SEG_RECORDS := by omega
    obtain ⟨w2, h6, h7, h8, h9, h10, h11, h12, h13⟩ := put_lay L hL w closed cur r hinv hlt
    refine ⟨w2, closed, _, ?_, h7, by simp, ?_, fun heq => absurd heq (by omega), ?_, ?_, ?_, ?_⟩
    · simp only [if_neg hfull, h6]
    · simp
    · intro _
      exact ⟨h10, h11, rfl, h8, h9⟩
    · rw [h11]
      exact hlt
    · rw [h11]
      exact h12
    · rw [h11]
      exact h13

theorem appendAll_append (L : Layout) (a b : List Record) (w : FileWriter) :
    FileWriter.appendAll L w (a ++ b) =
      match FileWriter.appendAll L w a with
      | .error e => .error e
      | .ok w1 => FileWriter.appendAll L w1 b := by
  induction a generalizing w with
  | nil => rfl
  | cons r rs ih =>
    simp only [List.cons_append, FileWriter.appendAll]
    cases FileWriter.append L w r with
    | error e => rfl
    | ok w1 => exact ih w1

/-- A sequence of `append`s of records of any sizes succeeds and keeps the layout
invariant; the records of the closed segments and of the current one are, in order, those
appended, and once a segment has been closed the current one is never empty. -/
theorem appendAll_lay (L : Layout) (hL : L.WellFormed) (rs : List Record) (w : FileWriter)
    (closed : List (SegmentHeader × List Record)) (cur : List Record)
    (hinv : WLay L w closed cur) (hne : closed ≠ [] → cur ≠ []) :
    ∃ w1 closed1 cur1, FileWriter.appendAll L w rs = .ok w1 ∧ WLay L w1 closed1 cur1 ∧
      (closed1 ≠ [] → cur1 ≠ []) ∧
      (closed1.map Prod.snd).flatten ++ cur1 = (closed.map Prod.snd).flatten ++ cur ++ rs := by
  induction rs generalizing w closed cur with
  | nil => exact ⟨w, closed, cur, rfl, hinv, hne, by simp⟩
  | cons r rs ih =>
    obtain ⟨w1, closed1, cur1, h1, h2, h3, h4, _⟩ := append_lay L hL w closed cur r hinv
    obtain ⟨w2, closed2, cur2, h5, h6, h7, h8⟩ := ih w1 closed1 cur1 h2 (fun _ => h3)
    refine ⟨w2, closed2, cur2, ?_, h6, h7, ?_⟩
    · simp only [FileWriter.appendAll, h1, h5]
    · rw [h8, h4]
      simp

/-- A freshly opened writer satisfies the layout invariant, with no closed segment and no
record, and stands behind the first header. -/
theorem create_lay (L : Layout) (hL : L.WellFormed) :
    ∃ w, FileWriter.create L = .ok w ∧ WLay L w [] [] ∧ w.pos = L.sizeofSeg ∧ w.seg_off = 0 ∧
      w.next = 0 := by
  obtain ⟨hA, hSA, hS, hM, hMAX, hMAX32⟩ := hL
  refine ⟨{ file := File.empty.pwrite 0 L.sizeofSeg
              (fun i => Cell.segByte (SegmentHeader.init L.MAX_SEG_RECORDS) i)
            pos := 0 + L.sizeofSeg, seg_off := 0
            seg := SegmentHeader.init L.MAX_SEG_RECORDS, next := 0 }, ?_, ?_, Nat.zero_add _,
    rfl, rfl⟩
  · unfold FileWriter.create FileWriter.open_segment
    simp
  · refine ⟨?_, Nat.zero_mod _, rfl, ?_, trivial, rfl, rfl, Nat.zero_le _, ?_, ?_, ?_⟩
    · show (0 + L.sizeofSeg) % L.RECORD_ALIGN = 0
      rw [Nat.zero_add]; exact hSA
    · simp [paddedSize]
    · simp [SegmentHeader.init]
    · simp [SegmentHeader.init]
    · intro p hp
      cases hp

/-- Closing a writer that satisfies the layout invariant succeeds; the file ends at the
offset of the writer, and its segments, the closed ones and the current one with its link
set to that offset, form a chain from offset 0 to the end of the file. -/
theorem close_lay (L : Layout) (hL : L.WellFormed) (w : FileWriter)
    (closed : List (SegmentHeader × List Record)) (cur : List Record)
    (hinv : WLay L w closed cur) :
    ∃ f, FileWriter.close L w = .ok f ∧ f.size = w.pos ∧
      SegChain L f 0 (closed ++ [({ w.seg with link := w.pos }, cur)]) f.size := by
  obtain ⟨hA, hSA, hS, hM, hMAX, hMAX32⟩ := hL
  obtain ⟨i1, i2, i3, i4, i5, i6, i7, i8, i9, i10, i11⟩ := hinv
  have hcell : ∀ p, (p < w.seg_off ∨ (w.seg_off + L.sizeofSeg ≤ p ∧ p < w.pos)) →
      ((w.file.pwrite w.seg_off L.sizeofSeg
          (fun i => Cell.segByte { w.seg with link := w.pos } i)).ftruncate w.pos).cells p
        = w.file.cells p := by
    intro p hp
    simp only [File.ftruncate]
    rw [if_pos (by omega)]
    rcases hp with hp | hp
    · exact pwrite_cells_lt _ _ _ _ _ hp
    · exact pwrite_cells_ge _ _ _ _ _ hp.1
  refine ⟨(w.file.pwrite w.seg_off L.sizeofSeg
      (fun i => Cell.segByte { w.seg with link := w.pos } i)).ftruncate w.pos, ?_, rfl, ?_⟩
  · unfold FileWriter.close FileWriter.close_segment
    simp only [i1, ne_eq, not_true_eq_false, if_false]
  · refine SegChain_append L _ closed _ 0 w.seg_off w.pos
      (SegChain_frame L hA w.file _ closed 0 w.seg_off (fun p hp => hcell p (Or.inl hp)) i3)
      ⟨?_, ?_, ?_, i4, rfl⟩
    · intro i hi
      simp only [File.ftruncate]
      rw [if_pos (by omega)]
      exact pwrite_cells_in _ _ _ _ _ hi
    · show w.seg.size = cur.length
      rw [i6, i7]
    · exact RecsAt_frame L hA w.file _ cur _
        (fun p hp1 hp2 => hcell p (Or.inr ⟨hp1, by omega⟩)) i5

/-- The links along a chain of segments: each lies behind the header of its segment, they
increase strictly, and the last one is the end of the chain. -/
theorem SegChain_links (L : Layout) (hS : 0 < L.sizeofSeg) (f : File)
    (segs : List (SegmentHeader × List Record)) (o o1 : Nat) (h : SegChain L f o segs o1) :
    (∀ p, p ∈ segs → o < p.1.link) ∧
      List.Pairwise (fun a b => a < b) (segs.map (fun p => p.1.link)) ∧
      (∀ p, segs.getLast? = some p → p.1.link = o1) := by
  induction segs generalizing o with
  | nil =>
    refine ⟨?_, List.Pairwise.nil, ?_⟩
    · intro p hp
      cases hp
    · intro p hp
      cases hp
  | cons q rest ih =>
    obtain ⟨hd, recs⟩ := q
    obtain ⟨_, _, _, h4, h5⟩ := h
    obtain ⟨k1, k2, k3⟩ := ih _ h5
    have hlt : o < hd.link := by omega
    refine ⟨?_, ?_, ?_⟩
    · intro p hp
      rcases List.mem_cons.1 hp with hp | hp
      · rw [hp]; exact hlt
      · exact Nat.lt_trans hlt (k1 p hp)
    · rw [List.map_cons, List.pairwise_cons]
      refine ⟨?_, k2⟩
      intro a ha
      obtain ⟨p, hp, rfl⟩ := List.mem_map.1 ha
      exact k1 p hp
    · intro p hp
      cases rest with
      | nil =>
        simp only [List.getLast?_singleton, Option.some.injEq] at hp
        rw [← hp]
        exact h5
      | cons q2 rest2 =>
        rw [List.getLast?_cons_cons] at hp
        exact k3 p hp

/-- The number of segments of a file with `n` records: full closed segments and a last one
that is empty only when it is the first. -/
theorem segment_count (M n k c : Nat) (hM : 0 < M) (hc : c ≤ M) (hk : 0 < k → 0 < c)
    (hn : n = M * k + c) : k + 1 = max 1 ((n + M - 1) / M) := by
  subst hn
  by_cases hc0 : c = 0
  · have hk0 : k = 0 := by
      by_contra hk0
      have := hk (by omega)
      omega
    subst hc0 hk0
    rw [Nat.mul_zero, Nat.zero_add, Nat.zero_add, Nat.div_eq_of_lt (by omega)]
    rfl
  · have e : M * k + c + M - 1 = (c - 1) + M * (k + 1) := by rw [Nat.mul_add]; omega
    rw [e, Nat.add_mul_div_left _ _ hM, Nat.div_eq_of_lt (by omega)]
    omega

/-- The whole run of a writer on records of any sizes: opening, appending and closing
succeed, the layout invariant holds before the close, and the segments of the file form a
chain from offset 0 to its end. -/
theorem write_layout (L : Layout) (hL : L.WellFormed) (rs : List Record) :
    ∃ w0 w f closed cur, FileWriter.create L = .ok w0 ∧ FileWriter.appendAll L w0 rs = .ok w ∧
      FileWriter.close L w = .ok f ∧ writeFile L rs = .ok f ∧ WLay L w closed cur ∧
      (closed ≠ [] → cur ≠ []) ∧ (closed.map Prod.snd).flatten ++ cur = rs ∧
      f.size = w.pos ∧
      SegChain L f 0 (closed ++ [({ w.seg with link := w.pos }, cur)]) f.size := by
  obtain ⟨w0, h1, h2, _⟩ := create_lay L hL
  obtain ⟨w, closed, cur, h3, h4, h5, h6⟩ := appendAll_lay L hL rs w0 [] [] h2 (fun h => absurd rfl h)
  obtain ⟨f, h7, h8, h9⟩ := close_lay L hL w closed cur h4
  refine ⟨w0, w, f, closed, cur, h1, h3, h7, ?_, h4, h5, by simpa using h6, h8, h9⟩
  simp only [writeFile, h1, h3, h7]

theorem SegChain_size (L : Layout) (f : File) (segs : List (SegmentHeader × List Record))
    (o o1 : Nat) (h : SegChain L f o segs o1) : ∀ p, p ∈ segs → p.1.size = p.2.length := by
  induction segs generalizing o with
  | nil =>
    intro p hp
    cases hp
  | cons q rest ih =>
    obtain ⟨hd, recs⟩ := q
    obtain ⟨_, h2, _, _, h5⟩ := h
    intro p hp
    rcases List.mem_cons.1 hp with hp | hp
    · rw [hp]; exact h2
    · exact ih _ h5 p hp

/-- C12: for every sequence of appends of records, of any sizes, on a freshly opened
`FileWriter`, opening, every append and the close succeed, so no alignment `CHECK` of
`Record::write`, `open_segment` or `close_segment` fails; the offset of the writer is a
multiple of `RECORD_ALIGN` after opening and at the end, and so is `seg_off`; and for
every record `i`, the append that writes it finds the writer at an aligned offset, writes
the record at the offset `o` (that offset, or behind the header of a new segment), where its
bytes then stand, with `o` a multiple of `RECORD_ALIGN`, and leaves the writer at `o` plus
the padded length, again a multiple of `RECORD_ALIGN`. -/
theorem alignment_invariant (L : Layout) (hL : L.WellFormed) (rs : List Record) :
    ∃ w0 w f, FileWriter.create L = .ok w0 ∧ FileWriter.appendAll L w0 rs = .ok w ∧
      FileWriter.close L w = .ok f ∧
      w0.pos % L.RECORD_ALIGN = 0 ∧ w0.seg_off % L.RECORD_ALIGN = 0 ∧
      w.pos % L.RECORD_ALIGN = 0 ∧ w.seg_off % L.RECORD_ALIGN = 0 ∧
      ∀ (i : Nat) (r : Record), rs[i]? = some r →
        ∃ wi wi1 o, FileWriter.appendAll L w0 (rs.take i) = .ok wi ∧
          FileWriter.append L wi r = .ok wi1 ∧
          FileWriter.appendAll L wi1 (rs.drop (i + 1)) = .ok w ∧
          wi.pos % L.RECORD_ALIGN = 0 ∧
          o = (if wi.next ≥ L.MAX_SEG_RECORDS then wi.pos + L.sizeofSeg else wi.pos) ∧
          o % L.RECORD_ALIGN = 0 ∧ RecordAt L wi1.file o r ∧
          wi1.pos = o + roundup L (r.dataSize L.sizeofMeta) ∧
          wi1.pos % L.RECORD_ALIGN = 0 ∧ wi1.seg_off % L.RECORD_ALIGN = 0 := by
  obtain ⟨w0, w, f, closed, cur, h1, h2, h3, _, h5, _, _, _, _⟩ := write_layout L hL rs
  obtain ⟨x0, hx1, hx2, _⟩ := create_lay L hL
  have hx : x0 = w0 := by
    rw [hx1] at h1
    exact Except.ok.inj h1
  subst hx
  refine ⟨x0, w, f, hx1, h2, h3, hx2.1, hx2.2.1, h5.1, h5.2.1, ?_⟩
  intro i r hi
  obtain ⟨hlt, hget⟩ := List.getElem?_eq_some_iff.1 hi
  have hsplit : rs = rs.take i ++ r :: rs.drop (i + 1) := by
    rw [← hget, ← List.drop_eq_getElem_cons hlt, List.take_append_drop]
  obtain ⟨wi, ci, ui, k1, k2, _, _⟩ :=
    appendAll_lay L hL (rs.take i) x0 [] [] hx2 (fun h => absurd rfl h)
  obtain ⟨wi1, c1, u1, a1, a2, _, _, a5, a6, _⟩ := append_lay L hL wi ci ui r k2
  have hle : wi.next ≤ L.MAX_SEG_RECORDS := k2.2.2.2.2.2.2.2.1
  have hrest : FileWriter.appendAll L wi1 (rs.drop (i + 1)) = .ok w := by
    have h : FileWriter.appendAll L x0 (rs.take i ++ r :: rs.drop (i + 1)) = .ok w := by
      rw [← hsplit]; exact h2
    rw [appendAll_append, k1] at h
    simp only [FileWriter.appendAll, a1] at h
    exact h
  have hSA := hL.2.1
  refine ⟨wi, wi1, _, k1, a1, hrest, k2.1, rfl, ?_, ?_, ?_, a2.1, a2.2.1⟩
  · by_cases hfull : wi.next ≥ L.MAX_SEG_RECORDS
    · rw [if_pos hfull, Nat.add_mod, k2.1, hSA]; simp
    · rw [if_neg hfull]; exact k2.1
  · by_cases hfull : wi.next ≥ L.MAX_SEG_RECORDS
    · rw [if_pos hfull]; exact (a5 (by omega)).2.2.2.2
    · rw [if_neg hfull]; exact (a6 (by omega)).2.2.2.2
  · by_cases hfull : wi.next ≥ L.MAX_SEG_RECORDS
    · rw [if_pos hfull]; exact (a5 (by omega)).2.2.2.1
    · rw [if_neg hfull]; exact (a6 (by omega)).2.2.2.1

/-- Witness of `alignment_invariant`: headers of 16 and 64 bytes, alignment 16, two records
per segment, and three records, so that a second segment is opened. -/
theorem alignment_invariant_witness :
    Layout.WellFormed ⟨16, 64, 16, 2⟩ ∧
    ∃ w0 w f, FileWriter.create ⟨16, 64, 16, 2⟩ = .ok w0 ∧
      FileWriter.appendAll ⟨16, 64, 16, 2⟩ w0
        [Record.ofString 16 1 [1, 2, 3], Record.ofStrings 16 2 [4] [5, 6],
          Record.ofString 16 0 []] = .ok w ∧
      FileWriter.close ⟨16, 64, 16, 2⟩ w = .ok f ∧
      w0.pos % 16 = 0 ∧ w0.seg_off % 16 = 0 ∧ w.pos % 16 = 0 ∧ w.seg_off % 16 = 0 ∧
      ∀ (i : Nat) (r : Record),
        [Record.ofString 16 1 [1, 2, 3], Record.ofStrings 16 2 [4] [5, 6],
          Record.ofString 16 0 []][i]? = some r →
        ∃ wi wi1 o, FileWriter.appendAll ⟨16, 64, 16, 2⟩ w0
            (([Record.ofString 16 1 [1, 2, 3], Record.ofStrings 16 2 [4] [5, 6],
              Record.ofString 16 0 []]).take i) = .ok wi ∧
          FileWriter.append ⟨16, 64, 16, 2⟩ wi r = .ok wi1 ∧
          FileWriter.appendAll ⟨16, 64, 16, 2⟩ wi1
            (([Record.ofString 16 1 [1, 2, 3], Record.ofStrings 16 2 [4] [5, 6],
              Record.ofString 16 0 []]).drop (i + 1)) = .ok w ∧
          wi.pos % 16 = 0 ∧
          o = (if wi.next ≥ 2 then wi.pos + 64 else wi.pos) ∧
          o % 16 = 0 ∧ RecordAt ⟨16, 64, 16, 2⟩ wi1.file o r ∧
          wi1.pos = o + roundup ⟨16, 64, 16, 2⟩ (r.dataSize 16) ∧
          wi1.pos % 16 = 0 ∧ wi1.seg_off % 16 = 0 :=
  ⟨by unfold Layout.WellFormed; decide,
   alignment_invariant ⟨16, 64, 16, 2⟩ (by unfold Layout.WellFormed; decide)
     [Record.ofString 16 1 [1, 2, 3], Record.ofStrings 16 2 [4] [5, 6],
       Record.ofString 16 0 []]⟩

/-! ## Theorems: segment capacity -/

theorem flatten_length_full (M : Nat) (closed : List (SegmentHeader × List Record))
    (h : ∀ p, p ∈ closed → p.2.length = M) :
    ((closed.map Prod.snd).flatten).length = M * closed.length := by
  induction closed with
  | nil => rfl
  | cons q rest ih =>
    rw [List.map_cons, List.flatten_cons, List.length_append, List.length_cons,
      ih (fun p hp => h p (List.mem_cons_of_mem _ hp)), h q (List.mem_cons_self _ _),
      Nat.mul_add, Nat.mul_one, Nat.add_comm]

/-- C19: after opening and after every append (the writer `w` has taken the records `rs`,
any number of any sizes), the record count of the header in memory equals `next` and is
at most `MAX_SEG_RECORDS`, the length of the arrays `labels` and `sizes`; the next append
succeeds, starts a new segment (at the current offset, with the record as its first) when
`next = MAX_SEG_RECORDS` and only then, and stores label and size in a slot below
`MAX_SEG_RECORDS`; and the file left by the close consists of
`max 1 (ceil (n / MAX_SEG_RECORDS))` segments that hold the `n` records in order, all but
the last with exactly `MAX_SEG_RECORDS` records, the last with the remaining ones. -/
theorem segment_capacity (L : Layout) (hL : L.WellFormed) (rs : List Record) (r : Record) :
    ∃ w0 w f, FileWriter.create L = .ok w0 ∧ FileWriter.appendAll L w0 rs = .ok w ∧
      FileWriter.close L w = .ok f ∧
      (w.seg.size = w.next ∧ w.next ≤ L.MAX_SEG_RECORDS ∧
        w.seg.labels.length = L.MAX_SEG_RECORDS ∧ w.seg.sizes.length = L.MAX_SEG_RECORDS) ∧
      (∃ w1, FileWriter.append L w r = .ok w1 ∧
        (w.next = L.MAX_SEG_RECORDS → w1.seg_off = w.pos ∧ w.seg_off < w.pos ∧ w1.next = 1) ∧
        (w.next ≠ L.MAX_SEG_RECORDS → w1.seg_off = w.seg_off ∧ w1.next = w.next + 1) ∧
        w1.seg.size = w1.next ∧
        w1.next - 1 < L.MAX_SEG_RECORDS ∧
        w1.seg.labels[w1.next - 1]? = some r.meta_ptr.label ∧
        w1.seg.sizes[w1.next - 1]? = some (roundup L (r.dataSize L.sizeofMeta) % 2 ^ 32)) ∧
      ∃ segs, SegChain L f 0 segs f.size ∧ (segs.map Prod.snd).flatten = rs ∧
        segs.length = max 1 ((rs.length + L.MAX_SEG_RECORDS - 1) / L.MAX_SEG_RECORDS) ∧
        (∀ p, p ∈ segs.dropLast →
          p.1.size = L.MAX_SEG_RECORDS ∧ p.2.length = L.MAX_SEG_RECORDS) ∧
        (∀ p, segs.getLast? = some p →
          p.1.size = rs.length - L.MAX_SEG_RECORDS * (segs.length - 1) ∧
          p.2.length = rs.length - L.MAX_SEG_RECORDS * (segs.length - 1)) := by
  obtain ⟨w0, w, f, closed, cur, h1, h2, h3, _, h5, h6, h7, h8, h9⟩ := write_layout L hL rs
  obtain ⟨i1, i2, i3, i4, i5, i6, i7, i8, i9, i10, i11⟩ := h5
  obtain ⟨w1, c1, u1, a1, a2, _, _, a5, a6, a7, a8, a9⟩ :=
    append_lay L hL w closed cur r ⟨i1, i2, i3, i4, i5, i6, i7, i8, i9, i10, i11⟩
  have hS := hL.2.2.1
  have hlen : rs.length = L.MAX_SEG_RECORDS * closed.length + cur.length := by
    rw [← h7, List.length_append, flatten_length_full L.MAX_SEG_RECORDS closed i11]
  refine ⟨w0, w, f, h1, h2, h3, ⟨i6, i8, i9, i10⟩, ⟨w1, a1, ?_, ?_, a2.2.2.2.2.2.1, a7, a8, a9⟩,
    closed ++ [({ w.seg with link := w.pos }, cur)], h9, ?_, ?_, ?_, ?_⟩
  · intro hfull
    refine ⟨(a5 hfull).1, ?_, (a5 hfull).2.1⟩
    omega
  · intro hne
    exact ⟨(a6 hne).1, (a6 hne).2.1⟩
  · simpa using h7
  · rw [List.length_append, List.length_singleton]
    refine segment_count L.MAX_SEG_RECORDS rs.length closed.length cur.length hL.2.2.2.2.1
      (by omega) ?_ hlen
    intro hk
    have := h6 (List.ne_nil_of_length_pos hk)
    exact List.length_pos.2 this
  · intro p hp
    rw [List.dropLast_concat] at hp
    have hs := SegChain_size L f _ 0 f.size h9 p (List.mem_append_left _ hp)
    rw [hs]
    exact ⟨i11 p hp, i11 p hp⟩
  · intro p hp
    rw [List.getLast?_concat, Option.some.injEq] at hp
    rw [← hp, List.length_append, List.length_singleton, Nat.add_sub_cancel, hlen,
      Nat.add_sub_cancel_left]
    exact ⟨by show w.seg.size = cur.length; rw [i6, i7], rfl⟩

/-- Witness of `segment_capacity`: headers of 16 and 64 bytes, alignment 16, two records
per segment; three records have been appended, so that the writer is in its second
segment, and a fourth one is appended. -/
theorem segment_capacity_witness :
    Layout.WellFormed ⟨16, 64, 16, 2⟩ ∧
    ∃ w0 w f, FileWriter.create ⟨16, 64, 16, 2⟩ = .ok w0 ∧
      FileWriter.appendAll ⟨16, 64, 16, 2⟩ w0
        [Record.ofString 16 1 [1, 2, 3], Record.ofStrings 16 2 [4] [5, 6],
          Record.ofString 16 0 []] = .ok w ∧
      FileWriter.close ⟨16, 64, 16, 2⟩ w = .ok f ∧
      (w.seg.size = w.next ∧ w.next ≤ 2 ∧ w.seg.labels.length = 2 ∧ w.seg.sizes.length = 2) ∧
      (∃ w1, FileWriter.append ⟨16, 64, 16, 2⟩ w (Record.ofString 16 7 [9]) = .ok w1 ∧
        (w.next = 2 → w1.seg_off = w.pos ∧ w.seg_off < w.pos ∧ w1.next = 1) ∧
        (w.next ≠ 2 → w1.seg_off = w.seg_off ∧ w1.next = w.next + 1) ∧
        w1.seg.size = w1.next ∧
        w1.next - 1 < 2 ∧
        w1.seg.labels[w1.next - 1]? = some (Record.ofString 16 7 [9]).meta_ptr.label ∧
        w1.seg.sizes[w1.next - 1]? = some
          (roundup ⟨16, 64, 16, 2⟩ ((Record.ofString 16 7 [9]).dataSize 16) % 2 ^ 32)) ∧
      ∃ segs, SegChain ⟨16, 64, 16, 2⟩ f 0 segs f.size ∧
        (segs.map Prod.snd).flatten =
          [Record.ofString 16 1 [1, 2, 3], Record.ofStrings 16 2 [4] [5, 6],
            Record.ofString 16 0 []] ∧
        segs.length = max 1
          (([Record.ofString 16 1 [1, 2, 3], Record.ofStrings 16 2 [4] [5, 6],
            Record.ofString 16 0 []].length + 2 - 1) / 2) ∧
        (∀ p, p ∈ segs.dropLast → p.1.size = 2 ∧ p.2.length = 2) ∧
        (∀ p, segs.getLast? = some p →
          p.1.size = [Record.ofString 16 1 [1, 2, 3], Record.ofStrings 16 2 [4] [5, 6],
            Record.ofString 16 0 []].length - 2 * (segs.length - 1) ∧
          p.2.length = [Record.ofString 16 1 [1, 2, 3], Record.ofStrings 16 2 [4] [5, 6],
            Record.ofString 16 0 []].length - 2 * (segs.length - 1)) :=
  ⟨by unfold Layout.WellFormed; decide,
   segment_capacity ⟨16, 64, 16, 2⟩ (by unfold Layout.WellFormed; decide)
     [Record.ofString 16 1 [1, 2, 3], Record.ofStrings 16 2 [4] [5, 6],
       Record.ofString 16 0 []] (Record.ofString 16 7 [9])⟩

/-! ## Theorems: write/scan coverage and chain integrity -/

/-- When `::write` transfers all of `data`, `Record::write` is the function with the call
taken to succeed. -/
theorem writeIO_full (L : Layout) (wr : Nat → Nat) (r : Record) (file : File) (pos : Nat)
    (h : wr (r.dataSize L.sizeofMeta) = r.dataSize L.sizeofMeta) :
    Record.writeIO L wr r file pos =
      match Record.write L r file pos with
      | .error e => .error e
      | .ok (sz, file, pos) => .ok ((sz : Int), file, pos) := by
  unfold Record.writeIO Record.write
  simp only [h, ne_eq, not_true_eq_false, if_false]
  split_ifs <;> rfl

theorem putIO_full (L : Layout) (wr : Nat → Nat) (w : FileWriter) (r : Record)
    (h : wr (r.dataSize L.sizeofMeta) = r.dataSize L.sizeofMeta) :
    FileWriter.putIO L wr w r = FileWriter.put L w r := by
  unfold FileWriter.putIO FileWriter.put
  rw [writeIO_full L wr r w.file w.pos h]
  cases Record.write L r w.file w.pos with
  | error e => rfl
  | ok v =>
    obtain ⟨sz, file, pos⟩ := v
    simp only [Int.toNat_ofNat, gt_iff_lt, Nat.cast_pos]

/-- A short count of `::write` makes `CHECK (sz > 0)` fail, unless the alignment `CHECK`
has failed before. -/
theorem putIO_short (L : Layout) (wr : Nat → Nat) (w : FileWriter) (r : Record)
    (h : wr (r.dataSize L.sizeofMeta) ≠ r.dataSize L.sizeofMeta) :
    FileWriter.putIO L wr w r = .error Error.CheckFailed := by
  unfold FileWriter.putIO Record.writeIO
  by_cases hp : w.pos % L.RECORD_ALIGN = 0
  · simp [hp, h]
  · simp [hp]

theorem appendIO_full (L : Layout) (wr : Nat → Nat) (w : FileWriter) (r : Record)
    (h : wr (r.dataSize L.sizeofMeta) = r.dataSize L.sizeofMeta) :
    FileWriter.appendIO L wr w r = FileWriter.append L w r := by
  unfold FileWriter.appendIO FileWriter.append
  simp only [putIO_full L wr _ r h] <;> rfl

theorem appendIO_short (L : Layout) (wr : Nat → Nat) (w : FileWriter) (r : Record)
    (h : wr (r.dataSize L.sizeofMeta) ≠ r.dataSize L.sizeofMeta) :
    FileWriter.appendIO L wr w r = .error Error.CheckFailed := by
  unfold FileWriter.appendIO
  by_cases hf : w.next ≥ L.MAX_SEG_RECORDS
  · rw [if_pos hf]
    have hc : ∀ x, FileWriter.close_segment L w = x →
        (x = .error Error.CheckFailed ∨ ∃ w1, x = .ok w1) := by
      intro x hx
      rw [← hx]
      unfold FileWriter.close_segment
      by_cases hp : w.pos % L.RECORD_ALIGN = 0
      · right; simp [hp]
      · left; simp [hp]
    rcases hc _ rfl with h1 | ⟨w1, h1⟩
    · rw [h1]
    · rw [h1]
      have ho : ∀ x, FileWriter.open_segment L w1 = x →
          (x = .error Error.CheckFailed ∨ ∃ w2, x = .ok w2) := by
        intro x hx
        rw [← hx]
        unfold FileWriter.open_segment
        by_cases hp : w1.pos % L.RECORD_ALIGN = 0
        · right; simp [hp]
        · left; simp [hp]
      rcases ho _ rfl with h2 | ⟨w2, h2⟩
      · simp only [h2]
      · simp only [h2]
        exact putIO_short L wr w2 r h
  · rw [if_neg hf]
    exact putIO_short L wr w r h

theorem appendAllIO_full (L : Layout) (wr : Nat → Nat) (rs : List Record) (w : FileWriter)
    (h : ∀ r, r ∈ rs → wr (r.dataSize L.sizeofMeta) = r.dataSize L.sizeofMeta) :
    FileWriter.appendAllIO L wr w rs = FileWriter.appendAll L w rs := by
  induction rs generalizing w with
  | nil => rfl
  | cons r rs ih =>
    simp only [FileWriter.appendAllIO, FileWriter.appendAll,
      appendIO_full L wr w r (h r (List.mem_cons_self _ _))]
    cases FileWriter.append L w r with
    | error e => rfl
    | ok w1 => exact ih w1 (fun x hx => h x (List.mem_cons_of_mem _ hx))

theorem appendAllIO_short (L : Layout) (wr : Nat → Nat) (rs : List Record) (w : FileWriter)
    (h : ∃ r, r ∈ rs ∧ wr (r.dataSize L.sizeofMeta) ≠ r.dataSize L.sizeofMeta) :
    ∃ e, FileWriter.appendAllIO L wr w rs = .error e := by
  induction rs generalizing w with
  | nil =>
    obtain ⟨r, hr, _⟩ := h
    cases hr
  | cons r rs ih =>
    simp only [FileWriter.appendAllIO]
    by_cases hr : wr (r.dataSize L.sizeofMeta) = r.dataSize L.sizeofMeta
    · cases FileWriter.appendIO L wr w r with
      | error e => exact ⟨e, rfl⟩
      | ok w1 =>
        obtain ⟨x, hx, hx2⟩ := h
        rcases List.mem_cons.1 hx with hx | hx
        · rw [hx] at hx2
          exact absurd hr hx2
        · exact ih w1 ⟨x, hx, hx2⟩
    · rw [appendIO_short L wr w r hr]
      exact ⟨_, rfl⟩

/-- The writer closes a file exactly when every `::write` transfers its record in full,
and the file is then the one of the run with the calls taken to succeed. -/
theorem writeFileIO_ok (L : Layout) (hL : L.WellFormed) (wr : Nat → Nat) (rs : List Record) :
    ((∃ f, writeFileIO L wr rs = .ok f) ↔
      ∀ r, r ∈ rs → wr (r.dataSize L.sizeofMeta) = r.dataSize L.sizeofMeta) ∧
    ∀ f, writeFileIO L wr rs = .ok f → writeFile L rs = .ok f := by
  have hfull : (∀ r, r ∈ rs → wr (r.dataSize L.sizeofMeta) = r.dataSize L.sizeofMeta) →
      writeFileIO L wr rs = writeFile L rs := by
    intro h
    unfold writeFileIO writeFile
    cases FileWriter.create L with
    | error e => rfl
    | ok w =>
      simp only [appendAllIO_full L wr rs w h] <;> rfl
  have hshort : (∃ f, writeFileIO L wr rs = .ok f) →
      ∀ r, r ∈ rs → wr (r.dataSize L.sizeofMeta) = r.dataSize L.sizeofMeta := by
    rintro ⟨f, hf⟩
    by_contra hne
    push_neg at hne
    unfold writeFileIO at hf
    cases hc : FileWriter.create L with
    | error e => rw [hc] at hf; cases hf
    | ok w =>
      rw [hc] at hf
      obtain ⟨e, he⟩ := appendAllIO_short L wr rs w hne
      simp only [he] at hf
      cases hf
  refine ⟨⟨hshort, ?_⟩, ?_⟩
  · intro h
    obtain ⟨_, _, f, _, _, _, _, _, hw, _⟩ := write_layout L hL rs
    exact ⟨f, by rw [hfull h]; exact hw⟩
  · intro f hf
    rw [← hfull (hshort ⟨f, hf⟩)]
    exact hf

theorem roundup_lt (L : Layout) (hA : 0 < L.RECORD_ALIGN) (n : Nat) :
    roundup L n < n + L.RECORD_ALIGN := by
  unfold roundup
  have h1 := Nat.div_mul_le_self (n + L.RECORD_ALIGN - 1) L.RECORD_ALIGN
  omega

/-- A record that one `::write` call transfers in full has a padded length below `2^32`,
when no call transfers more than `2^32 - RECORD_ALIGN` bytes. -/
theorem full_write_fits (L : Layout) (hA : 0 < L.RECORD_ALIGN) (wr : Nat → Nat)
    (hwr : ∀ n, wr n + L.RECORD_ALIGN ≤ 2 ^ 32) (r : Record)
    (h : wr (r.dataSize L.sizeofMeta) = r.dataSize L.sizeofMeta) :
    roundup L (r.dataSize L.sizeofMeta) < 2 ^ 32 := by
  have h1 := roundup_lt L hA (r.dataSize L.sizeofMeta)
  have h2 := hwr (r.dataSize L.sizeofMeta)
  rw [h] at h2
  omega

/-- C2: for every sequence of `n` records (for every `n`, including 0 and more than
`MAX_SEG_RECORDS`) appended to a freshly opened `FileWriter` that is then closed, where a
`::write` call never transfers more than `2^32 - RECORD_ALIGN` bytes: the writer closes a
file exactly when every record is transferred in full (a short count ends the program at
`CHECK (sz > 0)`), and on every file that it closes `FileReader::ping` returns exactly `n`
locators in append order; locator `i` has the label of record `i`, as size the packed
length of record `i` rounded up to a multiple of `RECORD_ALIGN`, and as offset the position
at which the bytes of record `i` stand in the file: behind `i / MAX_SEG_RECORDS + 1`
segment headers and the padded records before it. -/
theorem write_scan_coverage (L : Layout) (hL : L.WellFormed) (wr : Nat → Nat)
    (hwr : ∀ n, wr n + L.RECORD_ALIGN ≤ 2 ^ 32) (rs : List Record) :
    ((∃ f, writeFileIO L wr rs = .ok f) ↔
      ∀ r, r ∈ rs → wr (r.dataSize L.sizeofMeta) = r.dataSize L.sizeofMeta) ∧
    ∀ f, writeFileIO L wr rs = .ok f →
      ∃ locs, FileReader.ping L f = .ok locs ∧ locs.length = rs.length ∧
        (∀ (i : Nat) (r : Record), rs[i]? = some r → locs[i]? = some
          (Locator.mk r.meta_ptr.label
            (L.sizeofSeg * (i / L.MAX_SEG_RECORDS + 1)
              + ((rs.take i).map (fun x => roundup L (x.dataSize L.sizeofMeta))).sum)
            (roundup L (r.dataSize L.sizeofMeta)))) ∧
        List.Forall₂ (Locates L f) locs rs := by
  obtain ⟨hiff, hsame⟩ := writeFileIO_ok L hL wr rs
  refine ⟨hiff, ?_⟩
  intro f hf
  have hall := hiff.1 ⟨f, hf⟩
  obtain ⟨f1, h1, h2, h3⟩ := write_scan L hL rs
    (fun r hr => full_write_fits L hL.1 wr hwr r (hall r hr))
  rw [hsame f hf] at h1
  rw [Except.ok.inj h1]
  refine ⟨_, h2, h3.length_eq, ?_, h3⟩
  intro i r hi
  rw [expectedLocators_getElem L hL.2.2.2.2.1 rs L.sizeofSeg 0 (Nat.zero_le _) i r hi]
  congr 2
  rw [Nat.zero_add, Nat.mul_add, Nat.mul_one]
  omega

/-- Witness of `write_scan_coverage`: headers of 16 and 8192 bytes, alignment 4096, 1020
records per segment, a `::write` that transfers at most `0x7ffff000` bytes, and two
records. -/
theorem write_scan_coverage_witness :
    (Layout.WellFormed ⟨16, 8192, 4096, 1020⟩ ∧ ∀ n : Nat, min n 2147479552 + 4096 ≤ 2 ^ 32) ∧
    ((∃ f, writeFileIO ⟨16, 8192, 4096, 1020⟩ (fun n => min n 2147479552)
        [Record.ofString 16 1 [1, 2, 3], Record.ofStrings 16 2 [4] [5, 6]] = .ok f) ↔
      ∀ r, r ∈ [Record.ofString 16 1 [1, 2, 3], Record.ofStrings 16 2 [4] [5, 6]] →
        min (r.dataSize 16) 2147479552 = r.dataSize 16) ∧
    ∀ f, writeFileIO ⟨16, 8192, 4096, 1020⟩ (fun n => min n 2147479552)
        [Record.ofString 16 1 [1, 2, 3], Record.ofStrings 16 2 [4] [5, 6]] = .ok f →
      ∃ locs, FileReader.ping ⟨16, 8192, 4096, 1020⟩ f = .ok locs ∧
        locs.length = [Record.ofString 16 1 [1, 2, 3], Record.ofStrings 16 2 [4] [5, 6]].length ∧
        (∀ (i : Nat) (r : Record),
          [Record.ofString 16 1 [1, 2, 3], Record.ofStrings 16 2 [4] [5, 6]][i]? = some r →
          locs[i]? = some
            (Locator.mk r.meta_ptr.label
              (8192 * (i / 1020 + 1)
                + ((([Record.ofString 16 1 [1, 2, 3], Record.ofStrings 16 2 [4] [5, 6]]).take i).map
                    (fun x => roundup ⟨16, 8192, 4096, 1020⟩ (x.dataSize 16))).sum)
              (roundup ⟨16, 8192, 4096, 1020⟩ (r.dataSize 16)))) ∧
        List.Forall₂ (Locates ⟨16, 8192, 4096, 1020⟩ f) locs
          [Record.ofString 16 1 [1, 2, 3], Record.ofStrings 16 2 [4] [5, 6]] :=
  ⟨⟨by unfold Layout.WellFormed; decide, fun n => by omega⟩,
   write_scan_coverage ⟨16, 8192, 4096, 1020⟩ (by unfold Layout.WellFormed; decide)
     (fun n => min n 2147479552) (fun n => by show min n 2147479552 + 4096 ≤ 2 ^ 32; omega)
     [Record.ofString 16 1 [1, 2, 3], Record.ofStrings 16 2 [4] [5, 6]]⟩

/-- C13: for every file produced by opening a `FileWriter`, appending any sequence of
records and closing it, where a `::write` call never transfers more than
`2^32 - RECORD_ALIGN` bytes (the writer closes a file exactly when every record is
transferred in full): the file consists of a chain of at least one segment, from offset 0
to its end, that holds the records in order; each header's link equals the offset
immediately after that segment's last padded record, and no `CHECK` of `FileReader::ping`
fails on the file; the links of successive segments strictly increase; and the last
segment's link equals the file's total length after truncation. -/
theorem chain_integrity (L : Layout) (hL : L.WellFormed) (wr : Nat → Nat)
    (hwr : ∀ n, wr n + L.RECORD_ALIGN ≤ 2 ^ 32) (rs : List Record) :
    ((∃ f, writeFileIO L wr rs = .ok f) ↔
      ∀ r, r ∈ rs → wr (r.dataSize L.sizeofMeta) = r.dataSize L.sizeofMeta) ∧
    ∀ f, writeFileIO L wr rs = .ok f →
      ∃ segs, segs ≠ [] ∧ SegChain L f 0 segs f.size ∧
        (segs.map Prod.snd).flatten = rs ∧
        (∃ locs, FileReader.ping L f = .ok locs) ∧
        List.Pairwise (fun a b => a < b) (segs.map (fun p => p.1.link)) ∧
        (∀ p, segs.getLast? = some p → p.1.link = f.size) := by
  obtain ⟨hiff, hsame⟩ := writeFileIO_ok L hL wr rs
  refine ⟨hiff, ?_⟩
  intro f hf
  have hall := hiff.1 ⟨f, hf⟩
  obtain ⟨w0, w, f2, closed, cur, _, _, _, h4, _, _, h7, _, h9⟩ := write_layout L hL rs
  rw [hsame f hf] at h4
  have hf2 : f = f2 := Except.ok.inj h4
  subst hf2
  obtain ⟨_, k2, k3⟩ := SegChain_links L hL.2.2.1 f _ 0 f.size h9
  refine ⟨closed ++ [({ w.seg with link := w.pos }, cur)], by simp, h9,
    by simpa using h7, ?_, k2, k3⟩
  obtain ⟨f1, e1, e2, _⟩ := write_scan L hL rs
    (fun r hr => full_write_fits L hL.1 wr hwr r (hall r hr))
  rw [hsame f hf] at e1
  rw [Except.ok.inj e1]
  exact ⟨_, e2⟩

/-- Witness of `chain_integrity`: headers of 16 and 64 bytes, alignment 16, two records
per segment, a `::write` that transfers at most `0x7ffff000` bytes, and three records, so
that the chain has two segments. -/
theorem chain_integrity_witness :
    (Layout.WellFormed ⟨16, 64, 16, 2⟩ ∧ ∀ n : Nat, min n 2147479552 + 16 ≤ 2 ^ 32) ∧
    ((∃ f, writeFileIO ⟨16, 64, 16, 2⟩ (fun n => min n 2147479552)
        [Record.ofString 16 1 [1, 2, 3], Record.ofStrings 16 2 [4] [5, 6],
          Record.ofString 16 0 []] = .ok f) ↔
      ∀ r, r ∈ [Record.ofString 16 1 [1, 2, 3], Record.ofStrings 16 2 [4] [5, 6],
          Record.ofString 16 0 []] →
        min (r.dataSize 16) 2147479552 = r.dataSize 16) ∧
    ∀ f, writeFileIO ⟨16, 64, 16, 2⟩ (fun n => min n 2147479552)
        [Record.ofString 16 1 [1, 2, 3], Record.ofStrings 16 2 [4] [5, 6],
          Record.ofString 16 0 []] = .ok f →
      ∃ segs, segs ≠ [] ∧ SegChain ⟨16, 64, 16, 2⟩ f 0 segs f.size ∧
        (segs.map Prod.snd).flatten =
          [Record.ofString 16 1 [1, 2, 3], Record.ofStrings 16 2 [4] [5, 6],
            Record.ofString 16 0 []] ∧
        (∃ locs, FileReader.ping ⟨16, 64, 16, 2⟩ f = .ok locs) ∧
        List.Pairwise (fun a b => a < b) (segs.map (fun p => p.1.link)) ∧
        (∀ p, segs.getLast? = some p → p.1.link = f.size) :=
  ⟨⟨by unfold Layout.WellFormed; decide, fun n => by omega⟩,
   chain_integrity ⟨16, 64, 16, 2⟩ (by unfold Layout.WellFormed; decide)
     (fun n => min n 2147479552) (fun n => by show min n 2147479552 + 16 ≤ 2 ^ 32; omega)
     [Record.ofString 16 1 [1, 2, 3], Record.ofStrings 16 2 [4] [5, 6],
       Record.ofString 16 0 []]⟩

end picpac
